import Mathlib

/-!
# Commit-message cleaning hooks and the security dispatcher

A shallow embedding of the three hook scripts

* `backend-plugin/hooks/clean-commit-message.js` (command-rewrite mode),
* `hooks/clean-commit-message.js` (post-commit-amend mode),
* `hooks/security-dispatcher.js` (dispatch gate),

together with the fragment of ECMAScript regular expressions their
`String.prototype.replace` calls use.

JavaScript strings are sequences of UTF-16 code units; the regular
expressions of the scripts carry no `u` flag, so they match code unit by
code unit.  A string is therefore modelled as a list of code units.
-/

namespace Hooks

/-! ## Strings -/

/-- A JavaScript string: the list of its UTF-16 code units. -/
abbrev JStr := List Nat

/-- The UTF-16 code units of one Unicode scalar value. -/
def encodeChar (c : Char) : List Nat :=
  if c.toNat < 0x10000 then [c.toNat]
  else [0xD800 + (c.toNat - 0x10000) / 0x400, 0xDC00 + (c.toNat - 0x10000) % 0x400]

/-- The JavaScript string denoted by a source-text literal. -/
def u16 (s : String) : JStr := s.toList.flatMap encodeChar

/-- `String.prototype.includes`: `needle` occurs in the string as a substring. -/
def includes (needle : JStr) : JStr → Bool
  | [] => needle.isPrefixOf []
  | c :: t => needle.isPrefixOf (c :: t) || includes needle t

/-- `String.prototype.endsWith`. -/
def endsWith (needle : JStr) (s : JStr) : Bool := needle.isSuffixOf s

/-! ## Character classes -/

/-- The class `\n`. -/
def isNL (c : Nat) : Bool := c == 10

/-- The class `[^\n]`. -/
def notNL (c : Nat) : Bool := !(c == 10)

/-- ECMAScript *LineTerminator*: LF, CR, LS, PS. -/
def isLineTerminator (c : Nat) : Bool :=
  c == 10 || c == 13 || c == 0x2028 || c == 0x2029

/-- The class `.` (no `s` flag): every code unit except a line terminator. -/
def dot (c : Nat) : Bool := !isLineTerminator c

/-- The class `\s`, which is also the set `String.prototype.trim` strips:
*WhiteSpace* (TAB, VT, FF, ZWNBSP and the space separators) and *LineTerminator*. -/
def isSpace (c : Nat) : Bool :=
  c == 9 || c == 10 || c == 11 || c == 12 || c == 13 || c == 32 || c == 0xA0 ||
  c == 0x1680 || (0x2000 ≤ c && c ≤ 0x200A) || c == 0x2028 || c == 0x2029 ||
  c == 0x202F || c == 0x205F || c == 0x3000 || c == 0xFEFF

/-- A pattern character without the `i` flag. -/
def lit (p : Nat) (c : Nat) : Bool := c == p

/-- A pattern character under the `i` flag.  Without the `u` flag the two code
units are compared after `Canonicalize`, which upper-cases a code unit but
never maps a non-ASCII code unit to an ASCII one; the pattern characters of the
scripts are ASCII or surrogate halves, so `c` matches `p` exactly when it is
`p` or the ASCII letter of the other case. -/
def litCI (p : Nat) (c : Nat) : Bool :=
  c == p || (97 ≤ p && p ≤ 122 && c + 32 == p) || (65 ≤ p && p ≤ 90 && c == p + 32)

/-! ## The regular-expression fragment -/

/-- One term of a pattern: a single code unit of a class, a greedy repetition
`x*` (`lo = 0`), `x+` (`lo = 1`) or `x{lo,}` of a class, or the assertion `$`
under the `m` flag. -/
inductive Term where
  | one (cls : Nat → Bool)
  | many (cls : Nat → Bool) (lo : Nat)
  | eol

/-- The terms of a literal. -/
def lits (s : JStr) : List Term := s.map (fun p => Term.one (lit p))

/-- The terms of a literal under the `i` flag. -/
def litsCI (s : JStr) : List Term := s.map (fun p => Term.one (litCI p))

/-- Length of the longest run of `cls` code units at the head of the string. -/
def run (cls : Nat → Bool) (s : JStr) : Nat := (s.takeWhile cls).length

/-- The assertion `$` with the `m` flag: at the end of the input or right before
a line terminator. -/
def atLineEnd : JStr → Bool
  | [] => true
  | c :: _ => isLineTerminator c

/-- Backtracking of a greedy repetition: try the continuation `f` after `k`
repetitions, then after `k - 1`, ... down to `lo`; the first success wins. -/
def backoff (f : Nat → Option Nat) (lo : Nat) : Nat → Option Nat
  | 0 => if lo = 0 then f 0 else none
  | k + 1 =>
    if k + 1 < lo then none
    else match f (k + 1) with
      | some r => some r
      | none => backoff f lo k

/-- Match a pattern at the head of the string (the backtracking matcher of
ECMAScript restricted to the fragment); the result is the number of code units
the match consumes. -/
def matchTerms : List Term → JStr → Option Nat
  | [], _ => some 0
  | Term.one _ :: _, [] => none
  | Term.one cls :: ts, c :: t => if cls c then (matchTerms ts t).map (· + 1) else none
  | Term.many cls lo :: ts, s =>
    backoff (fun k => (matchTerms ts (s.drop k)).map (· + k)) lo (run cls s)
  | Term.eol :: ts, s => if atLineEnd s then matchTerms ts s else none

/-- The scan of `String.prototype.replace` with a global pattern and a
replacement text without `$`: `skip` code units of the current match are still
to be dropped; at `skip = 0` the pattern is tried at the current position.  A
match is replaced and the scan resumes right after it (one code unit further
when the match is empty); where the pattern fails the code unit is copied. -/
def replaceFrom (p : List Term) (rep : JStr) : Nat → JStr → JStr
  | 0, [] => match matchTerms p [] with
    | some _ => rep
    | none => []
  | _ + 1, [] => []
  | skip + 1, _ :: t => replaceFrom p rep skip t
  | 0, c :: t => match matchTerms p (c :: t) with
    | none => c :: replaceFrom p rep 0 t
    | some 0 => rep ++ c :: replaceFrom p rep 0 t
    | some (n + 1) => rep ++ replaceFrom p rep n t

/-- The call `s.replace(/p/g, rep)`. -/
def replaceAll (p : List Term) (rep : JStr) (s : JStr) : JStr := replaceFrom p rep 0 s

/-- `String.prototype.trim`. -/
def trim (s : JStr) : JStr := ((s.dropWhile isSpace).reverse.dropWhile isSpace).reverse

/-! ## The patterns of the scripts -/

/-- The class `[Cc]`. -/
def isCc (c : Nat) : Bool := c == 67 || c == 99

/-- The two code units of the robot emoji U+1F916. -/
def robot : JStr := [0xD83E, 0xDD16]

/-- The text `Co-Authored-By:`. -/
def coAuthoredBy : JStr := u16 "Co-Authored-By:"

/-- The pattern `/Co-Authored-By:.*[Cc]laude[^\n]*/g`. -/
def pCoClaude : List Term :=
  lits coAuthoredBy ++ Term.many dot 0 :: Term.one isCc :: lits (u16 "laude") ++ [Term.many notNL 0]

/-- The pattern `/Co-Authored-By:.*anthropic[^\n]*/g`. -/
def pCoAnthropic : List Term :=
  lits coAuthoredBy ++ Term.many dot 0 :: lits (u16 "anthropic") ++ [Term.many notNL 0]

/-- The pattern `/🤖.*[Cc]laude[^\n]*/g`. -/
def pRobot : List Term :=
  lits robot ++ Term.many dot 0 :: Term.one isCc :: lits (u16 "laude") ++ [Term.many notNL 0]

/-- The pattern `/\n{3,}/g`. -/
def pNewlines : List Term := [Term.many isNL 3]

/-- The pattern `/\n+EOF/g`. -/
def pHeredoc : List Term := Term.many isNL 1 :: lits (u16 "EOF")

/-- The pattern `/"\s*\n+\s*"/g`. -/
def pQuotes : List Term :=
  [Term.one (lit 34), Term.many isSpace 0, Term.many isNL 1, Term.many isSpace 0, Term.one (lit 34)]

/-- The pattern `/\n*Co-Authored-By:.*Claude.*$/gim`. -/
def aCoClaude : List Term :=
  Term.many isNL 0 :: litsCI coAuthoredBy ++ Term.many dot 0 :: litsCI (u16 "Claude") ++
    [Term.many dot 0, Term.eol]

/-- The pattern `/\n*Co-Authored-By:.*anthropic.*$/gim`. -/
def aCoAnthropic : List Term :=
  Term.many isNL 0 :: litsCI coAuthoredBy ++ Term.many dot 0 :: litsCI (u16 "anthropic") ++
    [Term.many dot 0, Term.eol]

/-- The pattern `/\n*🤖.*Claude.*$/gim`. -/
def aRobot : List Term :=
  Term.many isNL 0 :: litsCI robot ++ Term.many dot 0 :: litsCI (u16 "Claude") ++
    [Term.many dot 0, Term.eol]

/-- The pattern `/"/g`. -/
def pQuote : List Term := [Term.one (lit 34)]

/-! ## The cleaning chains -/

/-- The three signature removals of the command-rewrite hook (lines 17-19). -/
def stripSignatures (command : JStr) : JStr :=
  replaceAll pRobot [] (replaceAll pCoAnthropic [] (replaceAll pCoClaude [] command))

/-- The chain up to and including the heredoc-terminator collapse (lines 17-21). -/
def cleanCore (command : JStr) : JStr :=
  replaceAll pHeredoc (u16 "\nEOF") (replaceAll pNewlines (u16 "\n\n") (stripSignatures command))

/-- The value `cleaned` of the command-rewrite hook:
`backend-plugin/hooks/clean-commit-message.js`, lines 16-22. -/
def cleanCommand (command : JStr) : JStr :=
  replaceAll pQuotes [34] (cleanCore command)

/-- The three signature removals of the post-commit-amend hook (lines 20-22). -/
def stripSignaturesAmend (msg : JStr) : JStr :=
  replaceAll aRobot [] (replaceAll aCoAnthropic [] (replaceAll aCoClaude [] msg))

/-- The value `cleaned` of the post-commit-amend hook:
`hooks/clean-commit-message.js`, lines 19-24. -/
def cleanMessage (msg : JStr) : JStr :=
  trim (replaceAll pNewlines (u16 "\n\n") (stripSignaturesAmend msg))

/-- The value `escapedMsg` of the post-commit-amend hook (line 28):
`cleaned.replace(/"/g, '\\"')`. -/
def escapeQuotes (cleaned : JStr) : JStr := replaceAll pQuote [92, 34] cleaned

/-! ## JavaScript values and the hook environment -/

/-- A JavaScript value as the hooks can see one: `undefined`, or a value built
by `JSON.parse`.  Of a number the hooks only observe whether it is zero; an
object is given by its own properties, looked up by key. -/
inductive JVal where
  | undefined
  | null
  | bool (b : Bool)
  | num (nonzero : Bool)
  | str (s : JStr)
  | arr (xs : List JVal)
  | obj (fields : List (JStr × JVal))

/-- Look a key up in the fields of a parsed object. -/
def lookupField (key : JStr) : List (JStr × JVal) → JVal
  | [] => JVal.undefined
  | (k, v) :: rest => if k = key then v else lookupField key rest

/-- Property access `v.key` for the keys the hooks read (`tool_name`,
`tool_input`, `command`, `path`, `file_path`, `args`, `content`): a `TypeError`
(`none`) on `undefined` and `null`, the field of an object, and `undefined` on
every other value, none of which has such a property. -/
def getProp (key : JStr) : JVal → Option JVal
  | JVal.undefined => none
  | JVal.null => none
  | JVal.obj fields => some (lookupField key fields)
  | _ => some JVal.undefined

/-- Optional chaining `v?.key`. -/
def getPropOpt (key : JStr) : JVal → JVal
  | JVal.obj fields => lookupField key fields
  | _ => JVal.undefined

/-- The access `v[0]` on a truthy value. -/
def index0 : JVal → JVal
  | JVal.arr (x :: _) => x
  | JVal.str (c :: _) => JVal.str [c]
  | JVal.obj fields => lookupField [48] fields
  | _ => JVal.undefined

/-- JavaScript `ToBoolean`. -/
def truthy : JVal → Bool
  | JVal.undefined => false
  | JVal.null => false
  | JVal.bool b => b
  | JVal.num nonzero => nonzero
  | JVal.str s => !s.isEmpty
  | JVal.arr _ => true
  | JVal.obj _ => true

/-- The operator `a || b`. -/
def jsOr (a b : JVal) : JVal := if truthy a then a else b

/-- The operator `a && b`. -/
def jsAnd (a b : JVal) : JVal := if truthy a then b else a

/-- The comparison `v === 'text'`. -/
def strictEq (v : JVal) (text : JStr) : Bool :=
  match v with
  | JVal.str s => s == text
  | _ => false

/-- The method call `v.includes('text')`: defined on strings (substring test)
and arrays (membership); calling it on any other value throws (`none`). -/
def callIncludes (v : JVal) (text : JStr) : Option Bool :=
  match v with
  | JVal.str s => some (includes text s)
  | JVal.arr xs => some (xs.any (fun x => strictEq x text))
  | _ => none

/-- The method call `v.endsWith('text')`: defined on strings only. -/
def callEndsWith (v : JVal) (text : JStr) : Option Bool :=
  match v with
  | JVal.str s => some (endsWith text s)
  | _ => none

/-- The lines a hook writes to the diagnostic stream. -/
inductive Log where
  | started
  | removed
  | nothingToRemove
  | cleanerError
  | toolAndFile (toolName filePath : JVal)
  | productionDenied
  | realApiWarning
  | allRulesPassed
  | dispatcherError

/-- What one run of a hook does: its exit status, the values it prints to
standard output through `JSON.stringify`, its diagnostic lines and the command
lines it hands to `execSync`, each in order. -/
structure Outcome where
  exit : Nat
  stdout : List JVal
  stderr : List Log
  execs : List JStr

/-! ## The command-rewrite hook -/

/-- The hook `backend-plugin/hooks/clean-commit-message.js`; `parsed` is the result of
`JSON.parse` on standard input, `none` when reading or parsing throws. -/
def commandRewriteHook (parsed : Option JVal) : Outcome :=
  let failed : Outcome := ⟨0, [], [Log.started, Log.cleanerError], []⟩
  match parsed with
  | none => failed
  | some data =>
    match getProp (u16 "tool_input") data with
    | none => failed
    | some toolInput =>
      let command := jsOr (getPropOpt (u16 "command") toolInput) (JVal.str [])
      match callIncludes command (u16 "git commit") with
      | none => failed
      | some false => ⟨0, [], [Log.started], []⟩
      | some true =>
        match command with
        | JVal.str text =>
          let cleaned := cleanCommand text
          if text ≠ cleaned then
            ⟨0, [JVal.obj [(u16 "command", JVal.str cleaned)]], [Log.started, Log.removed], []⟩
          else ⟨0, [], [Log.started, Log.nothingToRemove], []⟩
        | _ => failed

/-! ## The post-commit-amend hook -/

/-- The command line of the history read (line 17). -/
def gitLogCommand : JStr := u16 "git log -1 --format=%B"

/-- The command line of the amend (line 29): the escaped message between
double quotes after `git commit --amend -m `. -/
def amendCommand (escapedMsg : JStr) : JStr :=
  u16 "git commit --amend -m " ++ 34 :: escapedMsg ++ [34]

/-- The hook `hooks/clean-commit-message.js`; `parsed` is the result of `JSON.parse` on
standard input (`none` when reading or parsing throws), `headMessage` the output
of the history read (`none` when `execSync` throws) and `amendSucceeds` tells
whether the `execSync` of the amend returns normally. -/
def amendHook (parsed : Option JVal) (headMessage : Option JStr) (amendSucceeds : Bool) :
    Outcome :=
  let failed (execs : List JStr) : Outcome := ⟨0, [], [Log.started, Log.cleanerError], execs⟩
  match parsed with
  | none => failed []
  | some data =>
    match getProp (u16 "tool_input") data with
    | none => failed []
    | some toolInput =>
      let command := jsOr (getPropOpt (u16 "command") toolInput) (JVal.str [])
      match callIncludes command (u16 "git commit") with
      | none => failed []
      | some false => ⟨0, [], [Log.started], []⟩
      | some true =>
        match headMessage with
        | none => failed [gitLogCommand]
        | some msg =>
          let cleaned := cleanMessage msg
          if trim msg ≠ cleaned then
            let escapedMsg := escapeQuotes cleaned
            if amendSucceeds then
              ⟨0, [], [Log.started, Log.removed], [gitLogCommand, amendCommand escapedMsg]⟩
            else failed [gitLogCommand, amendCommand escapedMsg]
          else ⟨0, [], [Log.started, Log.nothingToRemove], [gitLogCommand]⟩

/-! ## The dispatch gate -/

/-- The value `filePath` of the dispatcher (line 11):
`tool_input.path || tool_input.file_path || (tool_input.args && tool_input.args[0]) || ''`;
`none` when a property access throws. -/
def resolveFilePath (toolInput : JVal) : Option JVal :=
  match getProp (u16 "path") toolInput with
  | none => none
  | some path =>
    if truthy path then some path
    else match getProp (u16 "file_path") toolInput with
      | none => none
      | some filePath =>
        if truthy filePath then some filePath
        else match getProp (u16 "args") toolInput with
          | none => none
          | some args => some (jsOr (jsAnd args (index0 args)) (JVal.str []))

/-- The condition of rule 1 (line 18): the path contains a production-config
file name; `none` when `includes` throws. -/
def isProductionConfig (filePath : JVal) : Option Bool :=
  match callIncludes filePath (u16 "application-prod.yml") with
  | none => none
  | some true => some true
  | some false => callIncludes filePath (u16 "application-production.yml")

/-- The condition of rule 2 (line 28): the path is a test source file. -/
def isTestFile (filePath : JVal) : Option Bool :=
  match callIncludes filePath (u16 "src/test/") with
  | none => none
  | some false => some false
  | some true => callEndsWith filePath (u16 "Test.java")

/-- The condition of the warning (line 32): the content names the payment API
host and carries no `@Disabled`. -/
def callsRealApi (content : JVal) : Option Bool :=
  match callIncludes content (u16 "api.tosspayments.com") with
  | none => none
  | some false => some false
  | some true => (callIncludes content (u16 "@Disabled")).map (fun b => !b)

/-- The parsed object has an own property of the given name. -/
def hasField (key : JStr) : List (JStr × JVal) → Bool
  | [] => false
  | (k, _) :: rest => decide (k = key) || hasField key rest

mutual
/-- The string conversion of a value in a template literal throws a `TypeError`.  A parsed
object converts through the inherited `toString` unless an own property `toString` shadows
it: a parsed value is never callable and the inherited `valueOf` returns the object, so no
primitive is found.  An array converts through `join`, which converts its elements. -/
def throwsOnToString : JVal → Bool
  | JVal.obj fields => hasField (u16 "toString") fields
  | JVal.arr xs => throwsInJoin xs
  | _ => false
/-- The conversion of an element of the array throws; `join` converts each element that is
neither `undefined` nor `null`. -/
def throwsInJoin : List JVal → Bool
  | [] => false
  | x :: rest => throwsOnToString x || throwsInJoin rest
end

/-- Rule 2 and the default (lines 28-41), run when rule 1 did not deny. -/
def dispatchRule2 (toolName filePath toolInput : JVal) : Outcome :=
  let logged : List Log := [Log.started, Log.toolAndFile toolName filePath]
  let failed : Outcome := ⟨0, [], logged ++ [Log.dispatcherError], []⟩
  let passed (warned : Bool) : Outcome :=
    ⟨0, [], logged ++ (if warned then [Log.realApiWarning] else []) ++ [Log.allRulesPassed], []⟩
  match isTestFile filePath with
  | none => failed
  | some false => passed false
  | some true =>
    if strictEq toolName (u16 "Write") then
      match getProp (u16 "content") toolInput with
      | none => failed
      | some c =>
        match callsRealApi (jsOr c (JVal.str [])) with
        | none => failed
        | some warned => passed warned
    else passed false

/-- The hook `hooks/security-dispatcher.js`; `parsed` is the result of `JSON.parse` on
standard input, `none` when reading or parsing throws.  The template literal of line 13
converts `toolName`, then `filePath`, to a string before any rule runs; a conversion that
throws is caught like every other error. -/
def securityDispatcher (parsed : Option JVal) : Outcome :=
  let early : Outcome := ⟨0, [], [Log.started, Log.dispatcherError], []⟩
  match parsed with
  | none => early
  | some data =>
    match getProp (u16 "tool_name") data with
    | none => early
    | some toolName =>
      match getProp (u16 "tool_input") data with
      | none => early
      | some toolInput =>
        match resolveFilePath toolInput with
        | none => early
        | some filePath =>
          if throwsOnToString toolName || throwsOnToString filePath then early
          else
            let logged : List Log := [Log.started, Log.toolAndFile toolName filePath]
            match isProductionConfig filePath with
            | none => ⟨0, [], logged ++ [Log.dispatcherError], []⟩
            | some true =>
              if strictEq toolName (u16 "Edit") || strictEq toolName (u16 "Write") then
                ⟨2, [], logged ++ [Log.productionDenied], []⟩
              else dispatchRule2 toolName filePath toolInput
            | some false => dispatchRule2 toolName filePath toolInput

/-! ## Vocabulary of the properties -/

/-- The pattern matches somewhere in the string (`/p/.test(s)`). -/
def matchesIn (p : List Term) : JStr → Bool
  | [] => (matchTerms p []).isSome
  | c :: t => (matchTerms p (c :: t)).isSome || matchesIn p t

/-- The string contains a match of a signature pattern of the command-rewrite hook. -/
def hasSignature (s : JStr) : Bool :=
  matchesIn pCoClaude s || matchesIn pCoAnthropic s || matchesIn pRobot s

/-- The string contains a match of a signature pattern of the post-commit-amend hook. -/
def hasSignatureAmend (s : JStr) : Bool :=
  matchesIn aCoClaude s || matchesIn aCoAnthropic s || matchesIn aRobot s

/-- A field of `tool_input` that is absent or a string. -/
def StrOrAbsent : JVal → Prop
  | JVal.undefined => True
  | JVal.str _ => True
  | _ => False

/-- An array of strings. -/
def AllStrings : List JVal → Prop
  | [] => True
  | JVal.str _ :: rest => AllStrings rest
  | _ :: _ => False

/-- The field `args` of `tool_input`: absent or an array of strings. -/
def ArgsOrAbsent : JVal → Prop
  | JVal.undefined => True
  | JVal.arr xs => AllStrings xs
  | _ => False

/-- A well-formed `tool_input` of the dispatch gate: an object whose fields `path`,
`file_path` and `content` are strings when present and whose `args` is an array of strings
when present. -/
def WellFormedInput (toolInput : JVal) : Prop :=
  ∃ fields, toolInput = JVal.obj fields ∧
    StrOrAbsent (lookupField (u16 "path") fields) ∧
    StrOrAbsent (lookupField (u16 "file_path") fields) ∧
    StrOrAbsent (lookupField (u16 "content") fields) ∧
    ArgsOrAbsent (lookupField (u16 "args") fields)

/-- Two `tool_input` values that differ at most in `content`. -/
def SameTarget (a b : JVal) : Prop :=
  getProp (u16 "path") a = getProp (u16 "path") b ∧
  getProp (u16 "file_path") a = getProp (u16 "file_path") b ∧
  getProp (u16 "args") a = getProp (u16 "args") b

/-- The command string the commit-cleaning hooks work on: `tool_input?.command || ''`,
when the payload parses, `tool_input` can be read and the value is a string. -/
def commandText (parsed : Option JVal) : Option JStr :=
  match parsed with
  | none => none
  | some data =>
    match getProp (u16 "tool_input") data with
    | none => none
    | some toolInput =>
      match jsOr (getPropOpt (u16 "command") toolInput) (JVal.str []) with
      | JVal.str text => some text
      | _ => none

/-- Every double quote of the text is preceded by an odd-length run of backslashes;
`odd` is the parity of the run of backslashes that ends right before the head. -/
def quotesEscapedFrom : Bool → JStr → Bool
  | _, [] => true
  | odd, c :: t =>
    if c = 92 then quotesEscapedFrom (!odd) t
    else if c = 34 then odd && quotesEscapedFrom false t
    else quotesEscapedFrom false t

/-- Every double quote of the text is preceded by an odd-length run of backslashes. -/
def quotesEscaped (s : JStr) : Bool := quotesEscapedFrom false s

/-- The `tool_input` of a whole-file write of `content` to `filePath`. -/
def writeInput (filePath content : JStr) : JVal :=
  JVal.obj [(u16 "file_path", JVal.str filePath), (u16 "content", JVal.str content)]

/-- The event of a whole-file write of `content` to `filePath`. -/
def writeEvent (filePath content : JStr) : JVal :=
  JVal.obj [(u16 "tool_name", JVal.str (u16 "Write")),
    (u16 "tool_input", writeInput filePath content)]

/-- The event of a shell command about to run (or just run). -/
def commandEvent (command : JStr) : JVal :=
  JVal.obj [(u16 "tool_name", JVal.str (u16 "Bash")),
    (u16 "tool_input", JVal.obj [(u16 "command", JVal.str command)])]

/-- The string starts with code units of the given classes, one after the other. -/
def classPrefix : List (Nat → Bool) → JStr → Bool
  | [], _ => true
  | _ :: _, [] => false
  | c :: cs, x :: t => c x && classPrefix cs t

/-- The shape of a signature at the head of a string: code units of the classes `H`,
then code units other than line terminators, then code units of the classes `T`. -/
def SigAt (H T : List (Nat → Bool)) (s : JStr) : Prop :=
  classPrefix H s = true ∧
    ∃ k, k ≤ run dot (s.drop H.length) ∧ classPrefix T (s.drop (H.length + k)) = true

/-- The first segment of a string: its code units up to the first line terminator. -/
def seg (s : JStr) : JStr := s.takeWhile dot

/-- Every match of the pattern is non-empty and ends at the end of the input or right
before a line terminator. -/
def EndsSegment (p : List Term) : Prop :=
  ∀ s n, matchTerms p s = some n → 0 < n ∧ atLineEnd (s.drop n) = true

/-- The pattern matches nowhere in the string. -/
def NoMatch (p : List Term) (s : JStr) : Prop :=
  ∀ u, u <:+ s → matchTerms p u = none

/-- Segment simulation: every position of `out` corresponds to a position of `inp`
whose first segment extends the first segment at the position of `out`. -/
def SegSim (out inp : JStr) : Prop :=
  ∀ u, u <:+ out → ∃ v, v <:+ inp ∧ seg u <+: seg v

/-- The common shape of the signature patterns: the classes `H`, then `.*`, then the
classes `T`, then the tail `tl`. -/
def sigPattern (H T : List (Nat → Bool)) (tl : List Term) : List Term :=
  H.map Term.one ++ Term.many dot 0 :: (T.map Term.one ++ tl)

/-- The classes of a signature pattern are well-formed: both parts are non-empty and
accept no line terminator. -/
def GoodSig (H T : List (Nat → Bool)) : Prop :=
  (∃ c H2, H = c :: H2) ∧ (∃ c T2, T = c :: T2) ∧
  (∀ c ∈ H, ∀ x, c x = true → dot x = true) ∧ (∀ c ∈ T, ∀ x, c x = true → dot x = true)

/-- A failure of the pattern at a position carries over to every position whose first
segment is a prefix of the segment there. -/
def SegMonotone (p : List Term) : Prop :=
  ∀ u v, seg u <+: seg v → matchTerms p v = none → matchTerms p u = none

/-- The classes of `Co-Authored-By:`. -/
def hCo : List (Nat → Bool) := coAuthoredBy.map lit

/-- The classes of the robot emoji. -/
def hRobot : List (Nat → Bool) := robot.map lit

/-- The classes of `[Cc]laude`. -/
def tClaude : List (Nat → Bool) := isCc :: (u16 "laude").map lit

/-- The classes of `anthropic`. -/
def tAnthropic : List (Nat → Bool) := (u16 "anthropic").map lit

/-- The classes of `Co-Authored-By:` under the `i` flag. -/
def hCoCI : List (Nat → Bool) := coAuthoredBy.map litCI

/-- The classes of the robot emoji under the `i` flag. -/
def hRobotCI : List (Nat → Bool) := robot.map litCI

/-- The classes of `Claude` under the `i` flag. -/
def tClaudeCI : List (Nat → Bool) := (u16 "Claude").map litCI

/-- The classes of `anthropic` under the `i` flag. -/
def tAnthropicCI : List (Nat → Bool) := (u16 "anthropic").map litCI

/-- Simulation for a class `c`: every position of `out` corresponds to a position of `inp`
where the run of `c` code units extends the run at the position of `out`. -/
def Sim (c : Nat → Bool) (out inp : JStr) : Prop :=
  ∀ u, u <:+ out → ∃ v, v <:+ inp ∧ u.takeWhile c <+: v.takeWhile c

/-- The classes of `EOF`. -/
def eofCls : List (Nat → Bool) := (u16 "EOF").map lit

/-- Every match of the heredoc pattern in the string is exactly `\nEOF`: no blank line
stands before a heredoc terminator. -/
def Stable5 (s : JStr) : Prop :=
  ∀ u, u <:+ s → ∀ n, matchTerms pHeredoc u = some n → n = 4

/-- A signature line: a line without newline that the first signature pattern to find a
match in it matches from its first code unit on, so that the hook removes it whole. -/
def SignatureLine (L : JStr) : Prop :=
  (∀ x ∈ L, x ≠ 10) ∧
  ((matchTerms pCoClaude L).isSome = true ∨
    (matchesIn pCoClaude L = false ∧ (matchTerms pCoAnthropic L).isSome = true) ∨
    (matchesIn pCoClaude L = false ∧ matchesIn pCoAnthropic L = false ∧
      (matchTerms pRobot L).isSome = true))

/-- A signature pattern of the command-rewrite hook: `H.*T[^\n]*` with well-formed classes. -/
def IsSigNL (p : List Term) : Prop :=
  ∃ H T, GoodSig H T ∧ p = sigPattern H T [Term.many notNL 0]

/-- The core of the pattern `/\n*Co-Authored-By:.*Claude.*$/gim`, after `\n*`. -/
def cCoClaude : List Term := sigPattern hCoCI tClaudeCI [Term.many dot 0, Term.eol]

/-- The core of the pattern `/\n*Co-Authored-By:.*anthropic.*$/gim`, after `\n*`. -/
def cCoAnthropic : List Term := sigPattern hCoCI tAnthropicCI [Term.many dot 0, Term.eol]

/-- The core of the pattern `/\n*🤖.*Claude.*$/gim`, after `\n*`. -/
def cRobot : List Term := sigPattern hRobotCI tClaudeCI [Term.many dot 0, Term.eol]

/-- A core of a signature pattern of the post-commit-amend hook: `H.*T.*$` with well-formed
classes. -/
def IsSigDot (p : List Term) : Prop :=
  ∃ H T, GoodSig H T ∧ p = sigPattern H T [Term.many dot 0, Term.eol]

/-- The number of code units of the string that are not white space. -/
def inkCount (s : JStr) : Nat := s.countP (fun c => !isSpace c)

/-- The text that results from replacing every double quote by a backslash and a double
quote. -/
def backslashQuotes (s : JStr) : JStr := s.flatMap (fun c => if c = 34 then [92, 34] else [c])

/-- The string a field holds, when the field is present and a string. -/
def asStr : JVal → Option JStr
  | JVal.str s => some s
  | _ => none

/-- The first element of the field `args`, when the field is an array that starts with a
string. -/
def firstArg : JVal → Option JStr
  | JVal.arr (JVal.str s :: _) => some s
  | _ => none

/-- The resolved path in the words of the specification: `path` when present and
non-empty, otherwise `file_path` when present and non-empty, otherwise the first element
of `args` when present and non-empty, otherwise the empty string. -/
def resolvedBySpec (path filePath first : Option JStr) : JStr :=
  match path with
  | some (c :: t) => c :: t
  | _ =>
    match filePath with
    | some (c :: t) => c :: t
    | _ =>
      match first with
      | some (c :: t) => c :: t
      | _ => []

/-- A `tool_input` whose `path` is an empty array and whose `file_path` is `a.txt`. -/
def emptyArrayPathInput : JVal :=
  JVal.obj [(u16 "path", JVal.arr []), (u16 "file_path", JVal.str (u16 "a.txt"))]

/-- A value that is absent: `undefined` or `null`. -/
def Absent : JVal → Prop
  | JVal.undefined => True
  | JVal.null => True
  | _ => False

/-- A value that is present and not an object: a string, a number, a boolean or an
array. -/
def PrimitiveOrArray : JVal → Prop
  | JVal.str _ => True
  | JVal.num _ => True
  | JVal.bool _ => True
  | JVal.arr _ => True
  | _ => False

/-- The payload of an `Edit` whose `tool_input` is the string `application-prod.yml`. -/
def stringInputEvent : JVal :=
  JVal.obj [(u16 "tool_name", JVal.str (u16 "Edit")),
    (u16 "tool_input", JVal.str (u16 "application-prod.yml"))]

/-- The text `git commit`. -/
def gitCommit : JStr := u16 "git commit"

/-- The pattern matches at a position of `L` in the string `L ++ rest`. -/
def startsIn (p : List Term) : JStr → JStr → Bool
  | [], _ => false
  | x :: l, rest => (matchTerms p (x :: l ++ rest)).isSome || startsIn p l rest

/-- A signature pattern of the command-rewrite hook matches at a position of `L` in the
string `L ++ rest`: a signature starts in `L`. -/
def signatureStartsIn (L rest : JStr) : Bool :=
  startsIn pCoClaude L rest || startsIn pCoAnthropic L rest || startsIn pRobot L rest

end Hooks

/-! # Properties -/

namespace Hooks

/-! ## The dispatch gate -/

theorem dispatchRule2_exit (toolName filePath toolInput : JVal) :
    (dispatchRule2 toolName filePath toolInput).exit = 0 := by
  unfold dispatchRule2
  simp only []
  repeat' split
  all_goals rfl

theorem resolveFilePath_congr (a b : JVal) (h : SameTarget a b) :
    resolveFilePath a = resolveFilePath b := by
  obtain ⟨h1, h2, h3⟩ := h
  unfold resolveFilePath
  rw [h1, h2, h3]

theorem strOrAbsent_truthy (v : JVal) (h : StrOrAbsent v) (ht : truthy v = true) :
    ∃ s : JStr, v = JVal.str s := by
  cases v <;> simp only [StrOrAbsent] at h
  · simp [truthy] at ht
  · exact ⟨_, rfl⟩

theorem firstArg_string (a : JVal) (h : ArgsOrAbsent a) :
    ∃ path : JStr, jsOr (jsAnd a (index0 a)) (JVal.str []) = JVal.str path := by
  cases a <;> simp only [ArgsOrAbsent] at h
  · exact ⟨[], by simp [truthy, jsOr, jsAnd]⟩
  · rename_i xs
    cases xs with
    | nil => exact ⟨[], by simp [truthy, jsOr, jsAnd, index0]⟩
    | cons x rest =>
      cases x <;> simp only [AllStrings] at h
      rename_i s
      by_cases hs : s.isEmpty = true
      · exact ⟨[], by simp [truthy, jsOr, jsAnd, index0, hs]⟩
      · exact ⟨s, by simp [truthy, jsOr, jsAnd, index0, hs]⟩

theorem resolveFilePath_wellFormed (toolInput : JVal) (h : WellFormedInput toolInput) :
    ∃ path : JStr, resolveFilePath toolInput = some (JVal.str path) := by
  obtain ⟨fields, rfl, hp, hf, _, ha⟩ := h
  unfold resolveFilePath
  simp only [getProp]
  by_cases h1 : truthy (lookupField (u16 "path") fields) = true
  · obtain ⟨s, hs⟩ := strOrAbsent_truthy _ hp h1
    exact ⟨s, by rw [if_pos h1, hs]⟩
  · rw [if_neg h1]
    by_cases h2 : truthy (lookupField (u16 "file_path") fields) = true
    · obtain ⟨s, hs⟩ := strOrAbsent_truthy _ hf h2
      exact ⟨s, by rw [if_pos h2, hs]⟩
    · rw [if_neg h2]
      obtain ⟨s, hs⟩ := firstArg_string _ ha
      exact ⟨s, by rw [hs]⟩

theorem strictEq_iff (v : JVal) (text : JStr) :
    strictEq v text = true ↔ v = JVal.str text := by
  cases v <;> simp [strictEq]

theorem strictEq_of_throws (v : JVal) (text : JStr) (h : throwsOnToString v = true) :
    strictEq v text = false := by
  cases v <;> simp_all [strictEq, throwsOnToString]

theorem securityDispatcher_exit (data toolName toolInput : JVal) (path : JStr)
    (hname : getProp (u16 "tool_name") data = some toolName)
    (hinput : getProp (u16 "tool_input") data = some toolInput)
    (hpath : resolveFilePath toolInput = some (JVal.str path)) :
    (securityDispatcher (some data)).exit =
      if (includes (u16 "application-prod.yml") path ||
            includes (u16 "application-production.yml") path) &&
          (strictEq toolName (u16 "Edit") || strictEq toolName (u16 "Write"))
      then 2 else 0 := by
  have hstr : throwsOnToString (JVal.str path) = false := by simp [throwsOnToString]
  unfold securityDispatcher
  simp only [hname, hinput, hpath, isProductionConfig, callIncludes, hstr, Bool.or_false]
  by_cases ht : throwsOnToString toolName = true
  · have he : ∀ text, strictEq toolName text = false := fun text =>
      strictEq_of_throws toolName text ht
    simp [ht, he]
  · simp only [Bool.not_eq_true] at ht
    simp only [ht, Bool.false_eq_true, if_false]
    by_cases h1 : includes (u16 "application-prod.yml") path = true
    · simp only [h1, Bool.true_or, Bool.true_and]
      by_cases h3 : (strictEq toolName (u16 "Edit") || strictEq toolName (u16 "Write")) = true
      · simp only [h3, if_true]
      · simp only [h3]
        exact dispatchRule2_exit _ _ _
    · simp only [Bool.not_eq_true] at h1
      simp only [h1, Bool.false_or]
      by_cases h2 : includes (u16 "application-production.yml") path = true
      · simp only [h2, Bool.true_and]
        by_cases h3 : (strictEq toolName (u16 "Edit") || strictEq toolName (u16 "Write")) = true
        · simp only [h3, if_true]
        · simp only [h3]
          exact dispatchRule2_exit _ _ _
      · simp only [Bool.not_eq_true] at h2
        simp [h2, dispatchRule2_exit]

/-- C5. Dispatch gate hard deny, exactly: on an event whose `tool_input` is an object with
string fields the resolved path is a string, the gate exits with status 2 if and only if
that path contains `application-prod.yml` or `application-production.yml` and `tool_name`
is `Edit` or `Write`, it exits 0 in every other case, and an event that differs at most in
`tool_input.content` gets the same exit status. -/
theorem dispatcher_hard_deny_exact (data toolName toolInput : JVal)
    (hname : getProp (u16 "tool_name") data = some toolName)
    (hinput : getProp (u16 "tool_input") data = some toolInput)
    (hwf : WellFormedInput toolInput) :
    ∃ path : JStr, resolveFilePath toolInput = some (JVal.str path) ∧
      ((securityDispatcher (some data)).exit = 2 ↔
        (includes (u16 "application-prod.yml") path = true ∨
            includes (u16 "application-production.yml") path = true) ∧
          (toolName = JVal.str (u16 "Edit") ∨ toolName = JVal.str (u16 "Write"))) ∧
      ((securityDispatcher (some data)).exit ≠ 2 → (securityDispatcher (some data)).exit = 0) ∧
      ∀ data2 toolInput2 : JVal,
        getProp (u16 "tool_name") data2 = some toolName →
        getProp (u16 "tool_input") data2 = some toolInput2 →
        SameTarget toolInput toolInput2 →
        (securityDispatcher (some data2)).exit = (securityDispatcher (some data)).exit := by
  obtain ⟨path, hpath⟩ := resolveFilePath_wellFormed toolInput hwf
  have hexit := securityDispatcher_exit data toolName toolInput path hname hinput hpath
  refine ⟨path, hpath, ?_, ?_, ?_⟩
  · rw [hexit]
    constructor
    · intro h
      split at h
      · rename_i hc
        simpa [Bool.and_eq_true, Bool.or_eq_true, strictEq_iff] using hc
      · exact absurd h (by decide)
    · intro h
      rw [if_pos (by simpa [Bool.and_eq_true, Bool.or_eq_true, strictEq_iff] using h)]
  · rw [hexit]
    intro h
    split
    · rename_i hc
      rw [if_pos hc] at h
      exact absurd rfl h
    · rfl
  · intro data2 toolInput2 hname2 hinput2 hsame
    have hpath2 : resolveFilePath toolInput2 = some (JVal.str path) := by
      rw [← resolveFilePath_congr toolInput toolInput2 hsame]; exact hpath
    rw [hexit, securityDispatcher_exit data2 toolName toolInput2 path hname2 hinput2 hpath2]

/-- Witness of C5: a `Write` of `src/main/resources/application-prod.yml`. -/
theorem dispatcher_hard_deny_exact_witness :
    WellFormedInput (writeInput (u16 "src/main/resources/application-prod.yml") (u16 "a: 1")) ∧
    (securityDispatcher
      (some (writeEvent (u16 "src/main/resources/application-prod.yml") (u16 "a: 1")))).exit
        = 2 := by
  have hwf : WellFormedInput
      (writeInput (u16 "src/main/resources/application-prod.yml") (u16 "a: 1")) :=
    ⟨_, rfl, by simp [lookupField, u16, encodeChar, StrOrAbsent],
      by simp [lookupField, u16, encodeChar, StrOrAbsent],
      by simp [lookupField, u16, encodeChar, StrOrAbsent],
      by simp [lookupField, u16, encodeChar, ArgsOrAbsent]⟩
  obtain ⟨path, hpath, hiff, -⟩ := dispatcher_hard_deny_exact
    (writeEvent (u16 "src/main/resources/application-prod.yml") (u16 "a: 1"))
    (JVal.str (u16 "Write"))
    (writeInput (u16 "src/main/resources/application-prod.yml") (u16 "a: 1"))
    rfl rfl hwf
  have hp : path = u16 "src/main/resources/application-prod.yml" := by
    have h : resolveFilePath
        (writeInput (u16 "src/main/resources/application-prod.yml") (u16 "a: 1")) =
        some (JVal.str (u16 "src/main/resources/application-prod.yml")) := rfl
    rw [h] at hpath
    injection hpath with h1
    injection h1 with h2
    exact h2.symm
  subst hp
  exact ⟨hwf, hiff.mpr ⟨Or.inl (by decide), Or.inr rfl⟩⟩

/-- C6, as amended. Dispatch gate warn-not-block: on an event with `tool_name` `Write`
whose resolved path contains `src/test/`, ends with `Test.java` and contains neither
production-config file name, and whose content contains `api.tosspayments.com` but not
`@Disabled`, the gate logs the warning and exits with status 0. -/
theorem dispatcher_warns_without_blocking (data toolInput : JVal) (path content : JStr)
    (hname : getProp (u16 "tool_name") data = some (JVal.str (u16 "Write")))
    (hinput : getProp (u16 "tool_input") data = some toolInput)
    (hpath : resolveFilePath toolInput = some (JVal.str path))
    (hcontent : getProp (u16 "content") toolInput = some (JVal.str content))
    (hprod : includes (u16 "application-prod.yml") path = false)
    (hproduction : includes (u16 "application-production.yml") path = false)
    (htest : includes (u16 "src/test/") path = true)
    (hjava : endsWith (u16 "Test.java") path = true)
    (hapi : includes (u16 "api.tosspayments.com") content = true)
    (hdisabled : includes (u16 "@Disabled") content = false) :
    securityDispatcher (some data) =
      ⟨0, [], [Log.started, Log.toolAndFile (JVal.str (u16 "Write")) (JVal.str path),
        Log.realApiWarning, Log.allRulesPassed], []⟩ := by
  have hw : strictEq (JVal.str (u16 "Write")) (u16 "Write") = true := by decide
  have hne : content ≠ [] := by
    rintro rfl
    exact absurd hapi (by decide)
  have htr : truthy (JVal.str content) = true := by
    cases content with
    | nil => exact absurd rfl hne
    | cons c t => rfl
  have hs : ∀ s : JStr, throwsOnToString (JVal.str s) = false := fun s => by
    simp [throwsOnToString]
  unfold securityDispatcher
  simp only [hname, hinput, hpath, isProductionConfig, callIncludes, hprod, hproduction, hs,
    Bool.or_false, Bool.false_eq_true, if_false]
  unfold dispatchRule2
  simp only [isTestFile, callIncludes, callEndsWith, htest, hjava, hw, if_true, hcontent,
    jsOr, htr, callsRealApi, hapi, hdisabled, Option.map_some', Bool.not_false,
    List.cons_append, List.nil_append]

/-- Witness of C6 as amended: a `Write` of `src/test/java/PayTest.java` that names the API host. -/
theorem dispatcher_warns_without_blocking_witness :
    (securityDispatcher (some (writeEvent (u16 "src/test/java/PayTest.java")
      (u16 "https://api.tosspayments.com/v1")))).exit = 0 := by
  rw [dispatcher_warns_without_blocking
    (writeEvent (u16 "src/test/java/PayTest.java") (u16 "https://api.tosspayments.com/v1"))
    (writeInput (u16 "src/test/java/PayTest.java") (u16 "https://api.tosspayments.com/v1"))
    (u16 "src/test/java/PayTest.java") (u16 "https://api.tosspayments.com/v1")
    rfl rfl rfl rfl (by decide) (by decide) (by decide) (by decide) (by decide) (by decide)]

/-- Counterexample to C6 as stated: a `Write` whose path contains `src/test/`, ends with
`Test.java` and whose content names the API host without `@Disabled` is blocked with
status 2 when the path also contains `application-prod.yml`. -/
theorem dispatcher_warn_blocked_counterexample :
    getProp (u16 "tool_name")
        (writeEvent (u16 "src/test/application-prod.yml/PayTest.java")
          (u16 "https://api.tosspayments.com/v1")) = some (JVal.str (u16 "Write")) ∧
    resolveFilePath
        (writeInput (u16 "src/test/application-prod.yml/PayTest.java")
          (u16 "https://api.tosspayments.com/v1")) =
      some (JVal.str (u16 "src/test/application-prod.yml/PayTest.java")) ∧
    includes (u16 "src/test/") (u16 "src/test/application-prod.yml/PayTest.java") = true ∧
    endsWith (u16 "Test.java") (u16 "src/test/application-prod.yml/PayTest.java") = true ∧
    includes (u16 "api.tosspayments.com") (u16 "https://api.tosspayments.com/v1") = true ∧
    includes (u16 "@Disabled") (u16 "https://api.tosspayments.com/v1") = false ∧
    (securityDispatcher (some (writeEvent (u16 "src/test/application-prod.yml/PayTest.java")
      (u16 "https://api.tosspayments.com/v1")))).exit = 2 :=
  ⟨rfl, rfl, by decide, by decide, by decide, by decide, by decide⟩

end Hooks

namespace Hooks

/-! ## The command-rewrite hook: emission -/

theorem commandRewriteHook_exit (parsed : Option JVal) : (commandRewriteHook parsed).exit = 0 := by
  unfold commandRewriteHook
  simp only []
  repeat' split
  all_goals rfl

theorem commandRewriteHook_stdout (parsed : Option JVal) :
    (commandRewriteHook parsed).stdout =
      match commandText parsed with
      | some text =>
        if includes (u16 "git commit") text = true ∧ cleanCommand text ≠ text then
          [JVal.obj [(u16 "command", JVal.str (cleanCommand text))]]
        else []
      | none => [] := by
  unfold commandRewriteHook commandText
  cases parsed with
  | none => rfl
  | some data =>
    simp only []
    cases getProp (u16 "tool_input") data with
    | none => rfl
    | some toolInput =>
      simp only []
      generalize jsOr (getPropOpt (u16 "command") toolInput) (JVal.str []) = command
      cases command with
      | str text =>
        simp only [callIncludes]
        by_cases hi : includes (u16 "git commit") text = true
        · simp only [hi, true_and]
          by_cases hc : text = cleanCommand text
          · rw [if_neg (by simpa using hc), if_neg (by simpa using hc.symm)]
          · rw [if_pos (by simpa using hc), if_pos (by simpa using fun h => hc h.symm)]
        · simp only [Bool.not_eq_true] at hi
          simp [hi]
      | arr xs =>
        simp only [callIncludes]
        cases xs.any (fun x => strictEq x (u16 "git commit")) <;> rfl
      | _ => rfl

/-- C10. Command-rewrite emission: the hook exits 0; it writes a payload exactly when the
command is a string that contains `git commit` and whose cleaned form differs from it, and
the payload is then the single object with the one field `command` holding the cleaned
command; otherwise nothing is written, in particular when `git commit` is absent. -/
theorem command_rewrite_emission (parsed : Option JVal) :
    (commandRewriteHook parsed).exit = 0 ∧
    (∀ text, commandText parsed = some text → includes (u16 "git commit") text = true →
      cleanCommand text ≠ text →
      (commandRewriteHook parsed).stdout =
        [JVal.obj [(u16 "command", JVal.str (cleanCommand text))]]) ∧
    ((commandRewriteHook parsed).stdout ≠ [] →
      ∃ text, commandText parsed = some text ∧ includes (u16 "git commit") text = true ∧
        cleanCommand text ≠ text) ∧
    (∀ text, commandText parsed = some text → includes (u16 "git commit") text = false →
      (commandRewriteHook parsed).stdout = []) := by
  refine ⟨commandRewriteHook_exit parsed, ?_, ?_, ?_⟩
  · intro text ht hi hc
    rw [commandRewriteHook_stdout, ht]
    simp only []
    rw [if_pos ⟨hi, hc⟩]
  · intro h
    rw [commandRewriteHook_stdout] at h
    cases ht : commandText parsed with
    | none => rw [ht] at h; exact absurd rfl h
    | some text =>
      rw [ht] at h
      simp only [] at h
      by_cases hc : includes (u16 "git commit") text = true ∧ cleanCommand text ≠ text
      · exact ⟨text, rfl, hc.1, hc.2⟩
      · rw [if_neg hc] at h; exact absurd rfl h
  · intro text ht hi
    rw [commandRewriteHook_stdout, ht]
    simp only []
    rw [if_neg (by simp [hi])]

/-- Witness of C10: a commit command that carries a trailer. -/
theorem command_rewrite_emission_witness :
    (commandRewriteHook (some (commandEvent
      (u16 "git commit -m x\n\nCo-Authored-By: Claude <noreply@anthropic.com>")))).stdout =
      [JVal.obj [(u16 "command", JVal.str (u16 "git commit -m x\n\n"))]] :=
  (command_rewrite_emission (some (commandEvent
      (u16 "git commit -m x\n\nCo-Authored-By: Claude <noreply@anthropic.com>")))).2.1
    (u16 "git commit -m x\n\nCo-Authored-By: Claude <noreply@anthropic.com>")
    rfl (by decide) (by decide)

end Hooks

namespace Hooks

/-! ## The matcher -/

theorem backoff_some (f : Nat → Option Nat) (lo : Nat) :
    ∀ n r, backoff f lo n = some r → ∃ k, lo ≤ k ∧ k ≤ n ∧ f k = some r := by
  intro n
  induction n with
  | zero =>
    intro r h
    unfold backoff at h
    split at h
    · rename_i h0
      exact ⟨0, by omega, le_refl 0, h⟩
    · exact absurd h (by simp)
  | succ n ih =>
    intro r h
    unfold backoff at h
    split at h
    · exact absurd h (by simp)
    · rename_i hlo
      split at h
      · rename_i r2 hf
        cases h
        exact ⟨n + 1, by omega, le_refl _, hf⟩
      · obtain ⟨k, h1, h2, h3⟩ := ih r h
        exact ⟨k, h1, by omega, h3⟩

theorem backoff_none (f : Nat → Option Nat) (lo : Nat) :
    ∀ n, backoff f lo n = none → ∀ k, lo ≤ k → k ≤ n → f k = none := by
  intro n
  induction n with
  | zero =>
    intro h k hk1 hk2
    have hk : k = 0 := by omega
    subst hk
    unfold backoff at h
    rw [if_pos (by omega)] at h
    exact h
  | succ n ih =>
    intro h k hk1 hk2
    unfold backoff at h
    split at h
    · omega
    · split at h
      · exact absurd h (by simp)
      · rename_i hf
        by_cases hk : k = n + 1
        · subst hk; exact hf
        · exact ih h k hk1 (by omega)

/-- When every successful continuation yields the same result, that result is the
outcome of the backtracking as soon as one repetition count succeeds. -/
theorem backoff_const (f : Nat → Option Nat) (lo n r : Nat)
    (hex : ∃ k, lo ≤ k ∧ k ≤ n ∧ (f k).isSome = true)
    (hall : ∀ k r2, k ≤ n → f k = some r2 → r2 = r) :
    backoff f lo n = some r := by
  cases h : backoff f lo n with
  | none =>
    obtain ⟨k, h1, h2, h3⟩ := hex
    rw [backoff_none f lo n h k h1 h2] at h3
    exact absurd h3 (by simp)
  | some r2 =>
    obtain ⟨k, _, h2, h3⟩ := backoff_some f lo n r2 h
    rw [hall k r2 h2 h3]

theorem backoff_all_none (f : Nat → Option Nat) (lo : Nat) :
    ∀ n, (∀ k, lo ≤ k → k ≤ n → f k = none) → backoff f lo n = none := by
  intro n h
  cases hb : backoff f lo n with
  | none => rfl
  | some r =>
    obtain ⟨k, h1, h2, h3⟩ := backoff_some f lo n r hb
    rw [h k h1 h2] at h3
    exact absurd h3 (by simp)

theorem matchTerms_ones (cs : List (Nat → Bool)) (rest : List Term) :
    ∀ s, matchTerms (cs.map Term.one ++ rest) s =
      if classPrefix cs s = true then (matchTerms rest (s.drop cs.length)).map (· + cs.length)
      else none := by
  induction cs with
  | nil =>
    intro s
    simp [classPrefix]
  | cons c cs ih =>
    intro s
    cases s with
    | nil => simp [classPrefix, matchTerms]
    | cons x t =>
      simp only [List.map_cons, List.cons_append, matchTerms, classPrefix, List.length_cons,
        List.drop_succ_cons, Bool.and_eq_true, List.append_eq]
      by_cases hx : c x = true
      · rw [if_pos hx, ih t]
        by_cases hp : classPrefix cs t = true
        · rw [if_pos hp, if_pos ⟨hx, hp⟩]
          cases matchTerms rest (List.drop cs.length t) <;> simp [Nat.add_assoc]
        · rw [if_neg hp, if_neg (fun h => hp h.2)]
          rfl
      · rw [if_neg hx, if_neg (fun h => hx h.1)]

end Hooks

namespace Hooks

theorem run_nil (c : Nat → Bool) : run c [] = 0 := rfl

theorem run_cons (c : Nat → Bool) (x : Nat) (t : JStr) :
    run c (x :: t) = if c x = true then run c t + 1 else 0 := by
  unfold run
  rw [List.takeWhile_cons]
  split <;> simp

theorem run_le_length (c : Nat → Bool) : ∀ s : JStr, run c s ≤ s.length := by
  intro s
  induction s with
  | nil => simp [run_nil]
  | cons x t ih =>
    rw [run_cons]
    split
    · simp only [List.length_cons]; omega
    · omega

theorem run_classPrefix (c : Nat → Bool) (cs : List (Nat → Bool))
    (hcs : ∀ cl ∈ cs, ∀ x, cl x = true → c x = true) :
    ∀ s, classPrefix cs s = true → run c s = cs.length + run c (s.drop cs.length) := by
  induction cs with
  | nil => intro s _; simp
  | cons cl cs ih =>
    intro s h
    cases s with
    | nil => simp [classPrefix] at h
    | cons x t =>
      simp only [classPrefix, Bool.and_eq_true] at h
      have hx : c x = true := hcs cl (List.mem_cons_self _ _) x h.1
      rw [run_cons, if_pos hx,
        ih (fun cl2 h2 => hcs cl2 (List.mem_cons_of_mem _ h2)) t h.2]
      simp only [List.length_cons, List.drop_succ_cons]
      omega

theorem run_drop (c d : Nat → Bool) (hdc : ∀ x, d x = true → c x = true) :
    ∀ (k : Nat) (s : JStr), k ≤ run d s → run c s = k + run c (s.drop k) := by
  intro k
  induction k with
  | zero => intro s _; simp
  | succ k ih =>
    intro s h
    cases s with
    | nil => simp [run_nil] at h
    | cons x t =>
      rw [run_cons] at h
      by_cases hx : d x = true
      · rw [if_pos hx] at h
        rw [run_cons, if_pos (hdc x hx), ih t (by omega)]
        simp only [List.drop_succ_cons]
        omega
      · rw [if_neg hx] at h
        omega

theorem drop_run (c : Nat → Bool) : ∀ s : JStr, s.drop (run c s) = s.dropWhile c := by
  intro s
  induction s with
  | nil => rfl
  | cons x t ih =>
    rw [run_cons, List.dropWhile_cons]
    split
    · simpa using ih
    · rfl

theorem atLineEnd_drop_run (s : JStr) : atLineEnd (s.drop (run dot s)) = true := by
  rw [drop_run]
  induction s with
  | nil => rfl
  | cons x t ih =>
    rw [List.dropWhile_cons]
    split
    · exact ih
    · rename_i hx
      simpa [atLineEnd, dot] using hx

/-- The largest repetition count is tried first. -/
theorem backoff_first (f : Nat → Option Nat) (lo n r : Nat) (hlo : lo ≤ n)
    (h : f n = some r) : backoff f lo n = some r := by
  cases n with
  | zero =>
    unfold backoff
    rw [if_pos (by omega), h]
  | succ n =>
    unfold backoff
    rw [if_neg (by omega), h]

/-- The tail `[^\n]*` of a command-rewrite signature pattern takes the rest of the line. -/
theorem matchTerms_tail_notNL (s : JStr) :
    matchTerms [Term.many notNL 0] s = some (run notNL s) := by
  unfold matchTerms
  exact backoff_first _ _ _ _ (Nat.zero_le _) (by simp [matchTerms])

/-- The tail `.*$` of an amend signature pattern takes the rest of the segment. -/
theorem matchTerms_tail_dot (s : JStr) :
    matchTerms [Term.many dot 0, Term.eol] s = some (run dot s) := by
  unfold matchTerms
  exact backoff_first _ _ _ _ (Nat.zero_le _) (by simp [matchTerms, atLineEnd_drop_run])

end Hooks

namespace Hooks

/-- The continuation of `.*` in a signature pattern: when it succeeds after `k` code units
of the segment it consumes the whole run of the tail class. -/
theorem sig_continuation (T : List (Nat → Bool)) (c : Nat → Bool) (tl : List Term)
    (htl : ∀ s, matchTerms tl s = some (run c s))
    (hdot : ∀ x, dot x = true → c x = true)
    (hT : ∀ cl ∈ T, ∀ x, cl x = true → c x = true)
    (u : JStr) (k : Nat) (hk : k ≤ run dot u) :
    Option.map (fun x => x + k) (matchTerms (T.map Term.one ++ tl) (u.drop k)) =
      if classPrefix T (u.drop k) = true then some (run c u) else none := by
  rw [matchTerms_ones]
  by_cases hp : classPrefix T (u.drop k) = true
  · rw [if_pos hp, if_pos hp, htl, run_drop c dot hdot k u hk, run_classPrefix c T hT _ hp]
    simp only [Option.map_some']
    congr 1
    omega
  · rw [if_neg hp, if_neg hp]
    rfl

theorem matchTerms_middle (T : List (Nat → Bool)) (c : Nat → Bool) (tl : List Term)
    (htl : ∀ s, matchTerms tl s = some (run c s))
    (hdot : ∀ x, dot x = true → c x = true)
    (hT : ∀ cl ∈ T, ∀ x, cl x = true → c x = true)
    (u : JStr) (m : Nat) :
    matchTerms (Term.many dot 0 :: (T.map Term.one ++ tl)) u = some m ↔
      (∃ k, k ≤ run dot u ∧ classPrefix T (u.drop k) = true) ∧ m = run c u := by
  unfold matchTerms
  constructor
  · intro h
    obtain ⟨k, _, hk, hf⟩ := backoff_some _ _ _ _ h
    rw [sig_continuation T c tl htl hdot hT u k hk] at hf
    by_cases hp : classPrefix T (u.drop k) = true
    · rw [if_pos hp] at hf
      exact ⟨⟨k, hk, hp⟩, (Option.some.inj hf).symm⟩
    · rw [if_neg hp] at hf
      exact absurd hf (by simp)
  · rintro ⟨⟨k, hk, hp⟩, rfl⟩
    apply backoff_const
    · refine ⟨k, Nat.zero_le _, hk, ?_⟩
      rw [sig_continuation T c tl htl hdot hT u k hk, if_pos hp]
      rfl
    · intro k2 r2 hk2 hf
      rw [sig_continuation T c tl htl hdot hT u k2 hk2] at hf
      by_cases hp2 : classPrefix T (u.drop k2) = true
      · rw [if_pos hp2] at hf
        exact (Option.some.inj hf).symm
      · rw [if_neg hp2] at hf
        exact absurd hf (by simp)

/-- A signature pattern `H .* T tail` matches at the head of `s` exactly when `s` has the
shape of the signature there, and the match then runs to the end of the run of the tail
class (the end of the line, or of the segment). -/
theorem matchTerms_sig (H T : List (Nat → Bool)) (c : Nat → Bool) (tl : List Term)
    (htl : ∀ s, matchTerms tl s = some (run c s))
    (hdot : ∀ x, dot x = true → c x = true)
    (hH : ∀ cl ∈ H, ∀ x, cl x = true → c x = true)
    (hT : ∀ cl ∈ T, ∀ x, cl x = true → c x = true)
    (s : JStr) (n : Nat) :
    matchTerms (H.map Term.one ++ Term.many dot 0 :: (T.map Term.one ++ tl)) s = some n ↔
      SigAt H T s ∧ n = run c s := by
  rw [matchTerms_ones]
  unfold SigAt
  by_cases hp : classPrefix H s = true
  · rw [if_pos hp]
    constructor
    · intro h
      cases hm : matchTerms (Term.many dot 0 :: (T.map Term.one ++ tl)) (s.drop H.length) with
      | none => rw [hm] at h; exact absurd h (by simp)
      | some m =>
        rw [hm] at h
        obtain ⟨⟨k, hk, hpk⟩, hmr⟩ := (matchTerms_middle T c tl htl hdot hT _ m).mp hm
        refine ⟨⟨hp, k, hk, ?_⟩, ?_⟩
        · rw [← List.drop_drop]; exact hpk
        · rw [run_classPrefix c H hH s hp, ← hmr]
          simp only [Option.map_some', Option.some.injEq] at h
          omega
    · rintro ⟨⟨_, k, hk, hpk⟩, rfl⟩
      have hm := (matchTerms_middle T c tl htl hdot hT (s.drop H.length)
        (run c (s.drop H.length))).mpr ⟨⟨k, hk, by rw [List.drop_drop]; exact hpk⟩, rfl⟩
      rw [hm, run_classPrefix c H hH s hp]
      simp only [Option.map_some', Option.some.injEq]
      omega
  · rw [if_neg hp]
    constructor
    · intro h; exact absurd h (by simp)
    · rintro ⟨⟨h, _⟩, _⟩; exact absurd h hp

end Hooks

namespace Hooks

/-! ## The global replacement -/

theorem matchTerms_le_length : ∀ (p : List Term) (s : JStr) (n : Nat),
    matchTerms p s = some n → n ≤ s.length := by
  intro p
  induction p with
  | nil =>
    intro s n h
    simp only [matchTerms, Option.some.injEq] at h
    omega
  | cons t ts ih =>
    intro s n h
    cases t with
    | one cls =>
      cases s with
      | nil => simp [matchTerms] at h
      | cons c r =>
        simp only [matchTerms] at h
        split at h
        · cases hm : matchTerms ts r with
          | none => rw [hm] at h; simp at h
          | some m =>
            rw [hm] at h
            simp only [Option.map_some', Option.some.injEq] at h
            have := ih r m hm
            simp only [List.length_cons]
            omega
        · simp at h
    | many cls lo =>
      simp only [matchTerms] at h
      obtain ⟨k, _, hk, hf⟩ := backoff_some _ _ _ _ h
      cases hm : matchTerms ts (s.drop k) with
      | none => rw [hm] at hf; simp at hf
      | some m =>
        rw [hm] at hf
        simp only [Option.map_some', Option.some.injEq] at hf
        have h1 := ih _ m hm
        have h2 := run_le_length cls s
        simp only [List.length_drop] at h1
        omega
    | eol =>
      simp only [matchTerms] at h
      split at h
      · exact ih s n h
      · simp at h

theorem replaceFrom_skip (p : List Term) (rep : JStr) :
    ∀ (skip : Nat) (s : JStr), skip ≤ s.length →
      replaceFrom p rep skip s = replaceFrom p rep 0 (s.drop skip) := by
  intro skip
  induction skip with
  | zero => intro s _; rfl
  | succ k ih =>
    intro s h
    cases s with
    | nil => simp at h
    | cons c t =>
      simp only [List.length_cons] at h
      simp only [replaceFrom, List.drop_succ_cons]
      exact ih t (by omega)

theorem replaceAll_nil (p : List Term) (rep : JStr) (h : matchTerms p [] = none) :
    replaceAll p rep [] = [] := by
  simp [replaceAll, replaceFrom, h]

theorem replaceAll_cons_none (p : List Term) (rep : JStr) (c : Nat) (t : JStr)
    (h : matchTerms p (c :: t) = none) :
    replaceAll p rep (c :: t) = c :: replaceAll p rep t := by
  simp [replaceAll, replaceFrom, h]

theorem replaceAll_cons_some (p : List Term) (rep : JStr) (c : Nat) (t : JStr) (n : Nat)
    (h : matchTerms p (c :: t) = some (n + 1)) :
    replaceAll p rep (c :: t) = rep ++ replaceAll p rep (t.drop n) := by
  have hl := matchTerms_le_length p _ _ h
  simp only [List.length_cons] at hl
  simp only [replaceAll, replaceFrom, h]
  rw [replaceFrom_skip p rep n t (by omega)]

/-- Where the pattern matches nowhere the replacement returns the string unchanged. -/
theorem replaceAll_of_noMatch (p : List Term) (rep : JStr) :
    ∀ s, NoMatch p s → replaceAll p rep s = s := by
  intro s
  induction s with
  | nil =>
    intro h
    exact replaceAll_nil p rep (h [] (List.suffix_refl _))
  | cons c t ih =>
    intro h
    rw [replaceAll_cons_none p rep c t (h _ (List.suffix_refl _)),
      ih (fun u hu => h u (hu.trans (List.suffix_cons c t)))]

theorem seg_nil : seg [] = [] := rfl

theorem seg_cons (c : Nat) (t : JStr) :
    seg (c :: t) = if dot c = true then c :: seg t else [] := by
  unfold seg
  rw [List.takeWhile_cons]

theorem seg_of_atLineEnd (s : JStr) (h : atLineEnd s = true) : seg s = [] := by
  cases s with
  | nil => rfl
  | cons c t =>
    rw [seg_cons, if_neg]
    simpa [atLineEnd, dot] using h

theorem seg_cons_mono (c : Nat) (a b : JStr) (h : seg a <+: seg b) :
    seg (c :: a) <+: seg (c :: b) := by
  rw [seg_cons, seg_cons]
  split
  · exact (List.prefix_cons_inj c).mpr h
  · exact List.prefix_refl _

/-- Deleting the matches of a pattern whose matches end a segment: the output starts with
a prefix of the first segment of the input, and every position of the output corresponds
to a position of the input where the pattern failed and whose segment extends it. -/
theorem replaceAll_delete_sim (p : List Term) (hp : EndsSegment p) :
    ∀ (m : Nat) (s : JStr), s.length ≤ m →
      seg (replaceAll p [] s) <+: seg s ∧
      ∀ u, u <:+ replaceAll p [] s →
        ∃ v, v <:+ s ∧ matchTerms p v = none ∧ seg u <+: seg v := by
  intro m
  induction m with
  | zero =>
    intro s hs
    have hnil : s = [] := List.length_eq_zero.mp (by omega)
    subst hnil
    have h0 : matchTerms p [] = none := by
      cases h : matchTerms p [] with
      | none => rfl
      | some n =>
        have h1 := (hp [] n h).1
        have h2 := matchTerms_le_length p [] n h
        simp at h2
        omega
    rw [replaceAll_nil p [] h0]
    refine ⟨List.prefix_refl _, ?_⟩
    intro u hu
    exact ⟨[], List.suffix_refl _, h0, by rw [List.suffix_nil.mp hu]⟩
  | succ m ih =>
    intro s hs
    cases s with
    | nil => exact ih [] (by simp)
    | cons c t =>
      simp only [List.length_cons] at hs
      cases h : matchTerms p (c :: t) with
      | none =>
        rw [replaceAll_cons_none p [] c t h]
        obtain ⟨ih1, ih2⟩ := ih t (by omega)
        refine ⟨seg_cons_mono c _ _ ih1, ?_⟩
        intro u hu
        rcases List.suffix_cons_iff.mp hu with rfl | hu2
        · exact ⟨c :: t, List.suffix_refl _, h, seg_cons_mono c _ _ ih1⟩
        · obtain ⟨v, hv1, hv2, hv3⟩ := ih2 u hu2
          exact ⟨v, hv1.trans (List.suffix_cons c t), hv2, hv3⟩
      | some n =>
        obtain ⟨hn, hend⟩ := hp _ n h
        obtain ⟨k, rfl⟩ : ∃ k, n = k + 1 := ⟨n - 1, by omega⟩
        rw [replaceAll_cons_some p [] c t k h, List.nil_append]
        simp only [List.drop_succ_cons] at hend
        obtain ⟨ih1, ih2⟩ := ih (t.drop k) (by simp only [List.length_drop]; omega)
        rw [seg_of_atLineEnd _ hend] at ih1
        refine ⟨?_, ?_⟩
        · rw [List.prefix_nil.mp ih1]; exact List.nil_prefix
        · intro u hu
          obtain ⟨v, hv1, hv2, hv3⟩ := ih2 u hu
          exact ⟨v, (hv1.trans (List.drop_suffix k t)).trans (List.suffix_cons c t), hv2, hv3⟩

end Hooks

namespace Hooks

/-! ## Signatures and segments -/

theorem classPrefix_mono (cs : List (Nat → Bool)) :
    ∀ a b : JStr, a <+: b → classPrefix cs a = true → classPrefix cs b = true := by
  induction cs with
  | nil => intro a b _ _; rfl
  | cons cl cs ih =>
    intro a b hab h
    cases a with
    | nil => simp [classPrefix] at h
    | cons x a2 =>
      obtain ⟨r, rfl⟩ := hab
      simp only [classPrefix, Bool.and_eq_true, List.cons_append] at h ⊢
      exact ⟨h.1, ih a2 (a2 ++ r) (List.prefix_append _ _) h.2⟩

theorem seg_isPrefix (s : JStr) : seg s <+: s := List.takeWhile_prefix dot

theorem length_seg (s : JStr) : (seg s).length = run dot s := rfl

theorem classPrefix_seg (cs : List (Nat → Bool))
    (hcs : ∀ cl ∈ cs, ∀ x, cl x = true → dot x = true) :
    ∀ s, classPrefix cs s = true → classPrefix cs (seg s) = true := by
  induction cs with
  | nil => intro s _; rfl
  | cons cl cs ih =>
    intro s h
    cases s with
    | nil => simp [classPrefix] at h
    | cons x t =>
      simp only [classPrefix, Bool.and_eq_true] at h
      rw [seg_cons, if_pos (hcs cl (List.mem_cons_self _ _) x h.1)]
      simp only [classPrefix, Bool.and_eq_true]
      exact ⟨h.1, ih (fun cl2 h2 => hcs cl2 (List.mem_cons_of_mem _ h2)) t h.2⟩

theorem seg_drop : ∀ (j : Nat) (s : JStr), j ≤ run dot s → seg (s.drop j) = (seg s).drop j := by
  intro j
  induction j with
  | zero => intro s _; rfl
  | succ j ih =>
    intro s h
    cases s with
    | nil => rfl
    | cons x t =>
      rw [run_cons] at h
      by_cases hx : dot x = true
      · rw [if_pos hx] at h
        rw [seg_cons, if_pos hx]
        simp only [List.drop_succ_cons]
        exact ih t (by omega)
      · rw [if_neg hx] at h
        omega

theorem classPrefix_ne_nil (cl : Nat → Bool) (cs : List (Nat → Bool)) (s : JStr)
    (h : classPrefix (cl :: cs) s = true) : s ≠ [] := by
  rintro rfl
  simp [classPrefix] at h

theorem drop_isPrefix_drop (j : Nat) (a b : JStr) (h : a <+: b) : a.drop j <+: b.drop j := by
  obtain ⟨r, rfl⟩ := h
  rw [List.drop_append_eq_append_drop]
  exact List.prefix_append _ _

/-- The shape of a signature only depends on the first segment, and is kept when the
segment is extended. -/
theorem sigAt_mono (H T : List (Nat → Bool)) (cl : Nat → Bool) (T2 : List (Nat → Bool))
    (hT0 : T = cl :: T2)
    (hH : ∀ c ∈ H, ∀ x, c x = true → dot x = true)
    (hT : ∀ c ∈ T, ∀ x, c x = true → dot x = true)
    (u v : JStr) (huv : seg u <+: seg v) (h : SigAt H T u) : SigAt H T v := by
  obtain ⟨h1, k, hk, h2⟩ := h
  have hv1 : classPrefix H v = true :=
    classPrefix_mono H _ _ (seg_isPrefix v)
      (classPrefix_mono H _ _ huv (classPrefix_seg H hH u h1))
  have hru := run_classPrefix dot H hH u h1
  have hrv := run_classPrefix dot H hH v hv1
  have hj : H.length + k ≤ run dot u := by omega
  have h3 : classPrefix T ((seg v).drop (H.length + k)) = true := by
    apply classPrefix_mono T _ _ (drop_isPrefix_drop _ _ _ huv)
    rw [← seg_drop _ _ hj]
    exact classPrefix_seg T hT _ h2
  have hne : (seg v).drop (H.length + k) ≠ [] := by
    rw [hT0] at h3
    exact classPrefix_ne_nil cl T2 _ h3
  have hlt : H.length + k < run dot v := by
    rw [← length_seg]
    by_contra hge
    exact hne (List.drop_of_length_le (by omega))
  refine ⟨hv1, k, by omega, ?_⟩
  apply classPrefix_mono T _ _ (seg_isPrefix _)
  rw [seg_drop _ _ (by omega)]
  exact h3

end Hooks

namespace Hooks

/-! ## Signature patterns: no residue after their removal -/

theorem noMatch_of_segSim (p : List Term) (hp : SegMonotone p) (out inp : JStr)
    (hsim : SegSim out inp) (h : NoMatch p inp) : NoMatch p out := by
  intro u hu
  obtain ⟨v, hv, huv⟩ := hsim u hu
  exact hp u v huv (h v hv)

theorem segSim_refl (s : JStr) : SegSim s s :=
  fun u hu => ⟨u, hu, List.prefix_refl _⟩

theorem segSim_trans (a b c : JStr) (hab : SegSim a b) (hbc : SegSim b c) : SegSim a c := by
  intro u hu
  obtain ⟨v, hv, huv⟩ := hab u hu
  obtain ⟨w, hw, hvw⟩ := hbc v hv
  exact ⟨w, hw, huv.trans hvw⟩

theorem segSim_delete (p : List Term) (hp : EndsSegment p) (s : JStr) :
    SegSim (replaceAll p [] s) s := by
  intro u hu
  obtain ⟨v, hv, _, huv⟩ := (replaceAll_delete_sim p hp s.length s (le_refl _)).2 u hu
  exact ⟨v, hv, huv⟩

/-- After the removal of the matches of a pattern whose matches end a segment and whose
failures are monotone, the pattern matches nowhere. -/
theorem noMatch_delete (p : List Term) (hp : EndsSegment p) (hm : SegMonotone p) (s : JStr) :
    NoMatch p (replaceAll p [] s) := by
  intro u hu
  obtain ⟨v, _, hv, huv⟩ := (replaceAll_delete_sim p hp s.length s (le_refl _)).2 u hu
  exact hm u v huv hv

theorem dot_notNL (x : Nat) (h : dot x = true) : notNL x = true := by
  simp only [dot, isLineTerminator, notNL] at h ⊢
  revert h
  cases hx : (x == 10) <;> simp

theorem atLineEnd_drop_run_notNL (s : JStr) : atLineEnd (s.drop (run notNL s)) = true := by
  rw [drop_run]
  induction s with
  | nil => rfl
  | cons x t ih =>
    rw [List.dropWhile_cons]
    split
    · exact ih
    · rename_i hx
      simp only [notNL, Bool.not_eq_true, Bool.not_eq_false'] at hx
      simp [atLineEnd, isLineTerminator, hx]

/-- The match of a command-rewrite signature pattern, characterised. -/
theorem matchTerms_sigNL (H T : List (Nat → Bool)) (hg : GoodSig H T) (s : JStr) (n : Nat) :
    matchTerms (sigPattern H T [Term.many notNL 0]) s = some n ↔
      SigAt H T s ∧ n = run notNL s :=
  matchTerms_sig H T notNL _ matchTerms_tail_notNL dot_notNL
    (fun c hc x hx => dot_notNL x (hg.2.2.1 c hc x hx))
    (fun c hc x hx => dot_notNL x (hg.2.2.2 c hc x hx)) s n

/-- The match of the core of an amend signature pattern, characterised. -/
theorem matchTerms_sigDot (H T : List (Nat → Bool)) (hg : GoodSig H T) (s : JStr) (n : Nat) :
    matchTerms (sigPattern H T [Term.many dot 0, Term.eol]) s = some n ↔
      SigAt H T s ∧ n = run dot s :=
  matchTerms_sig H T dot _ matchTerms_tail_dot (fun _ h => h) hg.2.2.1 hg.2.2.2 s n

theorem sigAt_pos (H T : List (Nat → Bool)) (hg : GoodSig H T) (c : Nat → Bool)
    (hc : ∀ x, dot x = true → c x = true) (s : JStr) (h : SigAt H T s) : 0 < run c s := by
  obtain ⟨⟨cl, H2, rfl⟩, _, hH, _⟩ := hg
  have := run_classPrefix c (cl :: H2) (fun c2 h2 x hx => hc x (hH c2 h2 x hx)) s h.1
  simp only [List.length_cons] at this
  omega

theorem endsSegment_sigNL (H T : List (Nat → Bool)) (hg : GoodSig H T) :
    EndsSegment (sigPattern H T [Term.many notNL 0]) := by
  intro s n h
  obtain ⟨hs, rfl⟩ := (matchTerms_sigNL H T hg s n).mp h
  exact ⟨sigAt_pos H T hg notNL dot_notNL s hs, atLineEnd_drop_run_notNL s⟩

theorem segMonotone_of_sig (H T : List (Nat → Bool)) (hg : GoodSig H T) (c : Nat → Bool)
    (tl : List Term)
    (hchar : ∀ s n, matchTerms (sigPattern H T tl) s = some n ↔ SigAt H T s ∧ n = run c s) :
    SegMonotone (sigPattern H T tl) := by
  intro u v huv hv
  cases hu : matchTerms (sigPattern H T tl) u with
  | none => rfl
  | some n =>
    obtain ⟨cl, T2, hT0⟩ := hg.2.1
    have h1 := ((hchar u n).mp hu).1
    have h2 := sigAt_mono H T cl T2 hT0 hg.2.2.1 hg.2.2.2 u v huv h1
    rw [(hchar v (run c v)).mpr ⟨h2, rfl⟩] at hv
    exact absurd hv (by simp)

theorem segMonotone_sigNL (H T : List (Nat → Bool)) (hg : GoodSig H T) :
    SegMonotone (sigPattern H T [Term.many notNL 0]) :=
  segMonotone_of_sig H T hg notNL _ (matchTerms_sigNL H T hg)

theorem segMonotone_sigDot (H T : List (Nat → Bool)) (hg : GoodSig H T) :
    SegMonotone (sigPattern H T [Term.many dot 0, Term.eol]) :=
  segMonotone_of_sig H T hg dot _ (matchTerms_sigDot H T hg)

end Hooks

namespace Hooks

/-! ## The patterns of the scripts as signature patterns -/

theorem lit_word_dot (w : JStr) (hw : ∀ p ∈ w, dot p = true) :
    ∀ c ∈ w.map lit, ∀ x, c x = true → dot x = true := by
  intro c hc x hx
  obtain ⟨p, hp, rfl⟩ := List.mem_map.mp hc
  simp only [lit, beq_iff_eq] at hx
  rw [hx]
  exact hw p hp

theorem litCI_dot (p x : Nat) (hp : dot p = true) (h : litCI p x = true) : dot x = true := by
  simp only [litCI, Bool.or_eq_true, Bool.and_eq_true, beq_iff_eq, decide_eq_true_eq] at h
  simp only [dot, isLineTerminator, Bool.not_eq_true', Bool.or_eq_false_iff,
    beq_eq_false_iff_ne, ne_eq] at hp ⊢
  rcases h with (h | h) | h
  · rw [h]; exact hp
  · refine ⟨⟨⟨?_, ?_⟩, ?_⟩, ?_⟩ <;> omega
  · refine ⟨⟨⟨?_, ?_⟩, ?_⟩, ?_⟩ <;> omega

theorem litCI_word_dot (w : JStr) (hw : ∀ p ∈ w, dot p = true) :
    ∀ c ∈ w.map litCI, ∀ x, c x = true → dot x = true := by
  intro c hc x hx
  obtain ⟨p, hp, rfl⟩ := List.mem_map.mp hc
  exact litCI_dot p x (hw p hp) hx

theorem isCc_dot (x : Nat) (h : isCc x = true) : dot x = true := by
  simp only [isCc, Bool.or_eq_true, beq_iff_eq] at h
  rcases h with h | h <;> rw [h] <;> decide

theorem tClaude_dot : ∀ c ∈ tClaude, ∀ x, c x = true → dot x = true := by
  intro c hc x hx
  rcases List.mem_cons.mp hc with rfl | hc2
  · exact isCc_dot x hx
  · exact lit_word_dot (u16 "laude") (by decide) c hc2 x hx

theorem goodSig_coClaude : GoodSig hCo tClaude :=
  ⟨⟨_, _, rfl⟩, ⟨_, _, rfl⟩, lit_word_dot coAuthoredBy (by decide), tClaude_dot⟩

theorem goodSig_coAnthropic : GoodSig hCo tAnthropic :=
  ⟨⟨_, _, rfl⟩, ⟨_, _, rfl⟩, lit_word_dot coAuthoredBy (by decide),
    lit_word_dot (u16 "anthropic") (by decide)⟩

theorem goodSig_robot : GoodSig hRobot tClaude :=
  ⟨⟨_, _, rfl⟩, ⟨_, _, rfl⟩, lit_word_dot robot (by decide), tClaude_dot⟩

theorem goodSig_coClaudeCI : GoodSig hCoCI tClaudeCI :=
  ⟨⟨_, _, rfl⟩, ⟨_, _, rfl⟩, litCI_word_dot coAuthoredBy (by decide),
    litCI_word_dot (u16 "Claude") (by decide)⟩

theorem goodSig_coAnthropicCI : GoodSig hCoCI tAnthropicCI :=
  ⟨⟨_, _, rfl⟩, ⟨_, _, rfl⟩, litCI_word_dot coAuthoredBy (by decide),
    litCI_word_dot (u16 "anthropic") (by decide)⟩

theorem goodSig_robotCI : GoodSig hRobotCI tClaudeCI :=
  ⟨⟨_, _, rfl⟩, ⟨_, _, rfl⟩, litCI_word_dot robot (by decide),
    litCI_word_dot (u16 "Claude") (by decide)⟩

theorem pCoClaude_eq : pCoClaude = sigPattern hCo tClaude [Term.many notNL 0] := by
  simp [pCoClaude, sigPattern, hCo, tClaude, lits]
  rfl

theorem pCoAnthropic_eq : pCoAnthropic = sigPattern hCo tAnthropic [Term.many notNL 0] := by
  simp [pCoAnthropic, sigPattern, hCo, tAnthropic, lits]
  rfl

theorem pRobot_eq : pRobot = sigPattern hRobot tClaude [Term.many notNL 0] := by
  simp [pRobot, sigPattern, hRobot, tClaude, lits]
  rfl

theorem aCoClaude_eq :
    aCoClaude = Term.many isNL 0 :: sigPattern hCoCI tClaudeCI [Term.many dot 0, Term.eol] := by
  simp [aCoClaude, sigPattern, hCoCI, tClaudeCI, litsCI]
  rfl

theorem aCoAnthropic_eq :
    aCoAnthropic =
      Term.many isNL 0 :: sigPattern hCoCI tAnthropicCI [Term.many dot 0, Term.eol] := by
  simp [aCoAnthropic, sigPattern, hCoCI, tAnthropicCI, litsCI]
  rfl

theorem aRobot_eq :
    aRobot = Term.many isNL 0 :: sigPattern hRobotCI tClaudeCI [Term.many dot 0, Term.eol] := by
  simp [aRobot, sigPattern, hRobotCI, tClaudeCI, litsCI]
  rfl

end Hooks

namespace Hooks

/-! ## The three signature removals of the command-rewrite hook -/

theorem matchesIn_eq_false_iff (p : List Term) :
    ∀ s, matchesIn p s = false ↔ NoMatch p s := by
  intro s
  induction s with
  | nil =>
    simp only [matchesIn, NoMatch, List.suffix_nil]
    constructor
    · intro h u hu
      subst hu
      cases hm : matchTerms p [] with
      | none => rfl
      | some n => rw [hm] at h; simp at h
    · intro h
      rw [h [] rfl]
      rfl
  | cons c t ih =>
    simp only [matchesIn, Bool.or_eq_false_iff]
    constructor
    · rintro ⟨h1, h2⟩ u hu
      rcases List.suffix_cons_iff.mp hu with rfl | hu2
      · cases hm : matchTerms p (c :: t) with
        | none => rfl
        | some n => rw [hm] at h1; simp at h1
      · exact (ih.mp h2) u hu2
    · intro h
      refine ⟨?_, ih.mpr (fun u hu => h u (hu.trans (List.suffix_cons c t)))⟩
      rw [h (c :: t) (List.suffix_refl _)]
      rfl

theorem endsSegment_pCoClaude : EndsSegment pCoClaude := by
  rw [pCoClaude_eq]; exact endsSegment_sigNL _ _ goodSig_coClaude

theorem endsSegment_pCoAnthropic : EndsSegment pCoAnthropic := by
  rw [pCoAnthropic_eq]; exact endsSegment_sigNL _ _ goodSig_coAnthropic

theorem endsSegment_pRobot : EndsSegment pRobot := by
  rw [pRobot_eq]; exact endsSegment_sigNL _ _ goodSig_robot

theorem segMonotone_pCoClaude : SegMonotone pCoClaude := by
  rw [pCoClaude_eq]; exact segMonotone_sigNL _ _ goodSig_coClaude

theorem segMonotone_pCoAnthropic : SegMonotone pCoAnthropic := by
  rw [pCoAnthropic_eq]; exact segMonotone_sigNL _ _ goodSig_coAnthropic

theorem segMonotone_pRobot : SegMonotone pRobot := by
  rw [pRobot_eq]; exact segMonotone_sigNL _ _ goodSig_robot

/-- The signature-free strings of the command-rewrite hook. -/
theorem hasSignature_eq_false_iff (s : JStr) :
    hasSignature s = false ↔ NoMatch pCoClaude s ∧ NoMatch pCoAnthropic s ∧ NoMatch pRobot s := by
  simp only [hasSignature, Bool.or_eq_false_iff, matchesIn_eq_false_iff, and_assoc]

theorem segSim_stripSignatures (s : JStr) : SegSim (stripSignatures s) s := by
  unfold stripSignatures
  exact segSim_trans _ _ _ (segSim_delete _ endsSegment_pRobot _)
    (segSim_trans _ _ _ (segSim_delete _ endsSegment_pCoAnthropic _)
      (segSim_delete _ endsSegment_pCoClaude _))

/-- A string that simulates a signature-free string is signature-free. -/
theorem hasSignature_of_segSim (out inp : JStr) (hsim : SegSim out inp)
    (h : hasSignature inp = false) : hasSignature out = false := by
  rw [hasSignature_eq_false_iff] at h ⊢
  exact ⟨noMatch_of_segSim _ segMonotone_pCoClaude _ _ hsim h.1,
    noMatch_of_segSim _ segMonotone_pCoAnthropic _ _ hsim h.2.1,
    noMatch_of_segSim _ segMonotone_pRobot _ _ hsim h.2.2⟩

/-- No signature is left after the three removals. -/
theorem hasSignature_stripSignatures (s : JStr) : hasSignature (stripSignatures s) = false := by
  rw [hasSignature_eq_false_iff]
  unfold stripSignatures
  refine ⟨?_, ?_, ?_⟩
  · exact noMatch_of_segSim _ segMonotone_pCoClaude _ _
      (segSim_trans _ _ _ (segSim_delete _ endsSegment_pRobot _)
        (segSim_delete _ endsSegment_pCoAnthropic _))
      (noMatch_delete _ endsSegment_pCoClaude segMonotone_pCoClaude s)
  · exact noMatch_of_segSim _ segMonotone_pCoAnthropic _ _
      (segSim_delete _ endsSegment_pRobot _)
      (noMatch_delete _ endsSegment_pCoAnthropic segMonotone_pCoAnthropic _)
  · exact noMatch_delete _ endsSegment_pRobot segMonotone_pRobot _

/-- On a signature-free string the three removals change nothing. -/
theorem stripSignatures_of_noSignature (s : JStr) (h : hasSignature s = false) :
    stripSignatures s = s := by
  rw [hasSignature_eq_false_iff] at h
  unfold stripSignatures
  rw [replaceAll_of_noMatch _ _ _ h.1, replaceAll_of_noMatch _ _ _ h.2.1,
    replaceAll_of_noMatch _ _ _ h.2.2]

end Hooks

namespace Hooks

/-! ## Patterns led by newlines -/

/-- When the continuation fails below the largest repetition count, only that count
decides. -/
theorem backoff_only_top (f : Nat → Option Nat) (lo n : Nat)
    (h : ∀ k, k < n → f k = none) :
    backoff f lo n = if lo ≤ n then f n else none := by
  by_cases hlo : lo ≤ n
  · rw [if_pos hlo]
    cases hf : f n with
    | none =>
      apply backoff_all_none
      intro k _ hk
      by_cases hkn : k = n
      · rw [hkn]; exact hf
      · exact h k (by omega)
    | some r => exact backoff_first f lo n r hlo hf
  · rw [if_neg hlo]
    apply backoff_all_none
    intro k h1 h2
    omega

theorem drop_lt_run (c : Nat → Bool) :
    ∀ (k : Nat) (s : JStr), k < run c s → ∃ x t, s.drop k = x :: t ∧ c x = true := by
  intro k
  induction k with
  | zero =>
    intro s h
    cases s with
    | nil => simp [run_nil] at h
    | cons x t =>
      rw [run_cons] at h
      by_cases hx : c x = true
      · exact ⟨x, t, rfl, hx⟩
      · rw [if_neg hx] at h; omega
  | succ k ih =>
    intro s h
    cases s with
    | nil => simp [run_nil] at h
    | cons x t =>
      rw [run_cons] at h
      by_cases hx : c x = true
      · rw [if_pos hx] at h
        simpa using ih t (by omega)
      · rw [if_neg hx] at h; omega

theorem isNL_iff (x : Nat) : isNL x = true ↔ x = 10 := by
  simp [isNL]

/-- A pattern `\n{lo,}core` whose core cannot start with a newline takes the whole run of
newlines and then the core. -/
theorem matchTerms_leadingNL (lo : Nat) (core : List Term)
    (hcore : ∀ t, matchTerms core (10 :: t) = none) (s : JStr) :
    matchTerms (Term.many isNL lo :: core) s =
      if lo ≤ run isNL s then
        (matchTerms core (s.drop (run isNL s))).map (· + run isNL s)
      else none := by
  simp only [matchTerms]
  apply backoff_only_top
  intro k hk
  obtain ⟨x, t, hd, hx⟩ := drop_lt_run isNL k s hk
  rw [hd, (isNL_iff x).mp hx, hcore]
  rfl

theorem matchTerms_pNewlines (s : JStr) :
    matchTerms pNewlines s = if 3 ≤ run isNL s then some (run isNL s) else none := by
  unfold pNewlines
  simp only [matchTerms]
  by_cases h : 3 ≤ run isNL s
  · rw [if_pos h]
    exact backoff_first _ _ _ _ h (by simp)
  · rw [if_neg h]
    apply backoff_all_none
    intro k h1 h2
    omega

theorem lits_eq (w : JStr) : lits w = (w.map lit).map Term.one := by
  simp [lits]

theorem matchTerms_eof (s : JStr) :
    matchTerms (lits (u16 "EOF")) s = if classPrefix eofCls s = true then some 3 else none := by
  have h := matchTerms_ones eofCls [] s
  rw [List.append_nil] at h
  rw [lits_eq]
  unfold eofCls at h ⊢
  rw [h]
  split
  · simp [matchTerms]
    rfl
  · rfl

theorem matchTerms_pHeredoc (s : JStr) :
    matchTerms pHeredoc s =
      if 1 ≤ run isNL s ∧ classPrefix eofCls (s.drop (run isNL s)) = true then
        some (run isNL s + 3)
      else none := by
  unfold pHeredoc
  rw [matchTerms_leadingNL 1 _ (fun t => by rw [matchTerms_eof]; rfl), matchTerms_eof]
  by_cases h1 : 1 ≤ run isNL s
  · by_cases h2 : classPrefix eofCls (s.drop (run isNL s)) = true
    · rw [if_pos h1, if_pos h2, if_pos ⟨h1, h2⟩]
      simp [Nat.add_comm]
    · rw [if_pos h1, if_neg h2, if_neg (fun h => h2 h.2)]
      rfl
  · rw [if_neg h1, if_neg (fun h => h1 h.1)]

end Hooks

namespace Hooks

/-! ## Simulation through a replacement -/

theorem takeWhile_cons_mono (c : Nat → Bool) (x : Nat) (a b : JStr)
    (h : a.takeWhile c <+: b.takeWhile c) :
    (x :: a).takeWhile c <+: (x :: b).takeWhile c := by
  rw [List.takeWhile_cons, List.takeWhile_cons]
  split
  · exact (List.prefix_cons_inj x).mpr h
  · exact List.prefix_refl _

theorem suffix_append_cases (a b u : JStr) (h : u <:+ a ++ b) :
    (∃ a2, a2 <:+ a ∧ u = a2 ++ b) ∨ u <:+ b := by
  induction a with
  | nil => exact Or.inr h
  | cons x a ih =>
    rcases List.suffix_cons_iff.mp h with rfl | h2
    · exact Or.inl ⟨x :: a, List.suffix_refl _, rfl⟩
    · rcases ih h2 with ⟨a2, ha2, rfl⟩ | h3
      · exact Or.inl ⟨a2, ha2.trans (List.suffix_cons x a), rfl⟩
      · exact Or.inr h3

theorem matchTerms_nil_none (p : List Term) (hpos : ∀ s n, matchTerms p s = some n → 0 < n) :
    matchTerms p [] = none := by
  cases h : matchTerms p [] with
  | none => rfl
  | some n =>
    have h1 := hpos [] n h
    have h2 := matchTerms_le_length p [] n h
    simp at h2
    omega

theorem sim_refl (c : Nat → Bool) (s : JStr) : Sim c s s :=
  fun u hu => ⟨u, hu, List.prefix_refl _⟩

theorem sim_trans (c : Nat → Bool) (x y z : JStr) (hxy : Sim c x y) (hyz : Sim c y z) :
    Sim c x z := by
  intro u hu
  obtain ⟨v, hv, huv⟩ := hxy u hu
  obtain ⟨w, hw, hvw⟩ := hyz v hv
  exact ⟨w, hw, huv.trans hvw⟩

theorem segSim_iff_sim (out inp : JStr) : SegSim out inp ↔ Sim dot out inp := Iff.rfl

/-- A replacement simulates its input for the class `c` when the replacement text does so
against every match. -/
theorem sim_replace (c : Nat → Bool) (p : List Term) (rep : JStr)
    (hpos : ∀ s n, matchTerms p s = some n → 0 < n)
    (hhead : ∀ s n X, matchTerms p s = some n →
      X.takeWhile c <+: (s.drop n).takeWhile c → (rep ++ X).takeWhile c <+: s.takeWhile c)
    (hrep : ∀ s n X b, matchTerms p s = some n → b <:+ rep →
      X.takeWhile c <+: (s.drop n).takeWhile c →
      ∃ v, v <:+ s ∧ (b ++ X).takeWhile c <+: v.takeWhile c) :
    ∀ (m : Nat) (s : JStr), s.length ≤ m →
      (replaceAll p rep s).takeWhile c <+: s.takeWhile c ∧ Sim c (replaceAll p rep s) s := by
  intro m
  induction m with
  | zero =>
    intro s hs
    have hnil : s = [] := List.length_eq_zero.mp (by omega)
    subst hnil
    rw [replaceAll_nil p rep (matchTerms_nil_none p hpos)]
    exact ⟨List.prefix_refl _, sim_refl c []⟩
  | succ m ih =>
    intro s hs
    cases s with
    | nil => exact ih [] (by simp)
    | cons x t =>
      simp only [List.length_cons] at hs
      cases h : matchTerms p (x :: t) with
      | none =>
        rw [replaceAll_cons_none p rep x t h]
        obtain ⟨ih1, ih2⟩ := ih t (by omega)
        refine ⟨takeWhile_cons_mono c x _ _ ih1, ?_⟩
        intro u hu
        rcases List.suffix_cons_iff.mp hu with rfl | hu2
        · exact ⟨x :: t, List.suffix_refl _, takeWhile_cons_mono c x _ _ ih1⟩
        · obtain ⟨v, hv1, hv2⟩ := ih2 u hu2
          exact ⟨v, hv1.trans (List.suffix_cons x t), hv2⟩
      | some n =>
        have hn := hpos _ n h
        obtain ⟨k, rfl⟩ : ∃ k, n = k + 1 := ⟨n - 1, by omega⟩
        rw [replaceAll_cons_some p rep x t k h]
        obtain ⟨ih1, ih2⟩ := ih (t.drop k) (by simp only [List.length_drop]; omega)
        have hd : (x :: t).drop (k + 1) = t.drop k := rfl
        refine ⟨hhead _ _ _ h (by rw [hd]; exact ih1), ?_⟩
        intro u hu
        rcases suffix_append_cases _ _ u hu with ⟨b, hb, rfl⟩ | hu2
        · exact hrep _ _ _ b h hb (by rw [hd]; exact ih1)
        · obtain ⟨v, hv1, hv2⟩ := ih2 u hu2
          exact ⟨v, (hv1.trans (List.drop_suffix k t)).trans (List.suffix_cons x t), hv2⟩

end Hooks

namespace Hooks

/-! ## The newline-run collapse and the heredoc-terminator collapse -/

theorem run_pos_cons (c : Nat → Bool) (s : JStr) (h : 0 < run c s) :
    ∃ x t, s = x :: t ∧ c x = true := by
  obtain ⟨x, t, hd, hx⟩ := drop_lt_run c 0 s h
  exact ⟨x, t, by simpa using hd, hx⟩

theorem pNewlines_match (s : JStr) (n : Nat) (h : matchTerms pNewlines s = some n) :
    n = run isNL s ∧ 3 ≤ n ∧ ∃ t, s = 10 :: t := by
  rw [matchTerms_pNewlines] at h
  split at h
  · rename_i h3
    have hn : run isNL s = n := Option.some.inj h
    obtain ⟨x, t, hs, hx⟩ := run_pos_cons isNL s (by omega)
    exact ⟨hn.symm, by omega, t, by rw [hs, (isNL_iff x).mp hx]⟩
  · exact absurd h (by simp)

theorem classPrefix_eof (w : JStr) (h : classPrefix eofCls w = true) :
    w = 69 :: 79 :: 70 :: w.drop 3 := by
  have he : eofCls = [lit 69, lit 79, lit 70] := rfl
  rw [he] at h
  match w, h with
  | [], h => simp [classPrefix] at h
  | [_], h => simp [classPrefix] at h
  | [_, _], h => simp [classPrefix] at h
  | a :: b :: c :: r, h =>
    simp only [classPrefix, lit, Bool.and_eq_true, beq_iff_eq, Bool.and_true] at h
    obtain ⟨h1, h2, h3⟩ := h
    subst h1 h2 h3
    rfl

theorem pHeredoc_match (s : JStr) (n : Nat) (h : matchTerms pHeredoc s = some n) :
    n = run isNL s + 3 ∧ 1 ≤ run isNL s ∧ (∃ t, s = 10 :: t) ∧
      s.drop (run isNL s) = 69 :: 79 :: 70 :: s.drop n := by
  rw [matchTerms_pHeredoc] at h
  split at h
  · rename_i hc
    have hn : run isNL s + 3 = n := Option.some.inj h
    obtain ⟨x, t, hs, hx⟩ := run_pos_cons isNL s (by omega)
    refine ⟨hn.symm, hc.1, ⟨t, by rw [hs, (isNL_iff x).mp hx]⟩, ?_⟩
    rw [← hn, ← List.drop_drop]
    exact classPrefix_eof _ hc.2
  · exact absurd h (by simp)

end Hooks

namespace Hooks

theorem run_drop_run (c : Nat → Bool) : ∀ s : JStr, run c (s.drop (run c s)) = 0 := by
  intro s
  rw [drop_run]
  induction s with
  | nil => rfl
  | cons x t ih =>
    rw [List.dropWhile_cons]
    split
    · exact ih
    · rename_i hx
      rw [run_cons, if_neg hx]

theorem takeWhile_cons_neg (c : Nat → Bool) (x : Nat) (t : JStr) (h : c x = false) :
    (x :: t).takeWhile c = [] := by
  rw [List.takeWhile_cons, h]
  rfl

/-- The newline-run collapse simulates its input for every class without the newline. -/
theorem sim_pNewlines (c : Nat → Bool) (hc : c 10 = false) (s : JStr) :
    Sim c (replaceAll pNewlines (u16 "\n\n") s) s := by
  have hrep : u16 "\n\n" = [10, 10] := rfl
  rw [hrep]
  refine (sim_replace c pNewlines [10, 10] ?_ ?_ ?_ s.length s (le_refl _)).2
  · intro s n h
    have := (pNewlines_match s n h).2.1
    omega
  · intro s n X _ _
    rw [List.cons_append, takeWhile_cons_neg c 10 _ hc]
    exact List.nil_prefix
  · intro s n X b h hb hX
    rcases List.suffix_cons_iff.mp hb with rfl | hb2
    · exact ⟨s, List.suffix_refl _, by
        rw [List.cons_append, takeWhile_cons_neg c 10 _ hc]; exact List.nil_prefix⟩
    · rcases List.suffix_cons_iff.mp hb2 with rfl | hb3
      · exact ⟨s, List.suffix_refl _, by
          rw [List.cons_append, takeWhile_cons_neg c 10 _ hc]; exact List.nil_prefix⟩
      · rw [List.suffix_nil.mp hb3]
        exact ⟨s.drop n, List.drop_suffix n s, hX⟩

/-- The heredoc-terminator collapse simulates its input for every class that rejects the
newline or the letter `E`. -/
theorem sim_pHeredoc (c : Nat → Bool) (hc : c 10 = false ∨ c 69 = false) (s : JStr) :
    (replaceAll pHeredoc (u16 "\nEOF") s).takeWhile c <+: s.takeWhile c ∧
      Sim c (replaceAll pHeredoc (u16 "\nEOF") s) s := by
  have hrep : u16 "\nEOF" = [10, 69, 79, 70] := rfl
  rw [hrep]
  refine sim_replace c pHeredoc [10, 69, 79, 70] ?_ ?_ ?_ s.length s (le_refl _)
  · intro s n h
    have := (pHeredoc_match s n h).1
    omega
  · intro s n X h _
    obtain ⟨_, _, ⟨t, rfl⟩, _⟩ := pHeredoc_match s n h
    rcases hc with hc | hc
    · rw [List.cons_append, takeWhile_cons_neg c 10 _ hc]
      exact List.nil_prefix
    · rw [List.cons_append, List.takeWhile_cons, List.takeWhile_cons]
      split
      · rw [List.cons_append, takeWhile_cons_neg c 69 _ hc]
        exact (List.prefix_cons_inj 10).mpr List.nil_prefix
      · exact List.prefix_refl _
  · intro s n X b h hb hX
    obtain ⟨hn, h1, ⟨t, hs⟩, hd⟩ := pHeredoc_match s n h
    have hv3 : (70 :: s.drop n) <:+ s := by
      have h2 : (70 :: s.drop n) <:+ s.drop (run isNL s) := by
        rw [hd]
        exact (List.suffix_cons 79 _).trans (List.suffix_cons 69 _)
      exact h2.trans (List.drop_suffix _ _)
    have hv2 : (79 :: 70 :: s.drop n) <:+ s := by
      have h2 : (79 :: 70 :: s.drop n) <:+ s.drop (run isNL s) := by
        rw [hd]
        exact List.suffix_cons 69 _
      exact h2.trans (List.drop_suffix _ _)
    have hv1 : (69 :: 79 :: 70 :: s.drop n) <:+ s := by
      rw [← hd]
      exact List.drop_suffix _ _
    have hv0 : (10 :: 69 :: 79 :: 70 :: s.drop n) <:+ s := by
      have h2 : s.drop (run isNL s - 1) = 10 :: 69 :: 79 :: 70 :: s.drop n := by
        obtain ⟨x, r, hxr, hx⟩ := drop_lt_run isNL (run isNL s - 1) s (by omega)
        have h3 : s.drop (run isNL s) = r := by
          have h4 : run isNL s = (run isNL s - 1) + 1 := by omega
          rw [h4, ← List.drop_drop, hxr]
          rfl
        rw [hxr, (isNL_iff x).mp hx, ← h3, hd]
      rw [← h2]
      exact List.drop_suffix _ _
    rcases List.suffix_cons_iff.mp hb with rfl | hb1
    · exact ⟨_, hv0, takeWhile_cons_mono c _ _ _ (takeWhile_cons_mono c _ _ _
        (takeWhile_cons_mono c _ _ _ (takeWhile_cons_mono c _ _ _ hX)))⟩
    · rcases List.suffix_cons_iff.mp hb1 with rfl | hb2
      · exact ⟨_, hv1, takeWhile_cons_mono c _ _ _ (takeWhile_cons_mono c _ _ _
          (takeWhile_cons_mono c _ _ _ hX))⟩
      · rcases List.suffix_cons_iff.mp hb2 with rfl | hb3
        · exact ⟨_, hv2, takeWhile_cons_mono c _ _ _ (takeWhile_cons_mono c _ _ _ hX)⟩
        · rcases List.suffix_cons_iff.mp hb3 with rfl | hb4
          · exact ⟨_, hv3, takeWhile_cons_mono c _ _ _ hX⟩
          · rw [List.suffix_nil.mp hb4]
            exact ⟨s.drop n, List.drop_suffix n s, hX⟩

end Hooks

namespace Hooks

theorem noMatch_pNewlines_iff (s : JStr) :
    NoMatch pNewlines s ↔ ∀ u, u <:+ s → run isNL u ≤ 2 := by
  constructor
  · intro h u hu
    have := h u hu
    rw [matchTerms_pNewlines] at this
    by_contra hc
    rw [if_pos (by omega)] at this
    exact absurd this (by simp)
  · intro h u hu
    rw [matchTerms_pNewlines, if_neg (by have := h u hu; omega)]

theorem noMatch_pNewlines_of_sim (out inp : JStr) (hsim : Sim isNL out inp)
    (h : NoMatch pNewlines inp) : NoMatch pNewlines out := by
  rw [noMatch_pNewlines_iff] at h ⊢
  intro u hu
  obtain ⟨v, hv, huv⟩ := hsim u hu
  have h1 := h v hv
  have h2 := huv.length_le
  unfold run at h1 ⊢
  omega

/-- After the newline-run collapse no run of three newlines is left. -/
theorem noMatch_pNewlines_collapse (s : JStr) :
    NoMatch pNewlines (replaceAll pNewlines (u16 "\n\n") s) := by
  have hrep : u16 "\n\n" = [10, 10] := rfl
  rw [hrep, noMatch_pNewlines_iff]
  suffices h : ∀ (m : Nat) (s : JStr), s.length ≤ m →
      run isNL (replaceAll pNewlines [10, 10] s) ≤ run isNL s ∧
      ∀ u, u <:+ replaceAll pNewlines [10, 10] s → run isNL u ≤ 2 from
    (h s.length s (le_refl _)).2
  intro m
  induction m with
  | zero =>
    intro s hs
    have hnil : s = [] := List.length_eq_zero.mp (by omega)
    subst hnil
    rw [replaceAll_nil pNewlines _ (by rw [matchTerms_pNewlines]; rfl)]
    refine ⟨le_refl _, ?_⟩
    intro u hu
    rw [List.suffix_nil.mp hu]
    simp [run_nil]
  | succ m ih =>
    intro s hs
    cases s with
    | nil => exact ih [] (by simp)
    | cons x t =>
      simp only [List.length_cons] at hs
      cases h : matchTerms pNewlines (x :: t) with
      | none =>
        rw [replaceAll_cons_none _ _ x t h]
        obtain ⟨ih1, ih2⟩ := ih t (by omega)
        rw [matchTerms_pNewlines] at h
        have h3 : ¬ 3 ≤ run isNL (x :: t) := by
          intro hc
          rw [if_pos hc] at h
          exact absurd h (by simp)
        have hle : run isNL (x :: replaceAll pNewlines [10, 10] t) ≤ run isNL (x :: t) := by
          rw [run_cons, run_cons]
          split <;> omega
        refine ⟨hle, ?_⟩
        intro u hu
        rcases List.suffix_cons_iff.mp hu with rfl | hu2
        · omega
        · exact ih2 u hu2
      | some n =>
        obtain ⟨hn, h3, _⟩ := pNewlines_match _ n h
        obtain ⟨k, rfl⟩ : ∃ k, n = k + 1 := ⟨n - 1, by omega⟩
        rw [replaceAll_cons_some _ _ x t k h]
        obtain ⟨ih1, ih2⟩ := ih (t.drop k) (by simp only [List.length_drop]; omega)
        have hr : run isNL (t.drop k) = 0 := by
          have := run_drop_run isNL (x :: t)
          rw [← hn] at this
          exact this
        have h0 : run isNL (replaceAll pNewlines [10, 10] (t.drop k)) = 0 := by omega
        have hb : run isNL (10 :: replaceAll pNewlines [10, 10] (t.drop k)) = 1 := by
          rw [run_cons, if_pos (by decide : isNL 10 = true), h0]
        have ha : run isNL (10 :: 10 :: replaceAll pNewlines [10, 10] (t.drop k)) = 2 := by
          rw [run_cons, if_pos (by decide : isNL 10 = true), hb]
        refine ⟨by rw [List.cons_append, List.cons_append, List.nil_append, ha]; omega, ?_⟩
        intro u hu
        rw [List.cons_append, List.cons_append, List.nil_append] at hu
        rcases List.suffix_cons_iff.mp hu with rfl | hu2
        · omega
        · rcases List.suffix_cons_iff.mp hu2 with rfl | hu3
          · omega
          · exact ih2 u hu3

/-- Where every heredoc match is exactly a newline and `EOF`, the heredoc-terminator collapse changes nothing. -/
theorem replaceAll_pHeredoc_of_stable :
    ∀ (m : Nat) (s : JStr), s.length ≤ m → Stable5 s →
      replaceAll pHeredoc (u16 "\nEOF") s = s := by
  have hrep : u16 "\nEOF" = [10, 69, 79, 70] := rfl
  rw [hrep]
  intro m
  induction m with
  | zero =>
    intro s hs _
    have hnil : s = [] := List.length_eq_zero.mp (by omega)
    subst hnil
    exact replaceAll_nil pHeredoc _ (by rw [matchTerms_pHeredoc]; rfl)
  | succ m ih =>
    intro s hs hst
    cases s with
    | nil => exact ih [] (by simp) hst
    | cons x t =>
      simp only [List.length_cons] at hs
      cases h : matchTerms pHeredoc (x :: t) with
      | none =>
        rw [replaceAll_cons_none _ _ x t h,
          ih t (by omega) (fun u hu => hst u (hu.trans (List.suffix_cons x t)))]
      | some n =>
        have h4 := hst _ (List.suffix_refl _) n h
        subst h4
        obtain ⟨hn, _, ⟨t2, hs2⟩, hd⟩ := pHeredoc_match _ 4 h
        have hrun : run isNL (x :: t) = 1 := by omega
        rw [hrun] at hd
        simp only [List.drop_succ_cons, List.drop_zero] at hd
        have hx : x = 10 := by injection hs2
        rw [replaceAll_cons_some _ _ x t 3 h,
          ih (t.drop 3) (by simp only [List.length_drop]; omega)
            (fun u hu => hst u ((hu.trans (List.drop_suffix 3 t)).trans (List.suffix_cons x t)))]
        rw [hx]
        simp only [List.cons_append, List.nil_append]
        rw [← hd]

end Hooks

namespace Hooks

theorem pHeredoc_none_of_ne (x : Nat) (t : JStr) (hx : x ≠ 10) :
    matchTerms pHeredoc (x :: t) = none := by
  cases h : matchTerms pHeredoc (x :: t) with
  | none => rfl
  | some n =>
    obtain ⟨_, _, ⟨t2, hs⟩, _⟩ := pHeredoc_match _ n h
    injection hs with h1 _
    exact absurd h1 hx

theorem replaceAll_pHeredoc_head (s : JStr) :
    (replaceAll pHeredoc [10, 69, 79, 70] s).head? = s.head? := by
  cases s with
  | nil => rw [replaceAll_nil pHeredoc _ (by rw [matchTerms_pHeredoc]; rfl)]
  | cons x t =>
    cases h : matchTerms pHeredoc (x :: t) with
    | none => rw [replaceAll_cons_none _ _ x t h]; rfl
    | some n =>
      obtain ⟨hn, _, ⟨t2, hs⟩, _⟩ := pHeredoc_match _ n h
      obtain ⟨k, rfl⟩ : ∃ k, n = k + 1 := ⟨n - 1, by omega⟩
      rw [replaceAll_cons_some _ _ x t k h]
      injection hs with h1 _
      rw [h1]
      rfl

theorem replaceAll_pHeredoc_cons (y : Nat) (o s : JStr) (hy : y ≠ 10)
    (h : replaceAll pHeredoc [10, 69, 79, 70] s = y :: o) :
    ∃ t, s = y :: t ∧ replaceAll pHeredoc [10, 69, 79, 70] t = o := by
  have hh := replaceAll_pHeredoc_head s
  rw [h] at hh
  cases s with
  | nil => simp at hh
  | cons x t =>
    simp only [List.head?_cons, Option.some.injEq] at hh
    subst hh
    rw [replaceAll_cons_none _ _ y t (pHeredoc_none_of_ne y t hy)] at h
    injection h with _ h2
    exact ⟨t, rfl, h2⟩

theorem classPrefix_eof_out (s : JStr)
    (h : classPrefix eofCls (replaceAll pHeredoc [10, 69, 79, 70] s) = true) :
    classPrefix eofCls s = true := by
  have h1 := classPrefix_eof _ h
  obtain ⟨t1, rfl, h2⟩ := replaceAll_pHeredoc_cons 69 _ s (by decide) h1
  obtain ⟨t2, rfl, h3⟩ := replaceAll_pHeredoc_cons 79 _ t1 (by decide) h2
  obtain ⟨t3, rfl, _⟩ := replaceAll_pHeredoc_cons 70 _ t2 (by decide) h3
  rfl

/-- A heredoc terminator after the leading newlines of the output stands after the
leading newlines of the input too. -/
theorem heredoc_after_run_out : ∀ s : JStr,
    classPrefix eofCls ((replaceAll pHeredoc [10, 69, 79, 70] s).drop
      (run isNL (replaceAll pHeredoc [10, 69, 79, 70] s))) = true →
    classPrefix eofCls (s.drop (run isNL s)) = true := by
  intro s
  induction s with
  | nil =>
    rw [replaceAll_nil pHeredoc _ (by rw [matchTerms_pHeredoc]; rfl)]
    exact id
  | cons x t ih =>
    cases h : matchTerms pHeredoc (x :: t) with
    | some n =>
      intro _
      rw [matchTerms_pHeredoc] at h
      split at h
      · rename_i hc; exact hc.2
      · exact absurd h (by simp)
    | none =>
      rw [replaceAll_cons_none _ _ x t h]
      by_cases hx : isNL x = true
      · rw [run_cons, run_cons, if_pos hx, if_pos hx]
        simp only [List.drop_succ_cons]
        exact ih
      · rw [run_cons, run_cons, if_neg hx, if_neg hx]
        simp only [List.drop_zero]
        intro hq
        rw [← replaceAll_cons_none _ _ x t h] at hq
        exact classPrefix_eof_out _ hq

/-- After the heredoc-terminator collapse every heredoc match is exactly a newline and `EOF`. -/
theorem stable5_collapse (s : JStr) : Stable5 (replaceAll pHeredoc (u16 "\nEOF") s) := by
  have hrep : u16 "\nEOF" = [10, 69, 79, 70] := rfl
  rw [hrep]
  suffices h : ∀ (m : Nat) (s : JStr), s.length ≤ m →
      Stable5 (replaceAll pHeredoc [10, 69, 79, 70] s) from h s.length s (le_refl _)
  intro m
  induction m with
  | zero =>
    intro s hs
    have hnil : s = [] := List.length_eq_zero.mp (by omega)
    subst hnil
    rw [replaceAll_nil pHeredoc _ (by rw [matchTerms_pHeredoc]; rfl)]
    intro u hu n hn
    rw [List.suffix_nil.mp hu, matchTerms_pHeredoc] at hn
    exact absurd hn (by simp [run_nil])
  | succ m ih =>
    intro s hs
    cases s with
    | nil => exact ih [] (by simp)
    | cons x t =>
      simp only [List.length_cons] at hs
      cases h : matchTerms pHeredoc (x :: t) with
      | none =>
        rw [replaceAll_cons_none _ _ x t h]
        intro u hu n hn
        rcases List.suffix_cons_iff.mp hu with rfl | hu2
        · exfalso
          rw [← replaceAll_cons_none _ _ x t h, matchTerms_pHeredoc] at hn
          split at hn
          · rename_i hc
            have hq := heredoc_after_run_out (x :: t) hc.2
            have hr : 1 ≤ run isNL (x :: t) := by
              have h1 := hc.1
              rw [replaceAll_cons_none _ _ x t h, run_cons] at h1
              rw [run_cons]
              split
              · omega
              · rename_i hx
                rw [if_neg hx] at h1
                omega
            rw [matchTerms_pHeredoc, if_pos ⟨hr, hq⟩] at h
            exact absurd h (by simp)
          · exact absurd hn (by simp)
        · exact ih t (by omega) u hu2 n hn
      | some n =>
        obtain ⟨hn, _, _, _⟩ := pHeredoc_match _ n h
        obtain ⟨k, rfl⟩ : ∃ k, n = k + 1 := ⟨n - 1, by omega⟩
        rw [replaceAll_cons_some _ _ x t k h]
        have ih2 := ih (t.drop k) (by simp only [List.length_drop]; omega)
        intro u hu n2 hn2
        simp only [List.cons_append, List.nil_append] at hu
        rcases List.suffix_cons_iff.mp hu with rfl | hu1
        · obtain ⟨h1, _, _, _⟩ := pHeredoc_match _ n2 hn2
          rw [h1, run_cons, if_pos (by decide : isNL 10 = true), run_cons,
            if_neg (by decide : ¬ isNL 69 = true)]
        · rcases List.suffix_cons_iff.mp hu1 with rfl | hu2
          · rw [pHeredoc_none_of_ne 69 _ (by decide)] at hn2
            exact absurd hn2 (by simp)
          · rcases List.suffix_cons_iff.mp hu2 with rfl | hu3
            · rw [pHeredoc_none_of_ne 79 _ (by decide)] at hn2
              exact absurd hn2 (by simp)
            · rcases List.suffix_cons_iff.mp hu3 with rfl | hu4
              · rw [pHeredoc_none_of_ne 70 _ (by decide)] at hn2
                exact absurd hn2 (by simp)
              · exact ih2 u hu4 n2 hn2

end Hooks

namespace Hooks

/-! ## The command-rewrite chain -/

theorem segSim_cleanCore (s : JStr) : SegSim (cleanCore s) (stripSignatures s) := by
  rw [segSim_iff_sim]
  unfold cleanCore
  exact sim_trans dot _ _ _ (sim_pHeredoc dot (Or.inl (by decide)) _).2
    (sim_pNewlines dot (by decide) _)

theorem hasSignature_cleanCore (s : JStr) : hasSignature (cleanCore s) = false :=
  hasSignature_of_segSim _ _ (segSim_cleanCore s) (hasSignature_stripSignatures s)

theorem noMatch_pNewlines_cleanCore (s : JStr) : NoMatch pNewlines (cleanCore s) := by
  unfold cleanCore
  exact noMatch_pNewlines_of_sim _ _ (sim_pHeredoc isNL (Or.inr (by decide)) _).2
    (noMatch_pNewlines_collapse _)

theorem stable5_cleanCore (s : JStr) : Stable5 (cleanCore s) := by
  unfold cleanCore
  exact stable5_collapse _

/-- The first five steps leave unchanged a string without a signature, without three
newlines in a row and without a blank line before a heredoc terminator. -/
theorem cleanCore_fixed (s : JStr) (hsig : hasSignature s = false)
    (hnl : NoMatch pNewlines s) (hst : Stable5 s) : cleanCore s = s := by
  unfold cleanCore
  rw [stripSignatures_of_noSignature s hsig, replaceAll_of_noMatch _ _ _ hnl,
    replaceAll_pHeredoc_of_stable s.length s (le_refl _) hst]

theorem cleanCore_idempotent (s : JStr) : cleanCore (cleanCore s) = cleanCore s :=
  cleanCore_fixed _ (hasSignature_cleanCore s) (noMatch_pNewlines_cleanCore s)
    (stable5_cleanCore s)

theorem cleanCommand_of_noQuotes (s : JStr) (h : matchesIn pQuotes (cleanCore s) = false) :
    cleanCommand s = cleanCore s := by
  unfold cleanCommand
  exact replaceAll_of_noMatch _ _ _ ((matchesIn_eq_false_iff _ _).mp h)

/-- Counterexample to C1 as stated: on three double quotes separated by newlines the
quote-adjacency collapse fires again on the cleaned command. -/
theorem cleanCommand_not_idempotent_counterexample :
    cleanCommand (cleanCommand (u16 "git commit -m " ++ [34, 10, 34, 10, 34])) ≠
      cleanCommand (u16 "git commit -m " ++ [34, 10, 34, 10, 34]) := by
  decide

end Hooks

namespace Hooks

/-! ## No-op detection in command-rewrite mode -/

theorem includes_of_suffix (w : JStr) :
    ∀ (s u : JStr), u <:+ s → w <+: u → includes w s = true := by
  intro s
  induction s with
  | nil =>
    intro u hu hw
    rw [List.suffix_nil.mp hu] at hw
    simp only [includes]
    exact List.isPrefixOf_iff_prefix.mpr hw
  | cons x t ih =>
    intro u hu hw
    simp only [includes, Bool.or_eq_true]
    rcases List.suffix_cons_iff.mp hu with rfl | hu2
    · exact Or.inl (List.isPrefixOf_iff_prefix.mpr hw)
    · exact Or.inr (ih u hu2 hw)

theorem stable5_of_not_includes (s : JStr) (h : includes (u16 "\n\nEOF") s = false) :
    Stable5 s := by
  intro u hu n hn
  obtain ⟨h1, h2, _, hd⟩ := pHeredoc_match u n hn
  by_contra hne
  have hr : 2 ≤ run isNL u := by omega
  obtain ⟨x, r, hxr, hx⟩ := drop_lt_run isNL (run isNL u - 2) u (by omega)
  obtain ⟨y, r2, hyr, hy⟩ := drop_lt_run isNL (run isNL u - 1) u (by omega)
  have e1 : run isNL u - 1 = (run isNL u - 2) + 1 := by omega
  have e2 : run isNL u = (run isNL u - 1) + 1 := by omega
  have hr1 : r = y :: r2 := by
    have : u.drop (run isNL u - 1) = r := by
      rw [e1, ← List.drop_drop, hxr]; rfl
    rw [← this, hyr]
  have hr2 : r2 = 69 :: 79 :: 70 :: u.drop n := by
    have : u.drop (run isNL u) = r2 := by
      rw [e2, ← List.drop_drop, hyr]; rfl
    rw [← this, hd]
  have hinc : includes (u16 "\n\nEOF") s = true := by
    apply includes_of_suffix _ s (u.drop (run isNL u - 2))
      ((List.drop_suffix _ _).trans hu)
    rw [hxr, hr1, hr2, (isNL_iff x).mp hx, (isNL_iff y).mp hy]
    exact ⟨u.drop n, rfl⟩
  rw [hinc] at h
  exact absurd h (by simp)

/-- A command on which no step of the chain fires is returned unchanged. -/
theorem cleanCommand_fixed (command : JStr) (hsig : hasSignature command = false)
    (hnl : matchesIn pNewlines command = false)
    (heof : includes (u16 "\n\nEOF") command = false)
    (hq : matchesIn pQuotes command = false) : cleanCommand command = command := by
  have hcore : cleanCore command = command :=
    cleanCore_fixed command hsig ((matchesIn_eq_false_iff _ _).mp hnl)
      (stable5_of_not_includes command heof)
  unfold cleanCommand
  rw [hcore]
  exact replaceAll_of_noMatch _ _ _ ((matchesIn_eq_false_iff _ _).mp hq)

/-- C2, as amended. No-op detection in command-rewrite mode: when the command contains
`git commit`, no match of a signature pattern, no run of three newlines, no blank line
before a heredoc terminator `EOF` and no match of the quote-adjacency pattern, the cleaned
command equals the original, nothing is written to standard output and the exit status
is 0. -/
theorem no_op_when_no_step_fires (parsed : Option JVal) (command : JStr)
    (hcmd : commandText parsed = some command)
    (_hgit : includes (u16 "git commit") command = true)
    (hsig : hasSignature command = false)
    (hnl : matchesIn pNewlines command = false)
    (heof : includes (u16 "\n\nEOF") command = false)
    (hq : matchesIn pQuotes command = false) :
    cleanCommand command = command ∧
    (commandRewriteHook parsed).stdout = [] ∧
    (commandRewriteHook parsed).exit = 0 := by
  have hfix := cleanCommand_fixed command hsig hnl heof hq
  refine ⟨hfix, ?_, commandRewriteHook_exit parsed⟩
  rw [commandRewriteHook_stdout, hcmd]
  simp only []
  rw [if_neg (fun h => h.2 hfix)]

/-- Witness of C2 as amended: a plain commit command. -/
theorem no_op_when_no_step_fires_witness :
    cleanCommand (u16 "git commit -m fix") = u16 "git commit -m fix" ∧
    (commandRewriteHook (some (commandEvent (u16 "git commit -m fix")))).stdout = [] ∧
    (commandRewriteHook (some (commandEvent (u16 "git commit -m fix")))).exit = 0 :=
  no_op_when_no_step_fires (some (commandEvent (u16 "git commit -m fix")))
    (u16 "git commit -m fix") rfl (by decide) (by decide) (by decide) (by decide) (by decide)

/-- Counterexample to C2 as stated: a commit command without any signature but with three
newlines in a row is rewritten, and the rewritten command is emitted. -/
theorem no_op_counterexample :
    includes (u16 "git commit") (u16 "git commit -m x\n\n\ny") = true ∧
    hasSignature (u16 "git commit -m x\n\n\ny") = false ∧
    cleanCommand (u16 "git commit -m x\n\n\ny") = u16 "git commit -m x\n\ny" ∧
    (commandRewriteHook (some (commandEvent (u16 "git commit -m x\n\n\ny")))).stdout.length
      = 1 := by
  decide

end Hooks

namespace Hooks

/-! ## Removal of a trailing signature line -/

theorem isSigNL_pCoClaude : IsSigNL pCoClaude := ⟨_, _, goodSig_coClaude, pCoClaude_eq⟩

theorem isSigNL_pCoAnthropic : IsSigNL pCoAnthropic :=
  ⟨_, _, goodSig_coAnthropic, pCoAnthropic_eq⟩

theorem isSigNL_pRobot : IsSigNL pRobot := ⟨_, _, goodSig_robot, pRobot_eq⟩

theorem isSigNL_endsSegment {p : List Term} (h : IsSigNL p) : EndsSegment p := by
  obtain ⟨H, T, hg, rfl⟩ := h
  exact endsSegment_sigNL H T hg

theorem isSigNL_segMonotone {p : List Term} (h : IsSigNL p) : SegMonotone p := by
  obtain ⟨H, T, hg, rfl⟩ := h
  exact segMonotone_sigNL H T hg

theorem isSigNL_nil_none {p : List Term} (h : IsSigNL p) : matchTerms p [] = none :=
  matchTerms_nil_none p (fun s n hm => (isSigNL_endsSegment h s n hm).1)

/-- The replacement copies a prefix in which the pattern starts no match. -/
theorem replaceAll_append_of_none (p : List Term) (rep R : JStr) :
    ∀ S : JStr, (∀ u, u <:+ S → u ≠ [] → matchTerms p (u ++ R) = none) →
      replaceAll p rep (S ++ R) = S ++ replaceAll p rep R := by
  intro S
  induction S with
  | nil => intro _; rfl
  | cons x t ih =>
    intro h
    rw [List.cons_append,
      replaceAll_cons_none p rep x (t ++ R) (h (x :: t) (List.suffix_refl _) (by simp)),
      ih (fun u hu hne => h u (hu.trans (List.suffix_cons x t)) hne)]
    rfl

theorem takeWhile_append_stop (c : Nat → Bool) (x : Nat) (R : JStr) (hx : c x = false) :
    ∀ a : JStr, (a ++ x :: R).takeWhile c = a.takeWhile c := by
  intro a
  induction a with
  | nil => exact takeWhile_cons_neg c x R hx
  | cons y t ih =>
    rw [List.cons_append, List.takeWhile_cons, List.takeWhile_cons, ih]

theorem seg_append_nl (a R : JStr) : seg (a ++ 10 :: R) = seg a :=
  takeWhile_append_stop dot 10 R (by decide) a

theorem run_notNL_append (R : JStr) :
    ∀ L : JStr, (∀ x ∈ L, x ≠ 10) → run notNL (L ++ 10 :: R) = L.length := by
  intro L
  induction L with
  | nil => intro _; rw [List.nil_append, run_cons, if_neg (by decide)]; rfl
  | cons y t ih =>
    intro h
    have hy : notNL y = true := by
      have := h y (List.mem_cons_self _ _)
      simp [notNL, this]
    rw [List.cons_append, run_cons, if_pos hy,
      ih (fun x hx => h x (List.mem_cons_of_mem _ hx))]
    rfl

/-- A signature pattern that matches nowhere in two strings matches nowhere in their
concatenation across a newline. -/
theorem noMatch_append_nl (p : List Term) (hp : IsSigNL p) (A B : JStr)
    (hA : NoMatch p A) (hB : NoMatch p B) : NoMatch p (A ++ 10 :: B) := by
  intro u hu
  rcases suffix_append_cases _ _ u hu with ⟨a, ha, rfl⟩ | hu2
  · exact isSigNL_segMonotone hp _ a (by rw [seg_append_nl]) (hA a ha)
  · rcases List.suffix_cons_iff.mp hu2 with rfl | hu3
    · exact isSigNL_segMonotone hp _ [] List.nil_prefix (isSigNL_nil_none hp)
    · exact hB u hu3

theorem noMatch_nil (p : List Term) (h : matchTerms p [] = none) : NoMatch p [] := by
  intro u hu
  rw [List.suffix_nil.mp hu]
  exact h

/-- A pass of a signature pattern that matches neither in the subject nor in the line
keeps the message. -/
theorem pass_keep (p : List Term) (hp : IsSigNL p) (S M : JStr)
    (hS : NoMatch p S) (hM : NoMatch p M) :
    replaceAll p [] (S ++ 10 :: 10 :: (M ++ [10])) = S ++ 10 :: 10 :: (M ++ [10]) := by
  apply replaceAll_of_noMatch
  apply noMatch_append_nl p hp S _ hS
  have h1 : NoMatch p (M ++ 10 :: []) :=
    noMatch_append_nl p hp M [] hM (noMatch_nil p (isSigNL_nil_none hp))
  exact noMatch_append_nl p hp [] _ (noMatch_nil p (isSigNL_nil_none hp)) h1

/-- A pass of a signature pattern that matches the line from its first code unit on
removes the line. -/
theorem pass_drop (p : List Term) (hp : IsSigNL p) (S M : JStr)
    (hS : NoMatch p S) (hM : ∀ x ∈ M, x ≠ 10) (hm : (matchTerms p M).isSome = true) :
    replaceAll p [] (S ++ 10 :: 10 :: (M ++ [10])) = S ++ [10, 10, 10] := by
  have hnl : ∀ X, matchTerms p (10 :: X) = none :=
    fun X => isSigNL_segMonotone hp _ [] List.nil_prefix (isSigNL_nil_none hp)
  rw [replaceAll_append_of_none p [] _ S
    (fun u hu _ => isSigNL_segMonotone hp _ u (by rw [seg_append_nl]) (hS u hu)),
    replaceAll_cons_none p [] 10 _ (hnl _), replaceAll_cons_none p [] 10 _ (hnl _)]
  obtain ⟨H, T, hg, rfl⟩ := hp
  obtain ⟨n, hn⟩ := Option.isSome_iff_exists.mp hm
  have hsig := ((matchTerms_sigNL H T hg M n).mp hn).1
  obtain ⟨cl, T2, hT0⟩ := hg.2.1
  have hsig2 : SigAt H T (M ++ 10 :: []) :=
    sigAt_mono H T cl T2 hT0 hg.2.2.1 hg.2.2.2 M _ (by rw [seg_append_nl]) hsig
  have hmatch := (matchTerms_sigNL H T hg (M ++ 10 :: []) _).mpr ⟨hsig2, rfl⟩
  rw [run_notNL_append [] M hM] at hmatch
  cases M with
  | nil => simp [matchTerms_nil_none _ (fun s n h => (endsSegment_sigNL H T hg s n h).1)] at hm
  | cons x t =>
    rw [List.cons_append] at hmatch ⊢
    simp only [List.length_cons] at hmatch
    rw [replaceAll_cons_some _ [] x _ t.length hmatch, List.nil_append,
      List.drop_left, replaceAll_cons_none _ [] 10 [] (hnl [])]
    rw [replaceAll_nil _ [] (matchTerms_nil_none _
      (fun s n h => (endsSegment_sigNL H T hg s n h).1))]

end Hooks

namespace Hooks

theorem matchTerms_one_cons (cls : Nat → Bool) (ts : List Term) (s : JStr) (n : Nat)
    (h : matchTerms (Term.one cls :: ts) s = some n) :
    ∃ x t m, s = x :: t ∧ cls x = true ∧ matchTerms ts t = some m ∧ n = m + 1 := by
  cases s with
  | nil => simp [matchTerms] at h
  | cons x t =>
    simp only [matchTerms] at h
    split at h
    · rename_i hx
      cases hm : matchTerms ts t with
      | none => rw [hm] at h; simp at h
      | some m =>
        rw [hm] at h
        simp only [Option.map_some', Option.some.injEq] at h
        exact ⟨x, t, m, rfl, hx, hm, h.symm⟩
    · simp at h

theorem matchTerms_many_cons (cls : Nat → Bool) (lo : Nat) (ts : List Term) (s : JStr) (n : Nat)
    (h : matchTerms (Term.many cls lo :: ts) s = some n) :
    ∃ k m, lo ≤ k ∧ k ≤ run cls s ∧ matchTerms ts (s.drop k) = some m ∧ n = m + k := by
  simp only [matchTerms] at h
  obtain ⟨k, h1, h2, hf⟩ := backoff_some _ _ _ _ h
  cases hm : matchTerms ts (s.drop k) with
  | none => rw [hm] at hf; simp at hf
  | some m =>
    rw [hm] at hf
    simp only [Option.map_some', Option.some.injEq] at hf
    exact ⟨k, m, h1, h2, hm, hf.symm⟩

/-- A match of the quote-adjacency pattern contains a newline and, after it, a double
quote. -/
theorem pQuotes_match (s : JStr) (n : Nat) (h : matchTerms pQuotes s = some n) :
    ∃ a b, s = a ++ 10 :: b ∧ 34 ∈ b := by
  unfold pQuotes at h
  obtain ⟨x, t, m1, rfl, _, h1, _⟩ := matchTerms_one_cons _ _ _ _ h
  obtain ⟨k1, m2, _, _, h2, _⟩ := matchTerms_many_cons _ _ _ _ _ h1
  obtain ⟨k2, m3, hk2, hr2, h3, _⟩ := matchTerms_many_cons _ _ _ _ _ h2
  obtain ⟨k3, m4, _, _, h4, _⟩ := matchTerms_many_cons _ _ _ _ _ h3
  obtain ⟨y, t4, m5, hy, hy34, _, _⟩ := matchTerms_one_cons _ _ _ _ h4
  obtain ⟨z, t1, hz, hzn⟩ := run_pos_cons isNL (t.drop k1) (by omega)
  have hz10 : z = 10 := (isNL_iff z).mp hzn
  subst hz10
  have hy2 : y = 34 := by simpa [lit] using hy34
  subst hy2
  refine ⟨x :: t.take k1, t1, ?_, ?_⟩
  · rw [List.cons_append, ← hz, List.take_append_drop]
  · have hsuf : (List.drop k3 (List.drop k2 (List.drop k1 t))) <:+ t1 := by
      obtain ⟨j, rfl⟩ : ∃ j, k2 = j + 1 := ⟨k2 - 1, by omega⟩
      rw [hz, List.drop_succ_cons]
      exact (List.drop_suffix _ _).trans (List.drop_suffix _ _)
    rw [hy] at hsuf
    exact hsuf.subset (List.mem_cons_self _ _)

theorem quote_after_newline_absent :
    ∀ (u a b : JStr), (∀ x ∈ u, x ≠ 10) → u ++ [10, 10] = a ++ 10 :: b → ∀ x ∈ b, x = 10 := by
  intro u
  induction u with
  | nil =>
    intro a b _ h x hx
    match a, h with
    | [], h =>
      simp only [List.nil_append, List.cons.injEq, true_and] at h
      rw [← h] at hx
      simpa using hx
    | [_], h =>
      simp only [List.nil_append, List.cons_append, List.cons.injEq] at h
      rw [← h.2.2] at hx
      simp at hx
    | _ :: _ :: _ :: _, h => simp at h
    | [_, _], h => simp at h
  | cons y t ih =>
    intro a b hu h x hx
    cases a with
    | nil =>
      simp only [List.nil_append, List.cons_append, List.cons.injEq] at h
      exact absurd h.1 (hu y (List.mem_cons_self _ _))
    | cons z a2 =>
      simp only [List.cons_append, List.cons.injEq] at h
      exact ih a2 b (fun w hw => hu w (List.mem_cons_of_mem _ hw)) h.2 x hx

theorem pQuotes_none_of_trailing_newlines (u : JStr) (hu : ∀ x ∈ u, x ≠ 10) :
    matchTerms pQuotes (u ++ [10, 10]) = none := by
  cases h : matchTerms pQuotes (u ++ [10, 10]) with
  | none => rfl
  | some n =>
    obtain ⟨a, b, hab, hb⟩ := pQuotes_match _ n h
    exact absurd (quote_after_newline_absent u a b hu hab 34 hb) (by decide)

theorem head_ne_of_suffix (S u : JStr) (hS : ∀ x ∈ S, x ≠ 10) (hu : u <:+ S) (hne : u ≠ []) :
    ∃ x t, u = x :: t ∧ x ≠ 10 := by
  cases u with
  | nil => exact absurd rfl hne
  | cons x t => exact ⟨x, t, rfl, hS x (hu.subset (List.mem_cons_self _ _))⟩

theorem pNewlines_none_of_ne (x : Nat) (t : JStr) (hx : x ≠ 10) :
    matchTerms pNewlines (x :: t) = none := by
  cases h : matchTerms pNewlines (x :: t) with
  | none => rfl
  | some n =>
    obtain ⟨_, _, t2, hs⟩ := pNewlines_match _ n h
    injection hs with h1 _
    exact absurd h1 hx

/-- The collapse steps on a subject line followed by three newlines. -/
theorem collapse_after_subject (S : JStr) (hS : ∀ x ∈ S, x ≠ 10) :
    replaceAll pQuotes [34] (replaceAll pHeredoc (u16 "\nEOF")
      (replaceAll pNewlines (u16 "\n\n") (S ++ [10, 10, 10]))) = S ++ [10, 10] := by
  have h1 : replaceAll pNewlines (u16 "\n\n") (S ++ [10, 10, 10]) = S ++ [10, 10] := by
    rw [replaceAll_append_of_none]
    · have : replaceAll pNewlines (u16 "\n\n") [10, 10, 10] = [10, 10] := by decide
      rw [this]
    · intro u hu hne
      obtain ⟨x, t, rfl, hx⟩ := head_ne_of_suffix S u hS hu hne
      exact pNewlines_none_of_ne x _ hx
  have h2 : replaceAll pHeredoc (u16 "\nEOF") (S ++ [10, 10]) = S ++ [10, 10] := by
    rw [replaceAll_append_of_none]
    · have : replaceAll pHeredoc (u16 "\nEOF") [10, 10] = [10, 10] := by decide
      rw [this]
    · intro u hu hne
      obtain ⟨x, t, rfl, hx⟩ := head_ne_of_suffix S u hS hu hne
      exact pHeredoc_none_of_ne x _ hx
  have h3 : replaceAll pQuotes [34] (S ++ [10, 10]) = S ++ [10, 10] := by
    rw [replaceAll_append_of_none]
    · have : replaceAll pQuotes [34] [10, 10] = [10, 10] := by decide
      rw [this]
    · intro u hu _
      exact pQuotes_none_of_trailing_newlines u (fun x hx => hS x (hu.subset hx))
  rw [h1, h2, h3]

end Hooks

namespace Hooks

theorem stripSignatures_subject_line (S L : JStr)
    (hsig : hasSignature S = false) (hL : SignatureLine L) :
    stripSignatures (S ++ 10 :: 10 :: (L ++ [10])) = S ++ [10, 10, 10] := by
  obtain ⟨h1, h2, h3⟩ := (hasSignature_eq_false_iff S).mp hsig
  have e : S ++ [10, 10, 10] = S ++ 10 :: 10 :: ([] ++ [10]) := rfl
  have n1 := noMatch_nil pCoClaude (isSigNL_nil_none isSigNL_pCoClaude)
  have n2 := noMatch_nil pCoAnthropic (isSigNL_nil_none isSigNL_pCoAnthropic)
  have n3 := noMatch_nil pRobot (isSigNL_nil_none isSigNL_pRobot)
  unfold stripSignatures
  rcases hL.2 with hm | ⟨hk1, hm⟩ | ⟨hk1, hk2, hm⟩
  · rw [pass_drop pCoClaude isSigNL_pCoClaude S L h1 hL.1 hm, e,
      pass_keep pCoAnthropic isSigNL_pCoAnthropic S [] h2 n2,
      pass_keep pRobot isSigNL_pRobot S [] h3 n3]
  · rw [pass_keep pCoClaude isSigNL_pCoClaude S L h1 ((matchesIn_eq_false_iff _ _).mp hk1),
      pass_drop pCoAnthropic isSigNL_pCoAnthropic S L h2 hL.1 hm, e,
      pass_keep pRobot isSigNL_pRobot S [] h3 n3]
  · rw [pass_keep pCoClaude isSigNL_pCoClaude S L h1 ((matchesIn_eq_false_iff _ _).mp hk1),
      pass_keep pCoAnthropic isSigNL_pCoAnthropic S L h2 ((matchesIn_eq_false_iff _ _).mp hk2),
      pass_drop pRobot isSigNL_pRobot S L h3 hL.1 hm]

/-- C4, as amended. Trailing-signature removal yields the body plus two newlines: for every
signature-free subject `S` without newline and every signature line `L`, cleaning
`S + "\n\n" + L + "\n"` with the command-rewrite chain yields exactly `S + "\n\n"`; in
particular the trailer example yields `"feat: add x\n\n"` and the emoji example yields
`"fix bug\n\n"`. -/
theorem trailing_signature_removed :
    (∀ S L : JStr, (∀ x ∈ S, x ≠ 10) → hasSignature S = false → SignatureLine L →
      cleanCommand (S ++ u16 "\n\n" ++ L ++ u16 "\n") = S ++ u16 "\n\n") ∧
    cleanCommand (u16 "feat: add x\n\nCo-Authored-By: Claude <noreply@anthropic.com>\n") =
      u16 "feat: add x\n\n" ∧
    cleanCommand (u16 "fix bug\n\n🤖 Generated with Claude Code\n") = u16 "fix bug\n\n" := by
  refine ⟨?_, by decide, by decide⟩
  intro S L hS hsig hL
  have e1 : S ++ u16 "\n\n" ++ L ++ u16 "\n" = S ++ 10 :: 10 :: (L ++ [10]) := by
    have : u16 "\n\n" = [10, 10] := rfl
    rw [this]
    have : u16 "\n" = [10] := rfl
    rw [this]
    simp
  have e2 : S ++ u16 "\n\n" = S ++ [10, 10] := rfl
  rw [e1, e2]
  unfold cleanCommand cleanCore
  rw [stripSignatures_subject_line S L hsig hL]
  exact collapse_after_subject S hS

/-- Witness of C4 as amended: the subject `feat: add x` and an `anthropic` trailer. -/
theorem trailing_signature_removed_witness :
    cleanCommand (u16 "feat: add x" ++ u16 "\n\n" ++
      u16 "Co-Authored-By: Bot <noreply@anthropic.com>" ++ u16 "\n") =
      u16 "feat: add x" ++ u16 "\n\n" :=
  trailing_signature_removed.1 (u16 "feat: add x")
    (u16 "Co-Authored-By: Bot <noreply@anthropic.com>")
    (by decide) (by decide) ⟨by decide, Or.inr (Or.inl ⟨by decide, by decide⟩)⟩

/-- Counterexample to C4 as stated: the cleaned trailer example ends in two newlines, not
in one. -/
theorem trailing_signature_counterexample :
    cleanCommand (u16 "feat: add x\n\nCo-Authored-By: Claude <noreply@anthropic.com>\n") ≠
      u16 "feat: add x\n" := by
  decide

end Hooks

namespace Hooks

/-! ## The signature patterns of the post-commit-amend hook -/

theorem isSigDot_cCoClaude : IsSigDot cCoClaude := ⟨_, _, goodSig_coClaudeCI, rfl⟩

theorem isSigDot_cCoAnthropic : IsSigDot cCoAnthropic := ⟨_, _, goodSig_coAnthropicCI, rfl⟩

theorem isSigDot_cRobot : IsSigDot cRobot := ⟨_, _, goodSig_robotCI, rfl⟩

theorem isSigDot_segMonotone {p : List Term} (h : IsSigDot p) : SegMonotone p := by
  obtain ⟨H, T, hg, rfl⟩ := h
  exact segMonotone_sigDot H T hg

theorem isSigDot_match_eq {p : List Term} (h : IsSigDot p) (s : JStr) (n : Nat)
    (hm : matchTerms p s = some n) : n = run dot s ∧ 0 < n := by
  obtain ⟨H, T, hg, rfl⟩ := h
  obtain ⟨hs, rfl⟩ := (matchTerms_sigDot H T hg s n).mp hm
  exact ⟨rfl, sigAt_pos H T hg dot (fun _ hx => hx) s hs⟩

theorem isSigDot_nil_none {p : List Term} (h : IsSigDot p) : matchTerms p [] = none :=
  matchTerms_nil_none p (fun s n hm => (isSigDot_match_eq h s n hm).2)

theorem isSigDot_nl_none {p : List Term} (h : IsSigDot p) (t : JStr) :
    matchTerms p (10 :: t) = none :=
  isSigDot_segMonotone h _ [] List.nil_prefix (isSigDot_nil_none h)

/-- An amend signature pattern takes the newlines before the signature, then its core. -/
theorem matchTerms_amend (p : List Term) (hp : IsSigDot p) (s : JStr) :
    matchTerms (Term.many isNL 0 :: p) s =
      (matchTerms p (s.drop (run isNL s))).map (· + run isNL s) := by
  rw [matchTerms_leadingNL 0 p (isSigDot_nl_none hp), if_pos (Nat.zero_le _)]

theorem endsSegment_amend (p : List Term) (hp : IsSigDot p) :
    EndsSegment (Term.many isNL 0 :: p) := by
  intro s n h
  rw [matchTerms_amend p hp] at h
  cases hm : matchTerms p (s.drop (run isNL s)) with
  | none => rw [hm] at h; simp at h
  | some m =>
    rw [hm] at h
    simp only [Option.map_some', Option.some.injEq] at h
    obtain ⟨h1, h2⟩ := isSigDot_match_eq hp _ m hm
    refine ⟨by omega, ?_⟩
    rw [← h, Nat.add_comm, ← List.drop_drop, h1]
    exact atLineEnd_drop_run _

theorem noMatch_amend_of_core (p : List Term) (hp : IsSigDot p) (s : JStr)
    (h : NoMatch p s) : NoMatch (Term.many isNL 0 :: p) s := by
  intro u hu
  rw [matchTerms_amend p hp, h _ ((List.drop_suffix _ _).trans hu)]
  rfl

theorem noMatch_core_of_amend (p : List Term) (hp : IsSigDot p) (s : JStr)
    (h : NoMatch (Term.many isNL 0 :: p) s) : NoMatch p s := by
  intro u hu
  have h1 := h u hu
  rw [matchTerms_amend p hp] at h1
  cases u with
  | nil => exact isSigDot_nil_none hp
  | cons x t =>
    by_cases hx : isNL x = true
    · rw [(isNL_iff x).mp hx]
      exact isSigDot_nl_none hp t
    · rw [run_cons, if_neg hx] at h1
      simp only [List.drop_zero] at h1
      cases hm : matchTerms p (x :: t) with
      | none => rfl
      | some m => rw [hm] at h1; simp at h1

/-- After the removal of the matches of an amend signature pattern its core matches
nowhere. -/
theorem noMatch_core_delete (p : List Term) (hp : IsSigDot p) (s : JStr) :
    NoMatch p (replaceAll (Term.many isNL 0 :: p) [] s) := by
  intro u hu
  obtain ⟨v, _, hv, huv⟩ :=
    (replaceAll_delete_sim _ (endsSegment_amend p hp) s.length s (le_refl _)).2 u hu
  cases hm : matchTerms p u with
  | none => rfl
  | some m =>
    exfalso
    have hv2 : matchTerms p v ≠ none := by
      intro hnone
      rw [(isSigDot_segMonotone hp) u v huv hnone] at hm
      exact absurd hm (by simp)
    rw [matchTerms_amend p hp] at hv
    cases v with
    | nil => exact hv2 (isSigDot_nil_none hp)
    | cons x t =>
      by_cases hx : isNL x = true
      · rw [(isNL_iff x).mp hx] at hv2
        exact hv2 (isSigDot_nl_none hp t)
      · rw [run_cons, if_neg hx] at hv
        simp only [List.drop_zero] at hv
        cases hm2 : matchTerms p (x :: t) with
        | none => exact hv2 hm2
        | some m2 => rw [hm2] at hv; simp at hv

theorem segSim_amend_delete (p : List Term) (hp : IsSigDot p) (s : JStr) :
    SegSim (replaceAll (Term.many isNL 0 :: p) [] s) s :=
  segSim_delete _ (endsSegment_amend p hp) s

theorem aCoClaude_core : aCoClaude = Term.many isNL 0 :: cCoClaude := aCoClaude_eq

theorem aCoAnthropic_core : aCoAnthropic = Term.many isNL 0 :: cCoAnthropic := aCoAnthropic_eq

theorem aRobot_core : aRobot = Term.many isNL 0 :: cRobot := aRobot_eq

end Hooks

namespace Hooks

/-! ## The amend-mode chain -/

theorem trim_eq (s : JStr) : trim s = (s.dropWhile isSpace).rdropWhile isSpace := rfl

theorem dropWhile_head_not (p : Nat → Bool) :
    ∀ (s : JStr) (x : Nat) (r : JStr), s.dropWhile p = x :: r → p x = false := by
  intro s
  induction s with
  | nil => intro x r h; simp at h
  | cons y t ih =>
    intro x r h
    rw [List.dropWhile_cons] at h
    split at h
    · exact ih x r h
    · rename_i hy
      injection h with h1 _
      rw [← h1]
      simpa using hy

theorem trim_isPrefix (s : JStr) : trim s <+: s.dropWhile isSpace := by
  rw [trim_eq]
  exact List.rdropWhile_prefix _ _

theorem dropWhile_trim (s : JStr) : (trim s).dropWhile isSpace = trim s := by
  obtain ⟨z, hz⟩ := trim_isPrefix s
  cases ht : trim s with
  | nil => rfl
  | cons x r =>
    rw [ht, List.cons_append] at hz
    rw [List.dropWhile_cons, if_neg]
    rw [dropWhile_head_not isSpace s x (r ++ z) hz.symm]
    simp

theorem trim_trim (s : JStr) : trim (trim s) = trim s := by
  rw [trim_eq (trim s), dropWhile_trim, trim_eq s, List.rdropWhile_idempotent]

theorem takeWhile_isPrefix_mono (c : Nat → Bool) :
    ∀ a b : JStr, a <+: b → a.takeWhile c <+: b.takeWhile c := by
  intro a
  induction a with
  | nil => intro b _; exact List.nil_prefix
  | cons x t ih =>
    intro b hab
    obtain ⟨z, rfl⟩ := hab
    rw [List.cons_append]
    exact takeWhile_cons_mono c x _ _ (ih (t ++ z) (List.prefix_append t z))

/-- Trimming simulates its input for every class. -/
theorem sim_trim (c : Nat → Bool) (s : JStr) : Sim c (trim s) s := by
  intro u hu
  obtain ⟨z, hz⟩ := trim_isPrefix s
  obtain ⟨y, hy⟩ := hu
  refine ⟨u ++ z, ?_, takeWhile_isPrefix_mono c _ _ (List.prefix_append u z)⟩
  have h1 : (u ++ z) <:+ s.dropWhile isSpace := by
    rw [← hz, ← hy, List.append_assoc]
    exact List.suffix_append y (u ++ z)
  exact h1.trans (List.dropWhile_suffix _)

theorem hasSignatureAmend_eq_false_iff (s : JStr) :
    hasSignatureAmend s = false ↔
      NoMatch cCoClaude s ∧ NoMatch cCoAnthropic s ∧ NoMatch cRobot s := by
  simp only [hasSignatureAmend, Bool.or_eq_false_iff, matchesIn_eq_false_iff, and_assoc,
    aCoClaude_core, aCoAnthropic_core, aRobot_core]
  constructor
  · rintro ⟨h1, h2, h3⟩
    exact ⟨noMatch_core_of_amend _ isSigDot_cCoClaude s h1,
      noMatch_core_of_amend _ isSigDot_cCoAnthropic s h2,
      noMatch_core_of_amend _ isSigDot_cRobot s h3⟩
  · rintro ⟨h1, h2, h3⟩
    exact ⟨noMatch_amend_of_core _ isSigDot_cCoClaude s h1,
      noMatch_amend_of_core _ isSigDot_cCoAnthropic s h2,
      noMatch_amend_of_core _ isSigDot_cRobot s h3⟩

/-- A message that simulates a signature-free message is signature-free. -/
theorem hasSignatureAmend_of_segSim (out inp : JStr) (hsim : SegSim out inp)
    (h : hasSignatureAmend inp = false) : hasSignatureAmend out = false := by
  rw [hasSignatureAmend_eq_false_iff] at h ⊢
  exact ⟨noMatch_of_segSim _ (isSigDot_segMonotone isSigDot_cCoClaude) _ _ hsim h.1,
    noMatch_of_segSim _ (isSigDot_segMonotone isSigDot_cCoAnthropic) _ _ hsim h.2.1,
    noMatch_of_segSim _ (isSigDot_segMonotone isSigDot_cRobot) _ _ hsim h.2.2⟩

/-- No signature is left after the three removals of the amend hook. -/
theorem hasSignatureAmend_strip (s : JStr) :
    hasSignatureAmend (stripSignaturesAmend s) = false := by
  rw [hasSignatureAmend_eq_false_iff]
  unfold stripSignaturesAmend
  rw [aCoClaude_core, aCoAnthropic_core, aRobot_core]
  refine ⟨?_, ?_, ?_⟩
  · exact noMatch_of_segSim _ (isSigDot_segMonotone isSigDot_cCoClaude) _ _
      (segSim_trans _ _ _ (segSim_amend_delete _ isSigDot_cRobot _)
        (segSim_amend_delete _ isSigDot_cCoAnthropic _))
      (noMatch_core_delete _ isSigDot_cCoClaude s)
  · exact noMatch_of_segSim _ (isSigDot_segMonotone isSigDot_cCoAnthropic) _ _
      (segSim_amend_delete _ isSigDot_cRobot _)
      (noMatch_core_delete _ isSigDot_cCoAnthropic _)
  · exact noMatch_core_delete _ isSigDot_cRobot _

theorem stripSignaturesAmend_of_noSignature (s : JStr) (h : hasSignatureAmend s = false) :
    stripSignaturesAmend s = s := by
  simp only [hasSignatureAmend, Bool.or_eq_false_iff, matchesIn_eq_false_iff] at h
  unfold stripSignaturesAmend
  rw [replaceAll_of_noMatch _ _ _ h.1.1, replaceAll_of_noMatch _ _ _ h.1.2,
    replaceAll_of_noMatch _ _ _ h.2]

theorem hasSignatureAmend_cleanMessage (msg : JStr) :
    hasSignatureAmend (cleanMessage msg) = false := by
  apply hasSignatureAmend_of_segSim _ _ _ (hasSignatureAmend_strip msg)
  rw [segSim_iff_sim]
  unfold cleanMessage
  exact sim_trans dot _ _ _ (sim_trim dot _) (sim_pNewlines dot (by decide) _)

theorem noMatch_pNewlines_cleanMessage (msg : JStr) : NoMatch pNewlines (cleanMessage msg) := by
  unfold cleanMessage
  exact noMatch_pNewlines_of_sim _ _ (sim_trim isNL _) (noMatch_pNewlines_collapse _)

/-- C9. Idempotence of the amend-mode cleaner: applying the chain of the three signature
removals, the newline-run collapse and the trim to its own output gives that output
again. -/
theorem cleanMessage_idempotent (msg : JStr) :
    cleanMessage (cleanMessage msg) = cleanMessage msg := by
  have h1 := stripSignaturesAmend_of_noSignature _ (hasSignatureAmend_cleanMessage msg)
  have h2 := replaceAll_of_noMatch pNewlines (u16 "\n\n") _ (noMatch_pNewlines_cleanMessage msg)
  have h3 : trim (cleanMessage msg) = cleanMessage msg := by
    unfold cleanMessage
    exact trim_trim _
  have key : ∀ x, cleanMessage x =
      trim (replaceAll pNewlines (u16 "\n\n") (stripSignaturesAmend x)) := fun _ => rfl
  rw [key (cleanMessage msg), h1, h2, h3]

end Hooks

namespace Hooks

/-! ## The amend is issued when a signature is present -/

theorem inkCount_cons (x : Nat) (t : JStr) :
    inkCount (x :: t) = inkCount t + if isSpace x = true then 0 else 1 := by
  unfold inkCount
  rw [List.countP_cons]
  cases isSpace x <;> simp

theorem inkCount_append (a b : JStr) : inkCount (a ++ b) = inkCount a + inkCount b := by
  unfold inkCount
  exact List.countP_append _ _ _

theorem inkCount_drop_le (k : Nat) (s : JStr) : inkCount (s.drop k) ≤ inkCount s := by
  unfold inkCount
  exact (List.drop_sublist k s).countP_le _

/-- A replacement by white space never adds ink. -/
theorem inkCount_replaceAll_le (p : List Term) (rep : JStr)
    (hpos : ∀ s n, matchTerms p s = some n → 0 < n) (hrep : inkCount rep = 0) :
    ∀ (m : Nat) (s : JStr), s.length ≤ m → inkCount (replaceAll p rep s) ≤ inkCount s := by
  intro m
  induction m with
  | zero =>
    intro s hs
    have hnil : s = [] := List.length_eq_zero.mp (by omega)
    subst hnil
    rw [replaceAll_nil p rep (matchTerms_nil_none p hpos)]
  | succ m ih =>
    intro s hs
    cases s with
    | nil => exact ih [] (by simp)
    | cons x t =>
      simp only [List.length_cons] at hs
      cases h : matchTerms p (x :: t) with
      | none =>
        rw [replaceAll_cons_none p rep x t h, inkCount_cons, inkCount_cons]
        have := ih t (by omega)
        omega
      | some n =>
        have hn := hpos _ n h
        obtain ⟨k, rfl⟩ : ∃ k, n = k + 1 := ⟨n - 1, by omega⟩
        rw [replaceAll_cons_some p rep x t k h, inkCount_append, hrep, inkCount_cons]
        have h1 := ih (t.drop k) (by simp only [List.length_drop]; omega)
        have h2 := inkCount_drop_le k t
        omega

/-- Removing the matches of a pattern whose every match holds ink removes ink as soon as
the pattern matches somewhere. -/
theorem inkCount_delete_lt (p : List Term)
    (hkey : ∀ s n, matchTerms p s = some n → 0 < inkCount (s.take n)) :
    ∀ (m : Nat) (s : JStr), s.length ≤ m → matchesIn p s = true →
      inkCount (replaceAll p [] s) < inkCount s := by
  have hpos : ∀ s n, matchTerms p s = some n → 0 < n := by
    intro s n h
    have := hkey s n h
    cases n with
    | zero => simp [inkCount] at this
    | succ k => omega
  intro m
  induction m with
  | zero =>
    intro s hs hm
    have hnil : s = [] := List.length_eq_zero.mp (by omega)
    subst hnil
    simp [matchesIn, matchTerms_nil_none p hpos] at hm
  | succ m ih =>
    intro s hs hm
    cases s with
    | nil => exact ih [] (by simp) hm
    | cons x t =>
      simp only [List.length_cons] at hs
      cases h : matchTerms p (x :: t) with
      | none =>
        simp only [matchesIn, h, Option.isSome_none, Bool.false_or] at hm
        rw [replaceAll_cons_none p [] x t h, inkCount_cons, inkCount_cons]
        have := ih t (by omega) hm
        omega
      | some n =>
        have hn := hpos _ n h
        have hk := hkey _ n h
        obtain ⟨k, rfl⟩ : ∃ k, n = k + 1 := ⟨n - 1, by omega⟩
        rw [replaceAll_cons_some p [] x t k h, List.nil_append]
        have h1 := inkCount_replaceAll_le p [] hpos rfl (t.drop k).length (t.drop k) (le_refl _)
        have h2 : inkCount (x :: t) =
            inkCount ((x :: t).take (k + 1)) + inkCount ((x :: t).drop (k + 1)) := by
          rw [← inkCount_append, List.take_append_drop]
        rw [h2]
        simp only [List.drop_succ_cons]
        omega

theorem inkCount_dropWhile : ∀ s : JStr, inkCount (s.dropWhile isSpace) = inkCount s := by
  intro s
  induction s with
  | nil => rfl
  | cons x t ih =>
    rw [List.dropWhile_cons]
    split
    · rename_i hx
      rw [ih, inkCount_cons, if_pos hx]
      rfl
    · rfl

theorem inkCount_reverse (s : JStr) : inkCount s.reverse = inkCount s := by
  unfold inkCount
  exact (List.reverse_perm s).countP_eq _

theorem inkCount_trim (s : JStr) : inkCount (trim s) = inkCount s := by
  unfold trim
  rw [inkCount_reverse, inkCount_dropWhile, inkCount_reverse, inkCount_dropWhile]

end Hooks

namespace Hooks

theorem litCI_ink (p x : Nat) (hp : isSpace p = false) (h : litCI p x = true) :
    isSpace x = false := by
  simp only [litCI, Bool.or_eq_true, Bool.and_eq_true, beq_iff_eq, decide_eq_true_eq] at h
  rcases h with (h | h) | h
  · rw [h]; exact hp
  · simp only [isSpace, Bool.or_eq_false_iff, beq_eq_false_iff_ne, ne_eq, Bool.and_eq_false_imp,
      decide_eq_true_eq, decide_eq_false_iff_not, not_le]
    refine ⟨⟨⟨⟨⟨⟨⟨⟨⟨⟨⟨⟨⟨⟨?_, ?_⟩, ?_⟩, ?_⟩, ?_⟩, ?_⟩, ?_⟩, ?_⟩, ?_⟩, ?_⟩, ?_⟩, ?_⟩, ?_⟩, ?_⟩, ?_⟩ <;>
      omega
  · simp only [isSpace, Bool.or_eq_false_iff, beq_eq_false_iff_ne, ne_eq, Bool.and_eq_false_imp,
      decide_eq_true_eq, decide_eq_false_iff_not, not_le]
    refine ⟨⟨⟨⟨⟨⟨⟨⟨⟨⟨⟨⟨⟨⟨?_, ?_⟩, ?_⟩, ?_⟩, ?_⟩, ?_⟩, ?_⟩, ?_⟩, ?_⟩, ?_⟩, ?_⟩, ?_⟩, ?_⟩, ?_⟩, ?_⟩ <;>
      omega

theorem sigDot_first_ink (H T : List (Nat → Bool)) (hg : GoodSig H T) (p0 : Nat)
    (H2 : List (Nat → Bool)) (hH : H = litCI p0 :: H2) (hp0 : isSpace p0 = false)
    (x : Nat) (t : JStr) (n : Nat)
    (h : matchTerms (sigPattern H T [Term.many dot 0, Term.eol]) (x :: t) = some n) :
    isSpace x = false := by
  have h1 := ((matchTerms_sigDot H T hg _ n).mp h).1.1
  rw [hH] at h1
  simp only [classPrefix, Bool.and_eq_true] at h1
  exact litCI_ink p0 x hp0 h1.1

/-- Every match of an amend signature pattern holds ink. -/
theorem amend_match_ink (p : List Term) (hp : IsSigDot p)
    (hink : ∀ x t n, matchTerms p (x :: t) = some n → isSpace x = false)
    (s : JStr) (n : Nat) (h : matchTerms (Term.many isNL 0 :: p) s = some n) :
    0 < inkCount (s.take n) := by
  rw [matchTerms_amend p hp] at h
  cases hm : matchTerms p (s.drop (run isNL s)) with
  | none => rw [hm] at h; simp at h
  | some m =>
    rw [hm] at h
    simp only [Option.map_some', Option.some.injEq] at h
    have hm0 := (isSigDot_match_eq hp _ m hm).2
    cases hd : s.drop (run isNL s) with
    | nil => rw [hd, isSigDot_nil_none hp] at hm; exact absurd hm (by simp)
    | cons x t =>
      rw [hd] at hm
      have hx := hink x t m hm
      obtain ⟨k, rfl⟩ : ∃ k, m = k + 1 := ⟨m - 1, by omega⟩
      rw [← h, Nat.add_comm, List.take_add, inkCount_append, hd, List.take_succ_cons,
        inkCount_cons, hx]
      simp

theorem aCoClaude_ink (s : JStr) (n : Nat) (h : matchTerms aCoClaude s = some n) :
    0 < inkCount (s.take n) := by
  rw [aCoClaude_core] at h
  exact amend_match_ink _ isSigDot_cCoClaude
    (sigDot_first_ink _ _ goodSig_coClaudeCI 67 _ rfl (by decide)) s n h

theorem aCoAnthropic_ink (s : JStr) (n : Nat) (h : matchTerms aCoAnthropic s = some n) :
    0 < inkCount (s.take n) := by
  rw [aCoAnthropic_core] at h
  exact amend_match_ink _ isSigDot_cCoAnthropic
    (sigDot_first_ink _ _ goodSig_coAnthropicCI 67 _ rfl (by decide)) s n h

theorem aRobot_ink (s : JStr) (n : Nat) (h : matchTerms aRobot s = some n) :
    0 < inkCount (s.take n) := by
  rw [aRobot_core] at h
  exact amend_match_ink _ isSigDot_cRobot
    (sigDot_first_ink _ _ goodSig_robotCI 0xD83E _ rfl (by decide)) s n h

theorem pos_of_ink (p : List Term)
    (hkey : ∀ s n, matchTerms p s = some n → 0 < inkCount (s.take n)) :
    ∀ s n, matchTerms p s = some n → 0 < n := by
  intro s n h
  have := hkey s n h
  cases n with
  | zero => simp [inkCount] at this
  | succ k => omega

theorem inkCount_amend_le (p : List Term)
    (hkey : ∀ s n, matchTerms p s = some n → 0 < inkCount (s.take n)) (s : JStr) :
    inkCount (replaceAll p [] s) ≤ inkCount s :=
  inkCount_replaceAll_le p [] (pos_of_ink p hkey) rfl s.length s (le_refl _)

theorem inkCount_amend_lt (p : List Term)
    (hkey : ∀ s n, matchTerms p s = some n → 0 < inkCount (s.take n)) (s : JStr)
    (h : matchesIn p s = true) : inkCount (replaceAll p [] s) < inkCount s :=
  inkCount_delete_lt p hkey s.length s (le_refl _) h

theorem replaceAll_of_not_matchesIn (p : List Term) (rep s : JStr)
    (h : ¬ matchesIn p s = true) : replaceAll p rep s = s :=
  replaceAll_of_noMatch p rep s ((matchesIn_eq_false_iff p s).mp (by simpa using h))

/-- The removals of the amend hook remove ink from a message with a signature. -/
theorem inkCount_stripSignaturesAmend_lt (msg : JStr) (h : hasSignatureAmend msg = true) :
    inkCount (stripSignaturesAmend msg) < inkCount msg := by
  unfold stripSignaturesAmend
  by_cases h1 : matchesIn aCoClaude msg = true
  · have a := inkCount_amend_lt aCoClaude aCoClaude_ink msg h1
    have b := inkCount_amend_le aCoAnthropic aCoAnthropic_ink (replaceAll aCoClaude [] msg)
    have c := inkCount_amend_le aRobot aRobot_ink
      (replaceAll aCoAnthropic [] (replaceAll aCoClaude [] msg))
    omega
  · rw [replaceAll_of_not_matchesIn aCoClaude [] msg h1]
    by_cases h2 : matchesIn aCoAnthropic msg = true
    · have b := inkCount_amend_lt aCoAnthropic aCoAnthropic_ink msg h2
      have c := inkCount_amend_le aRobot aRobot_ink (replaceAll aCoAnthropic [] msg)
      omega
    · rw [replaceAll_of_not_matchesIn aCoAnthropic [] msg h2]
      have h3 : matchesIn aRobot msg = true := by
        simp only [hasSignatureAmend, Bool.or_eq_true] at h
        rcases h with (h | h) | h
        · exact absurd h h1
        · exact absurd h h2
        · exact h
      exact inkCount_amend_lt aRobot aRobot_ink msg h3

/-- The cleaned message differs from the trimmed message when the message holds a
signature. -/
theorem cleanMessage_ne_trim (msg : JStr) (h : hasSignatureAmend msg = true) :
    trim msg ≠ cleanMessage msg := by
  intro heq
  have h1 := inkCount_stripSignaturesAmend_lt msg h
  have h2 : inkCount (replaceAll pNewlines (u16 "\n\n") (stripSignaturesAmend msg)) ≤
      inkCount (stripSignaturesAmend msg) :=
    inkCount_replaceAll_le pNewlines _
      (fun s n hm => by have := (pNewlines_match s n hm).2.1; omega) (by decide) _ _ (le_refl _)
  have h3 : inkCount (trim msg) = inkCount (cleanMessage msg) := by rw [heq]
  unfold cleanMessage at h3
  rw [inkCount_trim, inkCount_trim] at h3
  omega

end Hooks

namespace Hooks

/-! ## The amend operation -/

theorem matchTerms_pQuote (x : Nat) (t : JStr) :
    matchTerms pQuote (x :: t) = if x = 34 then some 1 else none := by
  simp only [pQuote, matchTerms, lit, beq_iff_eq]
  split <;> simp

/-- The replacement `/"/g` by backslash and double quote, code unit by code unit. -/
theorem escapeQuotes_eq : ∀ s : JStr, escapeQuotes s = backslashQuotes s := by
  intro s
  unfold escapeQuotes backslashQuotes
  induction s with
  | nil => exact replaceAll_nil pQuote _ (by simp [pQuote, matchTerms])
  | cons x t ih =>
    by_cases hx : x = 34
    · have h : matchTerms pQuote (x :: t) = some (0 + 1) := by
        rw [matchTerms_pQuote, if_pos hx]
      rw [replaceAll_cons_some pQuote _ x t 0 h, List.drop_zero, ih, List.flatMap_cons, if_pos hx]
    · have h : matchTerms pQuote (x :: t) = none := by
        rw [matchTerms_pQuote, if_neg hx]
      rw [replaceAll_cons_none pQuote _ x t h, ih, List.flatMap_cons, if_neg hx]
      rfl

/-- C7. Amend-mode trigger: on an event whose command contains `git commit`, with a HEAD
message that contains a match of a signature pattern, the hook runs the history read
`git log -1 --format=%B` and then exactly one amend, the command line
`git commit --amend -m "..."` whose message argument, between the double quotes, is the
cleaned and trimmed message with every double quote replaced by backslash and double quote;
the exit status is 0. -/
theorem amend_issued_once (parsed : Option JVal) (command msg : JStr) (amendSucceeds : Bool)
    (hcmd : commandText parsed = some command)
    (hgit : includes (u16 "git commit") command = true)
    (hsig : hasSignatureAmend msg = true) :
    (amendHook parsed (some msg) amendSucceeds).execs =
      [u16 "git log -1 --format=%B",
        u16 "git commit --amend -m " ++ [34] ++ backslashQuotes (cleanMessage msg) ++ [34]] ∧
    (amendHook parsed (some msg) amendSucceeds).exit = 0 := by
  have hne := cleanMessage_ne_trim msg hsig
  have hline : u16 "git commit --amend -m " ++ [34] ++ backslashQuotes (cleanMessage msg) ++
      [34] = amendCommand (backslashQuotes (cleanMessage msg)) := by
    simp [amendCommand]
  rw [hline]
  change _ = [gitLogCommand, amendCommand (backslashQuotes (cleanMessage msg))] ∧ _
  unfold commandText at hcmd
  unfold amendHook
  cases parsed with
  | none => simp at hcmd
  | some data =>
    simp only [] at hcmd ⊢
    cases hti : getProp (u16 "tool_input") data with
    | none => rw [hti] at hcmd; simp at hcmd
    | some toolInput =>
      rw [hti] at hcmd
      simp only [] at hcmd ⊢
      cases hc : jsOr (getPropOpt (u16 "command") toolInput) (JVal.str []) with
      | str text =>
        rw [hc] at hcmd
        simp only [Option.some.injEq] at hcmd
        subst hcmd
        simp only [callIncludes, hgit, ← escapeQuotes_eq]
        rw [if_pos hne]
        cases amendSucceeds <;> exact ⟨rfl, rfl⟩
      | _ => rw [hc] at hcmd; simp at hcmd

/-- Witness of C7: a commit whose HEAD message ends in a trailer. -/
theorem amend_issued_once_witness :
    (amendHook (some (commandEvent (u16 "git commit -m x")))
      (some (u16 "fix: y\n\nCo-authored-by: claude <noreply@anthropic.com>\n")) true).execs =
      [u16 "git log -1 --format=%B",
        u16 "git commit --amend -m " ++ [34] ++ u16 "fix: y" ++ [34]] :=
  (amend_issued_once (some (commandEvent (u16 "git commit -m x"))) (u16 "git commit -m x")
    (u16 "fix: y\n\nCo-authored-by: claude <noreply@anthropic.com>\n") true
    rfl (by decide) (by decide)).1

/-- C8, the code at the failing input: for the HEAD message `say \"hi\"` followed by a
trailer the hook runs `git commit --amend -m "say \\"hi\\""`: each double quote of the
message follows two backslashes, an even run, and is not escaped. -/
theorem escapeQuotes_leaves_quote_after_backslash :
    (amendHook (some (commandEvent (u16 "git commit -m x")))
      (some (u16 "say " ++ [92, 34] ++ u16 "hi" ++ [92, 34] ++
        u16 "\n\nCo-Authored-By: Claude <noreply@anthropic.com>\n")) true).execs =
      [gitLogCommand,
        u16 "git commit --amend -m " ++ [34] ++
          (u16 "say " ++ [92, 92, 34] ++ u16 "hi" ++ [92, 92, 34]) ++ [34]] ∧
    escapeQuotes (u16 "say " ++ [92, 34] ++ u16 "hi" ++ [92, 34]) =
      u16 "say " ++ [92, 92, 34] ++ u16 "hi" ++ [92, 92, 34] ∧
    quotesEscaped (escapeQuotes (u16 "say " ++ [92, 34] ++ u16 "hi" ++ [92, 34])) = false := by
  decide

end Hooks

namespace Hooks

/-! ## The commit-cleaning hooks never block -/

theorem amendHook_exit (parsed : Option JVal) (headMessage : Option JStr)
    (amendSucceeds : Bool) : (amendHook parsed headMessage amendSucceeds).exit = 0 := by
  unfold amendHook
  simp only []
  repeat' split
  all_goals rfl

/-- C14. The commit-cleaning hooks never block: whatever standard input parses to (or
fails to), and whatever the outcome of the history read and of the amend, the
command-rewrite hook and the post-commit-amend hook both exit with status 0. -/
theorem commit_hooks_never_block (parsed : Option JVal) (headMessage : Option JStr)
    (amendSucceeds : Bool) :
    (commandRewriteHook parsed).exit = 0 ∧
    (amendHook parsed headMessage amendSucceeds).exit = 0 :=
  ⟨commandRewriteHook_exit parsed, amendHook_exit parsed headMessage amendSucceeds⟩

/-! ## No amend without a signature -/

theorem cleanMessage_of_nothing_to_clean (msg : JStr) (hsig : hasSignatureAmend msg = false)
    (hnl : matchesIn pNewlines msg = false) : cleanMessage msg = trim msg := by
  unfold cleanMessage
  rw [stripSignaturesAmend_of_noSignature msg hsig,
    replaceAll_of_noMatch _ _ _ ((matchesIn_eq_false_iff _ _).mp hnl)]

/-- C13, as amended. No amend without a signature or a blank-line run: on an event whose
command contains `git commit`, with a HEAD message that contains no match of a signature
pattern and no run of three newlines, the hook reads the history, treats the message as
unchanged and issues no amend. -/
theorem no_amend_when_nothing_to_clean (parsed : Option JVal) (command msg : JStr)
    (amendSucceeds : Bool)
    (hcmd : commandText parsed = some command)
    (hgit : includes (u16 "git commit") command = true)
    (hsig : hasSignatureAmend msg = false)
    (hnl : matchesIn pNewlines msg = false) :
    cleanMessage msg = trim msg ∧
    (amendHook parsed (some msg) amendSucceeds).execs = [gitLogCommand] ∧
    (amendHook parsed (some msg) amendSucceeds).stderr = [Log.started, Log.nothingToRemove] := by
  have heq := cleanMessage_of_nothing_to_clean msg hsig hnl
  refine ⟨heq, ?_⟩
  unfold commandText at hcmd
  unfold amendHook
  cases parsed with
  | none => simp at hcmd
  | some data =>
    simp only [] at hcmd ⊢
    cases hti : getProp (u16 "tool_input") data with
    | none => rw [hti] at hcmd; simp at hcmd
    | some toolInput =>
      rw [hti] at hcmd
      simp only [] at hcmd ⊢
      cases hc : jsOr (getPropOpt (u16 "command") toolInput) (JVal.str []) with
      | str text =>
        rw [hc] at hcmd
        simp only [Option.some.injEq] at hcmd
        subst hcmd
        simp only [callIncludes, hgit]
        rw [if_neg (fun h => h heq.symm)]
        exact ⟨rfl, rfl⟩
      | _ => rw [hc] at hcmd; simp at hcmd

/-- Witness of C13 as amended: a HEAD message without signature. -/
theorem no_amend_when_nothing_to_clean_witness :
    (amendHook (some (commandEvent (u16 "git commit -m x")))
      (some (u16 "fix: y\n\nbody\n")) true).execs = [gitLogCommand] :=
  (no_amend_when_nothing_to_clean (some (commandEvent (u16 "git commit -m x")))
    (u16 "git commit -m x") (u16 "fix: y\n\nbody\n") true
    rfl (by decide) (by decide) (by decide)).2.1

/-- Counterexample to C13 as stated: a HEAD message without any signature but with four
newlines in a row is amended. -/
theorem amend_without_signature_counterexample :
    hasSignatureAmend (u16 "a\n\n\n\nb") = false ∧
    (amendHook (some (commandEvent (u16 "git commit -m x")))
      (some (u16 "a\n\n\n\nb")) true).execs = [gitLogCommand, amendCommand (u16 "a\n\nb")] := by
  decide

end Hooks

namespace Hooks

/-! ## The blank-line bound -/

theorem pQuotes_match_head (s : JStr) (n : Nat) (h : matchTerms pQuotes s = some n) :
    0 < n ∧ ∃ t, s = 34 :: t := by
  unfold pQuotes at h
  obtain ⟨x, t, m, rfl, hx, _, hn⟩ := matchTerms_one_cons _ _ _ _ h
  have hx2 : x = 34 := by simpa [lit] using hx
  exact ⟨by omega, t, by rw [hx2]⟩

/-- The quote-adjacency collapse simulates its input for every class without the double
quote. -/
theorem sim_pQuotes (c : Nat → Bool) (hc : c 34 = false) (s : JStr) :
    Sim c (replaceAll pQuotes [34] s) s := by
  refine (sim_replace c pQuotes [34] ?_ ?_ ?_ s.length s (le_refl _)).2
  · intro s n h
    exact (pQuotes_match_head s n h).1
  · intro s n X _ _
    rw [List.cons_append, takeWhile_cons_neg c 34 _ hc]
    exact List.nil_prefix
  · intro s n X b h hb hX
    rcases List.suffix_cons_iff.mp hb with rfl | hb2
    · exact ⟨s, List.suffix_refl _, by
        rw [List.cons_append, takeWhile_cons_neg c 34 _ hc]; exact List.nil_prefix⟩
    · rw [List.suffix_nil.mp hb2]
      exact ⟨s.drop n, List.drop_suffix n s, hX⟩

theorem suffix_of_includes (w : JStr) :
    ∀ s : JStr, includes w s = true → ∃ u, u <:+ s ∧ w <+: u := by
  intro s
  induction s with
  | nil =>
    intro h
    simp only [includes] at h
    exact ⟨[], List.suffix_refl _, List.isPrefixOf_iff_prefix.mp h⟩
  | cons x t ih =>
    intro h
    simp only [includes, Bool.or_eq_true] at h
    rcases h with h | h
    · exact ⟨x :: t, List.suffix_refl _, List.isPrefixOf_iff_prefix.mp h⟩
    · obtain ⟨u, hu, hw⟩ := ih h
      exact ⟨u, hu.trans (List.suffix_cons x t), hw⟩

/-- Where the newline-run pattern matches nowhere, no three newlines stand in a row. -/
theorem not_includes_three_newlines (s : JStr) (h : NoMatch pNewlines s) :
    includes (u16 "\n\n\n") s = false := by
  cases hi : includes (u16 "\n\n\n") s with
  | false => rfl
  | true =>
    exfalso
    obtain ⟨u, hu, ⟨r, hr⟩⟩ := suffix_of_includes _ s hi
    have h2 := (noMatch_pNewlines_iff s).mp h u hu
    have h3 : u16 "\n\n\n" = [10, 10, 10] := rfl
    rw [← hr, h3] at h2
    simp [run_cons, isNL] at h2

theorem noMatch_pNewlines_cleanCommand (command : JStr) :
    NoMatch pNewlines (cleanCommand command) := by
  unfold cleanCommand
  exact noMatch_pNewlines_of_sim _ _ (sim_pQuotes isNL (by decide) _)
    (noMatch_pNewlines_cleanCore command)

/-- C12. Blank-line bound: the cleaned text of the command-rewrite chain and the cleaned
text of the amend-mode chain contain no three newlines in a row; the pattern `\n{3,}`
matches nowhere in either. -/
theorem blank_line_bound (text : JStr) :
    includes (u16 "\n\n\n") (cleanCommand text) = false ∧
    includes (u16 "\n\n\n") (cleanMessage text) = false ∧
    matchesIn pNewlines (cleanCommand text) = false ∧
    matchesIn pNewlines (cleanMessage text) = false :=
  ⟨not_includes_three_newlines _ (noMatch_pNewlines_cleanCommand text),
    not_includes_three_newlines _ (noMatch_pNewlines_cleanMessage text),
    (matchesIn_eq_false_iff _ _).mpr (noMatch_pNewlines_cleanCommand text),
    (matchesIn_eq_false_iff _ _).mpr (noMatch_pNewlines_cleanMessage text)⟩

end Hooks

namespace Hooks

/-! ## Cleaning only deletes -/

/-- A replacement whose text is a subsequence of every match yields a subsequence of its
input. -/
theorem sublist_replaceAll (p : List Term) (rep : JStr)
    (hrep : ∀ s n, matchTerms p s = some n → 0 < n ∧ rep.Sublist (s.take n)) :
    ∀ (m : Nat) (s : JStr), s.length ≤ m → (replaceAll p rep s).Sublist s := by
  intro m
  induction m with
  | zero =>
    intro s hs
    have hnil : s = [] := List.length_eq_zero.mp (by omega)
    subst hnil
    rw [replaceAll_nil p rep (matchTerms_nil_none p (fun s n h => (hrep s n h).1))]
  | succ m ih =>
    intro s hs
    cases s with
    | nil => exact ih [] (by simp)
    | cons x t =>
      simp only [List.length_cons] at hs
      cases h : matchTerms p (x :: t) with
      | none =>
        rw [replaceAll_cons_none p rep x t h]
        exact (ih t (by omega)).cons₂ x
      | some n =>
        obtain ⟨hn, hsub⟩ := hrep _ n h
        obtain ⟨k, rfl⟩ : ∃ k, n = k + 1 := ⟨n - 1, by omega⟩
        rw [replaceAll_cons_some p rep x t k h]
        have h1 := ih (t.drop k) (by simp only [List.length_drop]; omega)
        have h2 : (x :: t) = (x :: t).take (k + 1) ++ t.drop k := by
          rw [← List.take_append_drop (k + 1) (x :: t)]
          simp
        rw [h2]
        exact List.Sublist.append hsub h1

theorem sublist_delete (p : List Term) (hp : EndsSegment p) (s : JStr) :
    (replaceAll p [] s).Sublist s :=
  sublist_replaceAll p [] (fun s n h => ⟨(hp s n h).1, List.nil_sublist _⟩) s.length s (le_refl _)

theorem sublist_pNewlines (s : JStr) : (replaceAll pNewlines (u16 "\n\n") s).Sublist s := by
  have hrep : u16 "\n\n" = [10, 10] := rfl
  rw [hrep]
  refine sublist_replaceAll pNewlines [10, 10] ?_ s.length s (le_refl _)
  intro s n h
  obtain ⟨hn, h3, _⟩ := pNewlines_match s n h
  refine ⟨by omega, ?_⟩
  obtain ⟨x, r, hxr, hx⟩ := drop_lt_run isNL 0 s (by omega)
  obtain ⟨y, r2, hyr, hy⟩ := drop_lt_run isNL 1 s (by omega)
  rw [List.drop_zero] at hxr
  subst hxr
  simp only [List.drop_succ_cons, List.drop_zero] at hyr
  subst hyr
  rw [(isNL_iff x).mp hx, (isNL_iff y).mp hy]
  obtain ⟨k, rfl⟩ : ∃ k, n = k + 2 := ⟨n - 2, by omega⟩
  simp only [List.take_succ_cons]
  exact ((List.nil_sublist _).cons₂ 10).cons₂ 10

theorem sublist_pHeredoc (s : JStr) : (replaceAll pHeredoc (u16 "\nEOF") s).Sublist s := by
  have hrep : u16 "\nEOF" = [10, 69, 79, 70] := rfl
  rw [hrep]
  refine sublist_replaceAll pHeredoc [10, 69, 79, 70] ?_ s.length s (le_refl _)
  intro s n h
  obtain ⟨hn, h1, ⟨t, hs⟩, hd⟩ := pHeredoc_match s n h
  refine ⟨by omega, ?_⟩
  have e : s.take n = s.take (run isNL s) ++ [69, 79, 70] := by
    rw [hn, List.take_add, hd]
    simp
  rw [e]
  have e2 : s.take (run isNL s) = 10 :: t.take (run isNL s - 1) := by
    obtain ⟨k, hk⟩ : ∃ k, run isNL s = k + 1 := ⟨run isNL s - 1, by omega⟩
    rw [hk, hs]
    simp
  rw [e2]
  exact List.Sublist.append (((List.nil_sublist _).cons₂ 10)) (List.Sublist.refl _)

theorem sublist_pQuotes (s : JStr) : (replaceAll pQuotes [34] s).Sublist s := by
  refine sublist_replaceAll pQuotes [34] ?_ s.length s (le_refl _)
  intro s n h
  obtain ⟨hn, t, rfl⟩ := pQuotes_match_head s n h
  obtain ⟨k, rfl⟩ : ∃ k, n = k + 1 := ⟨n - 1, by omega⟩
  exact ⟨hn, by simp only [List.take_succ_cons]; exact (List.nil_sublist _).cons₂ 34⟩

theorem sublist_trim (s : JStr) : (trim s).Sublist s :=
  (trim_isPrefix s).sublist.trans (List.dropWhile_suffix _).sublist

theorem sublist_cleanCommand (command : JStr) : (cleanCommand command).Sublist command := by
  unfold cleanCommand cleanCore stripSignatures
  exact (sublist_pQuotes _).trans ((sublist_pHeredoc _).trans ((sublist_pNewlines _).trans
    ((sublist_delete _ endsSegment_pRobot _).trans
      ((sublist_delete _ endsSegment_pCoAnthropic _).trans
        (sublist_delete _ endsSegment_pCoClaude _)))))

theorem sublist_cleanMessage (msg : JStr) : (cleanMessage msg).Sublist msg := by
  unfold cleanMessage stripSignaturesAmend
  rw [aCoClaude_core, aCoAnthropic_core, aRobot_core]
  exact (sublist_trim _).trans ((sublist_pNewlines _).trans
    ((sublist_delete _ (endsSegment_amend _ isSigDot_cRobot) _).trans
      ((sublist_delete _ (endsSegment_amend _ isSigDot_cCoAnthropic) _).trans
        (sublist_delete _ (endsSegment_amend _ isSigDot_cCoClaude) _))))

/-- C17. Cleaning only deletes: the output of the command-rewrite chain is a subsequence of
the command and the output of the amend-mode chain is a subsequence of the HEAD message,
so neither is longer than its input. -/
theorem cleaning_only_deletes (text : JStr) :
    (cleanCommand text).Sublist text ∧ (cleanMessage text).Sublist text ∧
    (cleanCommand text).length ≤ text.length ∧ (cleanMessage text).length ≤ text.length :=
  ⟨sublist_cleanCommand text, sublist_cleanMessage text,
    (sublist_cleanCommand text).length_le, (sublist_cleanMessage text).length_le⟩

end Hooks

namespace Hooks

/-! ## Case of the identity tokens -/

/-- C11, the code at the failing inputs: the command-rewrite chain leaves a
`Co-Authored-By:` trailer whose value spells the organization token `Anthropic` or the
display name `CLAUDE` in the command, while the amend-mode chain removes the same trailer
from a message. -/
theorem mixed_case_trailer_survives_rewrite :
    cleanCommand (u16 "git commit -m x\n\nCo-Authored-By: Bot <bot@Anthropic.com>\n") =
      u16 "git commit -m x\n\nCo-Authored-By: Bot <bot@Anthropic.com>\n" ∧
    cleanCommand (u16 "git commit -m x\n\nCo-Authored-By: CLAUDE <bot@example.com>\n") =
      u16 "git commit -m x\n\nCo-Authored-By: CLAUDE <bot@example.com>\n" ∧
    cleanMessage (u16 "x\n\nCo-Authored-By: Bot <bot@Anthropic.com>\n") = u16 "x" ∧
    cleanMessage (u16 "x\n\nCo-Authored-By: CLAUDE <bot@example.com>\n") = u16 "x" := by
  decide

end Hooks

namespace Hooks

/-! ## Resolution of the target path -/

theorem firstArg_resolved (a : JVal) (h : ArgsOrAbsent a) :
    jsOr (jsAnd a (index0 a)) (JVal.str []) =
      JVal.str (match firstArg a with
        | some (c :: t) => c :: t
        | _ => []) := by
  cases a <;> simp only [ArgsOrAbsent] at h
  · rfl
  · rename_i xs
    cases xs with
    | nil => rfl
    | cons x rest =>
      cases x <;> simp only [AllStrings] at h
      rename_i s
      cases s <;> rfl

/-- C15, as amended. Target-path resolution precedence: for every `tool_input` object whose
`path` and `file_path` are strings when present and whose `args` is an array of strings
when present, the resolved path is `path` when present and non-empty, otherwise `file_path`
when present and non-empty, otherwise the first element of `args` when present and
non-empty, otherwise the empty string. -/
theorem resolution_precedence (fields : List (JStr × JVal))
    (hp : StrOrAbsent (lookupField (u16 "path") fields))
    (hf : StrOrAbsent (lookupField (u16 "file_path") fields))
    (ha : ArgsOrAbsent (lookupField (u16 "args") fields)) :
    resolveFilePath (JVal.obj fields) =
      some (JVal.str (resolvedBySpec (asStr (lookupField (u16 "path") fields))
        (asStr (lookupField (u16 "file_path") fields))
        (firstArg (lookupField (u16 "args") fields)))) := by
  unfold resolveFilePath
  simp only [getProp]
  have hargs := firstArg_resolved _ ha
  generalize lookupField (u16 "path") fields = p at hp
  generalize lookupField (u16 "file_path") fields = f at hf
  generalize lookupField (u16 "args") fields = a at hargs
  have tail : ∀ f, StrOrAbsent f →
      (if truthy f = true then some f
        else some (jsOr (jsAnd a (index0 a)) (JVal.str []))) =
      some (JVal.str (match asStr f with
        | some (c :: t) => c :: t
        | _ =>
          match firstArg a with
          | some (c :: t) => c :: t
          | _ => [])) := by
    intro f hf
    cases f <;> simp only [StrOrAbsent] at hf
    · simp only [truthy, asStr]
      rw [hargs]
      rfl
    · rename_i s
      cases s with
      | nil =>
        simp only [truthy, asStr, List.isEmpty_nil, Bool.not_true]
        rw [hargs]
        rfl
      | cons c t => rfl
  cases p <;> simp only [StrOrAbsent] at hp
  · simp only [truthy, asStr, resolvedBySpec]
    exact tail f hf
  · rename_i s
    cases s with
    | nil =>
      simp only [truthy, asStr, resolvedBySpec, List.isEmpty_nil, Bool.not_true]
      exact tail f hf
    | cons c t => rfl

/-- Witness of C15 as amended: a `tool_input` with only `file_path`. -/
theorem resolution_precedence_witness :
    resolveFilePath (writeInput (u16 "src/A.java") (u16 "class A")) =
      some (JVal.str (u16 "src/A.java")) :=
  resolution_precedence _ (by simp [lookupField, u16, encodeChar, StrOrAbsent])
    (by simp [lookupField, u16, encodeChar, StrOrAbsent])
    (by simp [lookupField, u16, encodeChar, ArgsOrAbsent])

/-- Counterexample to C15 as stated: with `path` an empty array and `file_path` the
non-empty string `a.txt`, the resolved path is the empty array, not `file_path`. -/
theorem resolution_precedence_counterexample :
    getProp (u16 "path") emptyArrayPathInput = some (JVal.arr []) ∧
    getProp (u16 "file_path") emptyArrayPathInput = some (JVal.str (u16 "a.txt")) ∧
    resolveFilePath emptyArrayPathInput = some (JVal.arr []) ∧
    resolveFilePath emptyArrayPathInput ≠ some (JVal.str (u16 "a.txt")) := by
  refine ⟨rfl, rfl, rfl, ?_⟩
  have h : resolveFilePath emptyArrayPathInput = some (JVal.arr []) := rfl
  rw [h]
  intro hc
  injection hc with h2
  cases h2

end Hooks

namespace Hooks

/-! ## The dispatch gate fails open -/

theorem getProp_eq_getPropOpt (key : JStr) (data v : JVal) (h : getProp key data = some v) :
    v = getPropOpt key data := by
  cases data <;> simp only [getProp, Option.some.injEq] at h <;> first
    | exact h.symm
    | exact absurd h (by simp)

theorem resolveFilePath_absent (toolInput : JVal) (h : Absent toolInput) :
    resolveFilePath toolInput = none := by
  cases toolInput <;> simp only [Absent] at h <;> rfl

theorem resolveFilePath_primitive (toolInput : JVal) (h : PrimitiveOrArray toolInput) :
    resolveFilePath toolInput = some (JVal.str []) := by
  cases toolInput <;> simp only [PrimitiveOrArray] at h <;> rfl

theorem dispatcher_absent_input (data : JVal)
    (h : Absent (getPropOpt (u16 "tool_input") data)) :
    securityDispatcher (some data) = ⟨0, [], [Log.started, Log.dispatcherError], []⟩ := by
  unfold securityDispatcher
  simp only []
  cases hn : getProp (u16 "tool_name") data with
  | none => rfl
  | some toolName =>
    simp only []
    cases hi : getProp (u16 "tool_input") data with
    | none => rfl
    | some toolInput =>
      simp only []
      rw [getProp_eq_getPropOpt _ _ _ hi, resolveFilePath_absent _ h]

theorem dispatcher_primitive_input (data toolName toolInput : JVal)
    (hname : getProp (u16 "tool_name") data = some toolName)
    (hinput : getProp (u16 "tool_input") data = some toolInput)
    (h : PrimitiveOrArray toolInput) :
    securityDispatcher (some data) =
      if throwsOnToString toolName then ⟨0, [], [Log.started, Log.dispatcherError], []⟩
      else
        ⟨0, [], [Log.started, Log.toolAndFile toolName (JVal.str []), Log.allRulesPassed],
          []⟩ := by
  have hstr : throwsOnToString (JVal.str []) = false := by simp [throwsOnToString]
  unfold securityDispatcher
  simp only [hname, hinput, resolveFilePath_primitive _ h, hstr, Bool.or_false]
  by_cases ht : throwsOnToString toolName = true
  · simp only [ht, if_true]
  · simp only [ht, if_false]
    rfl

/-- C16, as amended. Dispatch gate fails open: when standard input is not valid JSON, and
when the payload has no `tool_input` or a `null` one, evaluation raises, the error is
caught and logged and the gate exits with status 0; when `tool_input` is a string, a
number, a boolean or an array, the resolved path is empty and the gate exits with status 0
as well: an error is raised, caught and logged there exactly when the string conversion of
`tool_name` throws, and otherwise nothing raises and every rule passes. -/
theorem dispatcher_fails_open :
    securityDispatcher none = ⟨0, [], [Log.started, Log.dispatcherError], []⟩ ∧
    (∀ data, Absent (getPropOpt (u16 "tool_input") data) →
      securityDispatcher (some data) = ⟨0, [], [Log.started, Log.dispatcherError], []⟩) ∧
    (∀ data toolName toolInput,
      getProp (u16 "tool_name") data = some toolName →
      getProp (u16 "tool_input") data = some toolInput →
      PrimitiveOrArray toolInput →
      resolveFilePath toolInput = some (JVal.str []) ∧
      (securityDispatcher (some data)).exit = 0 ∧
      securityDispatcher (some data) =
        if throwsOnToString toolName then ⟨0, [], [Log.started, Log.dispatcherError], []⟩
        else
          ⟨0, [], [Log.started, Log.toolAndFile toolName (JVal.str []), Log.allRulesPassed],
            []⟩) := by
  refine ⟨rfl, dispatcher_absent_input, ?_⟩
  intro data toolName toolInput hname hinput h
  have hd := dispatcher_primitive_input data toolName toolInput hname hinput h
  refine ⟨resolveFilePath_primitive _ h, ?_, hd⟩
  rw [hd]
  split <;> rfl

/-- Witness of C16 as amended: a payload without `tool_input`, and a payload whose
`tool_input` is a string and whose `tool_name` is an object with an own `toString`. -/
theorem dispatcher_fails_open_witness :
    securityDispatcher (some (JVal.obj [(u16 "tool_name", JVal.str (u16 "Edit"))])) =
      ⟨0, [], [Log.started, Log.dispatcherError], []⟩ ∧
    securityDispatcher (some (JVal.obj
        [(u16 "tool_name", JVal.obj [(u16 "toString", JVal.num true)]),
          (u16 "tool_input", JVal.str (u16 "application-prod.yml"))])) =
      ⟨0, [], [Log.started, Log.dispatcherError], []⟩ :=
  ⟨dispatcher_fails_open.2.1 (JVal.obj [(u16 "tool_name", JVal.str (u16 "Edit"))])
      (by simp [getPropOpt, lookupField, u16, encodeChar, Absent]),
    (dispatcher_fails_open.2.2
      (JVal.obj [(u16 "tool_name", JVal.obj [(u16 "toString", JVal.num true)]),
        (u16 "tool_input", JVal.str (u16 "application-prod.yml"))])
      (JVal.obj [(u16 "toString", JVal.num true)]) (JVal.str (u16 "application-prod.yml"))
      rfl rfl trivial).2.2⟩

/-- The log line of line 13 converts the path before any rule runs: an `Edit` whose `path`
is an array that holds `application-prod.yml` and an object with an own `toString` raises
there, and the gate logs the error and exits with status 0. -/
theorem dispatcher_unprintable_path_allows :
    securityDispatcher (some (JVal.obj [(u16 "tool_name", JVal.str (u16 "Edit")),
      (u16 "tool_input", JVal.obj [(u16 "path",
        JVal.arr [JVal.str (u16 "application-prod.yml"),
          JVal.obj [(u16 "toString", JVal.num true)]])])])) =
      ⟨0, [], [Log.started, Log.dispatcherError], []⟩ :=
  rfl

/-- Counterexample to C16 as stated: a payload whose `tool_input` is a string has no
`tool_input` object, yet nothing raises: the gate logs that every rule passed and no
error. -/
theorem dispatcher_no_raise_counterexample :
    getProp (u16 "tool_input") stringInputEvent =
      some (JVal.str (u16 "application-prod.yml")) ∧
    securityDispatcher (some stringInputEvent) =
      ⟨0, [], [Log.started, Log.toolAndFile (JVal.str (u16 "Edit")) (JVal.str []),
        Log.allRulesPassed], []⟩ :=
  ⟨rfl, rfl⟩

end Hooks

namespace Hooks

/-! ## The rewrite and the commit -/

theorem isPrefix_of_classPrefix_lits (w : JStr) :
    ∀ s : JStr, classPrefix (w.map lit) s = true → w <+: s := by
  induction w with
  | nil => intro s _; exact List.nil_prefix
  | cons c w ih =>
    intro s h
    cases s with
    | nil => simp [classPrefix] at h
    | cons x t =>
      simp only [List.map_cons, classPrefix, Bool.and_eq_true, lit, beq_iff_eq] at h
      rw [h.1]
      exact (List.prefix_cons_inj c).mpr (ih t h.2)

/-- A word without the letter `g` whose first code unit does not occur in `git commit`
starts at no position of `A` followed by `git commit`, unless it occurs in `A`. -/
theorem word_not_at (w : JStr) (c : Nat) (w2 : JStr) (hw : w = c :: w2)
    (hg : 103 ∉ w) (hc : c ∉ gitCommit) (A : JStr) (hA : includes w A = false)
    (u : JStr) (hu : u <:+ A ++ gitCommit) (hne : u ≠ []) (R : JStr) :
    ¬ w <+: u ++ R := by
  intro hpre
  rcases suffix_append_cases _ _ u hu with ⟨a, ha, rfl⟩ | hu2
  · by_cases hlen : w.length ≤ a.length
    · have h1 : w <+: a := by
        rw [List.append_assoc] at hpre
        exact List.prefix_of_prefix_length_le hpre (List.prefix_append a _) hlen
      rw [includes_of_suffix w A a ha h1] at hA
      exact absurd hA (by simp)
    · have h1 : a <+: w := by
        rw [List.append_assoc] at hpre
        exact List.prefix_of_prefix_length_le (List.prefix_append a _) hpre (by omega)
      obtain ⟨w3, hw3⟩ := h1
      rw [← hw3, List.append_assoc, List.prefix_append_right_inj] at hpre
      cases w3 with
      | nil =>
        rw [List.append_nil] at hw3
        rw [hw3] at hlen
        exact hlen (le_refl _)
      | cons y w4 =>
        have hy : y = 103 := by
          obtain ⟨r, hr⟩ := hpre
          have e : gitCommit ++ R = 103 :: (gitCommit.drop 1 ++ R) := rfl
          rw [e, List.cons_append] at hr
          injection hr with h1 _
        apply hg
        rw [← hw3, hy]
        simp
  · cases u with
    | nil => exact hne rfl
    | cons x t =>
      rw [hw, List.cons_append] at hpre
      obtain ⟨r, hr⟩ := hpre
      rw [List.cons_append] at hr
      injection hr with h1 _
      rw [h1] at hc
      exact hc (hu2.subset (List.mem_cons_self _ _))

theorem sigNL_none_before_commit (w : JStr) (c : Nat) (w2 : JStr) (hw : w = c :: w2)
    (hg : 103 ∉ w) (hc : c ∉ gitCommit) (T : List (Nat → Bool)) (A : JStr)
    (hA : includes w A = false) (u : JStr) (hu : u <:+ A ++ gitCommit) (hne : u ≠ [])
    (R : JStr) :
    matchTerms (sigPattern (w.map lit) T [Term.many notNL 0]) (u ++ R) = none := by
  unfold sigPattern
  rw [matchTerms_ones, if_neg]
  intro h
  exact word_not_at w c w2 hw hg hc A hA u hu hne R (isPrefix_of_classPrefix_lits w _ h)

theorem head_of_suffix_before_commit (A u : JStr) (hu : u <:+ A ++ gitCommit) (hne : u ≠ []) :
    ∃ x t, u = x :: t ∧ x ∈ A ++ gitCommit := by
  cases u with
  | nil => exact absurd rfl hne
  | cons x t => exact ⟨x, t, rfl, hu.subset (List.mem_cons_self _ _)⟩

theorem not_newline_before_commit (A : JStr) (hA : ∀ x ∈ A, x ≠ 10) :
    ∀ x ∈ A ++ gitCommit, x ≠ 10 := by
  intro x hx
  rcases List.mem_append.mp hx with h | h
  · exact hA x h
  · have hall : ∀ y ∈ gitCommit, y ≠ 10 := by decide
    exact hall x h

end Hooks

namespace Hooks

/-- A match of the quote-adjacency pattern starts with a double quote that only white
space separates from a newline. -/
theorem pQuotes_match_newline (s : JStr) (n : Nat) (h : matchTerms pQuotes s = some n) :
    ∃ t k r, s = 34 :: t ∧ k ≤ run isSpace t ∧ t.drop k = 10 :: r := by
  unfold pQuotes at h
  obtain ⟨x, t, m1, rfl, hx, h1, _⟩ := matchTerms_one_cons _ _ _ _ h
  obtain ⟨k1, m2, _, hk1, h2, _⟩ := matchTerms_many_cons _ _ _ _ _ h1
  obtain ⟨k2, m3, hk2, hr2, _, _⟩ := matchTerms_many_cons _ _ _ _ _ h2
  obtain ⟨z, t1, hz, hzn⟩ := run_pos_cons isNL (t.drop k1) (by omega)
  have hx2 : x = 34 := by simpa [lit] using hx
  exact ⟨t, k1, t1, by rw [hx2], hk1, by rw [hz, (isNL_iff z).mp hzn]⟩

theorem run_append_stop (c : Nat → Bool) (x : Nat) (a R : JStr) (hx : c x = false) :
    run c (a ++ x :: R) ≤ a.length := by
  unfold run
  rw [takeWhile_append_stop c x R hx a]
  exact run_le_length c a

theorem pQuotes_none_before_commit (A : JStr) (hA : ∀ x ∈ A, x ≠ 10)
    (u : JStr) (hu : u <:+ A ++ gitCommit) (_hne : u ≠ []) (R : JStr) :
    matchTerms pQuotes (u ++ R) = none := by
  cases h : matchTerms pQuotes (u ++ R) with
  | none => rfl
  | some n =>
    exfalso
    obtain ⟨t, k, r, hs, hk, hd⟩ := pQuotes_match_newline _ n h
    have hgc : ∀ y ∈ gitCommit, y ≠ 34 := by decide
    rcases suffix_append_cases _ _ u hu with ⟨a, ha, rfl⟩ | hu2
    · cases a with
      | nil =>
        have e : ([] : JStr) ++ gitCommit ++ R = 103 :: (gitCommit.drop 1 ++ R) := rfl
        rw [e] at hs
        injection hs with h1 _
        exact absurd h1 (by decide)
      | cons y a3 =>
        have e : (y :: a3) ++ gitCommit ++ R = y :: (a3 ++ 103 :: (gitCommit.drop 1 ++ R)) := by
          simp only [List.cons_append, List.append_assoc]
          rfl
        rw [e] at hs
        injection hs with _ h2
        subst h2
        have hk2 : k ≤ a3.length := le_trans hk (run_append_stop isSpace 103 a3 _ (by decide))
        rw [List.drop_append_of_le_length hk2] at hd
        cases hd3 : a3.drop k with
        | nil =>
          rw [hd3, List.nil_append] at hd
          injection hd with h1 _
          exact absurd h1 (by decide)
        | cons z a4 =>
          rw [hd3, List.cons_append] at hd
          injection hd with h1 _
          have hz : z ∈ a3 := List.mem_of_mem_drop (by rw [hd3]; exact List.mem_cons_self _ _)
          exact hA z (ha.subset (List.mem_cons_of_mem _ hz)) h1
    · cases u with
      | nil => exact _hne rfl
      | cons x t2 =>
        rw [List.cons_append] at hs
        injection hs with h1 _
        exact hgc x (hu2.subset (List.mem_cons_self _ _)) h1

/-- The cleaning chain keeps `A` and `git commit` and cleans what follows, when `A` holds
no newline, no `Co-Authored-By:` and no robot emoji. -/
theorem cleanCommand_before_commit (A B : JStr) (hnl : ∀ x ∈ A, x ≠ 10)
    (hco : includes coAuthoredBy A = false) (hro : includes robot A = false) :
    cleanCommand ((A ++ gitCommit) ++ B) = (A ++ gitCommit) ++ cleanCommand B := by
  have h10 := not_newline_before_commit A hnl
  have hsigCo : ∀ T u, u <:+ A ++ gitCommit → u ≠ [] → ∀ R,
      matchTerms (sigPattern hCo T [Term.many notNL 0]) (u ++ R) = none :=
    fun T u hu hne R =>
      sigNL_none_before_commit coAuthoredBy 67 _ rfl (by decide) (by decide) T A hco u hu hne R
  have hsigRo : ∀ T u, u <:+ A ++ gitCommit → u ≠ [] → ∀ R,
      matchTerms (sigPattern hRobot T [Term.many notNL 0]) (u ++ R) = none :=
    fun T u hu hne R =>
      sigNL_none_before_commit robot 0xD83E _ rfl (by decide) (by decide) T A hro u hu hne R
  have hNew : ∀ u, u <:+ A ++ gitCommit → u ≠ [] → ∀ R, matchTerms pNewlines (u ++ R) = none := by
    intro u hu hne R
    obtain ⟨x, t, rfl, hx⟩ := head_of_suffix_before_commit A u hu hne
    exact pNewlines_none_of_ne x _ (h10 x hx)
  have hHer : ∀ u, u <:+ A ++ gitCommit → u ≠ [] → ∀ R, matchTerms pHeredoc (u ++ R) = none := by
    intro u hu hne R
    obtain ⟨x, t, rfl, hx⟩ := head_of_suffix_before_commit A u hu hne
    exact pHeredoc_none_of_ne x _ (h10 x hx)
  unfold cleanCommand cleanCore stripSignatures
  rw [replaceAll_append_of_none pCoClaude [] B (A ++ gitCommit)
      (fun u hu hne => by rw [pCoClaude_eq]; exact hsigCo _ u hu hne B),
    replaceAll_append_of_none pCoAnthropic [] _ (A ++ gitCommit)
      (fun u hu hne => by rw [pCoAnthropic_eq]; exact hsigCo _ u hu hne _),
    replaceAll_append_of_none pRobot [] _ (A ++ gitCommit)
      (fun u hu hne => by rw [pRobot_eq]; exact hsigRo _ u hu hne _),
    replaceAll_append_of_none pNewlines _ _ (A ++ gitCommit) (fun u hu hne => hNew u hu hne _),
    replaceAll_append_of_none pHeredoc _ _ (A ++ gitCommit) (fun u hu hne => hHer u hu hne _),
    replaceAll_append_of_none pQuotes _ _ (A ++ gitCommit)
      (fun u hu hne => pQuotes_none_before_commit A hnl u hu hne _)]

end Hooks

namespace Hooks

/-- Counterexample to C18 as stated: when a trailer precedes `git commit` on the same
line, the removal runs to the end of the line and takes `git commit` with it; the hook
emits the command `echo `. -/
theorem rewrite_drops_commit_counterexample :
    includes (u16 "git commit") (u16 "echo Co-Authored-By: Claude && git commit -m x") = true ∧
    cleanCommand (u16 "echo Co-Authored-By: Claude && git commit -m x") = u16 "echo " ∧
    includes (u16 "git commit")
      (cleanCommand (u16 "echo Co-Authored-By: Claude && git commit -m x")) = false ∧
    (commandRewriteHook
      (some (commandEvent (u16 "echo Co-Authored-By: Claude && git commit -m x")))).stdout.length
      = 1 := by
  decide

end Hooks

namespace Hooks

/-! ## Idempotence of the command-rewrite chain -/

theorem isPrefix_takeWhile_of_all (c : Nat → Bool) :
    ∀ (w u : JStr), (∀ x ∈ w, c x = true) → w <+: u → w <+: u.takeWhile c := by
  intro w
  induction w with
  | nil => intro u _ _; exact List.nil_prefix
  | cons y w ih =>
    intro u hw h
    obtain ⟨r, rfl⟩ := h
    rw [List.cons_append, List.takeWhile_cons, if_pos (hw y (List.mem_cons_self _ _))]
    exact (List.prefix_cons_inj y).mpr
      (ih _ (fun x hx => hw x (List.mem_cons_of_mem _ hx)) (List.prefix_append _ _))

/-- A word of code units of the class that stands in the output of a simulation stands in
its input. -/
theorem includes_of_sim (c : Nat → Bool) (w : JStr) (hw : ∀ x ∈ w, c x = true)
    (out inp : JStr) (hsim : Sim c out inp) (h : includes w out = true) :
    includes w inp = true := by
  obtain ⟨u, hu, hwu⟩ := suffix_of_includes w out h
  obtain ⟨v, hv, hpre⟩ := hsim u hu
  exact includes_of_suffix w inp v hv
    (((isPrefix_takeWhile_of_all c w u hw hwu).trans hpre).trans (List.takeWhile_prefix c))

theorem not_includes_of_stable5 (s : JStr) (h : Stable5 s) :
    includes (u16 "\n\nEOF") s = false := by
  cases hi : includes (u16 "\n\nEOF") s with
  | false => rfl
  | true =>
    exfalso
    obtain ⟨u, hu, ⟨r, hr⟩⟩ := suffix_of_includes _ s hi
    have h3 : u16 "\n\nEOF" = [10, 10, 69, 79, 70] := rfl
    have hm : matchTerms pHeredoc u = some 5 := by
      rw [← hr, h3, matchTerms_pHeredoc]
      have hrun : run isNL ([10, 10, 69, 79, 70] ++ r) = 2 := by
        simp [run_cons, isNL]
      rw [hrun, if_pos ⟨by omega, by simp [eofCls, classPrefix, lit, u16, encodeChar]⟩]
    exact absurd (h u hu 5 hm) (by decide)

/-- The quote-adjacency collapse puts no blank line before a heredoc terminator. -/
theorem stable5_cleanCommand (command : JStr) : Stable5 (cleanCommand command) := by
  apply stable5_of_not_includes
  cases hi : includes (u16 "\n\nEOF") (cleanCommand command) with
  | false => rfl
  | true =>
    exfalso
    have h1 := includes_of_sim (fun x => !(x == 34)) (u16 "\n\nEOF") (by decide)
      (cleanCommand command) (cleanCore command) (sim_pQuotes _ (by decide) _) hi
    rw [not_includes_of_stable5 _ (stable5_cleanCore command)] at h1
    exact absurd h1 (by simp)

/-- A replacement by a text shorter than every match shortens a string in which the
pattern matches. -/
theorem length_replaceAll_lt (p : List Term) (rep : JStr)
    (hrep : ∀ s n, matchTerms p s = some n → rep.length < n ∧ rep.Sublist (s.take n)) :
    ∀ (m : Nat) (s : JStr), s.length ≤ m → matchesIn p s = true →
      (replaceAll p rep s).length < s.length := by
  have hpos : ∀ s n, matchTerms p s = some n → 0 < n := fun s n h => by
    have := (hrep s n h).1
    omega
  intro m
  induction m with
  | zero =>
    intro s hs hm
    have hnil : s = [] := List.length_eq_zero.mp (by omega)
    subst hnil
    simp [matchesIn, matchTerms_nil_none p hpos] at hm
  | succ m ih =>
    intro s hs hm
    cases s with
    | nil => exact ih [] (by simp) hm
    | cons x t =>
      simp only [List.length_cons] at hs
      cases h : matchTerms p (x :: t) with
      | none =>
        simp only [matchesIn, h, Option.isSome_none, Bool.false_or] at hm
        rw [replaceAll_cons_none p rep x t h]
        have := ih t (by omega) hm
        simp only [List.length_cons]
        omega
      | some n =>
        have hn := (hrep _ n h).1
        have hle := matchTerms_le_length p _ n h
        obtain ⟨k, rfl⟩ : ∃ k, n = k + 1 := ⟨n - 1, by omega⟩
        rw [replaceAll_cons_some p rep x t k h]
        have h1 := (sublist_replaceAll p rep (fun s n h => ⟨hpos s n h, (hrep s n h).2⟩)
          (t.drop k).length (t.drop k) (le_refl _)).length_le
        simp only [List.length_append, List.length_cons, List.length_drop] at h1 hle ⊢
        omega

theorem length_delete_lt (p : List Term) (hp : EndsSegment p) (s : JStr)
    (h : matchesIn p s = true) : (replaceAll p [] s).length < s.length :=
  length_replaceAll_lt p [] (fun s n hm => ⟨(hp s n hm).1, List.nil_sublist _⟩)
    s.length s (le_refl _) h

/-- The three removals shorten a command that holds a signature. -/
theorem length_stripSignatures_lt (s : JStr) (h : hasSignature s = true) :
    (stripSignatures s).length < s.length := by
  unfold stripSignatures
  by_cases h1 : matchesIn pCoClaude s = true
  · have a := length_delete_lt pCoClaude endsSegment_pCoClaude s h1
    have b := (sublist_delete pCoAnthropic endsSegment_pCoAnthropic
      (replaceAll pCoClaude [] s)).length_le
    have c := (sublist_delete pRobot endsSegment_pRobot
      (replaceAll pCoAnthropic [] (replaceAll pCoClaude [] s))).length_le
    omega
  · rw [replaceAll_of_not_matchesIn pCoClaude [] s h1]
    by_cases h2 : matchesIn pCoAnthropic s = true
    · have b := length_delete_lt pCoAnthropic endsSegment_pCoAnthropic s h2
      have c := (sublist_delete pRobot endsSegment_pRobot
        (replaceAll pCoAnthropic [] s)).length_le
      omega
    · rw [replaceAll_of_not_matchesIn pCoAnthropic [] s h2]
      have h3 : matchesIn pRobot s = true := by
        simp only [hasSignature, Bool.or_eq_true] at h
        rcases h with (h | h) | h
        · exact absurd h h1
        · exact absurd h h2
        · exact h
      exact length_delete_lt pRobot endsSegment_pRobot s h3

theorem pQuotes_match_long (s : JStr) (n : Nat) (h : matchTerms pQuotes s = some n) :
    2 ≤ n := by
  unfold pQuotes at h
  obtain ⟨x, t, m1, rfl, _, h1, hn⟩ := matchTerms_one_cons _ _ _ _ h
  obtain ⟨k1, m2, _, _, h2, hm1⟩ := matchTerms_many_cons _ _ _ _ _ h1
  obtain ⟨k2, m3, hk2, _, _, hm2⟩ := matchTerms_many_cons _ _ _ _ _ h2
  omega

/-- The quote-adjacency collapse shortens a string in which its pattern matches. -/
theorem length_pQuotes_lt (s : JStr) (h : matchesIn pQuotes s = true) :
    (replaceAll pQuotes [34] s).length < s.length := by
  refine length_replaceAll_lt pQuotes [34] ?_ s.length s (le_refl _) h
  intro s n hm
  have h2 := pQuotes_match_long s n hm
  obtain ⟨_, t, rfl⟩ := pQuotes_match_head s n hm
  obtain ⟨k, rfl⟩ : ∃ k, n = k + 1 := ⟨n - 1, by omega⟩
  exact ⟨by simp only [List.length_singleton]; omega,
    by simp only [List.take_succ_cons]; exact (List.nil_sublist _).cons₂ 34⟩

theorem sublist_cleanCore (s : JStr) : (cleanCore s).Sublist (stripSignatures s) := by
  unfold cleanCore
  exact (sublist_pHeredoc _).trans (sublist_pNewlines _)

/-- A command that the chain returns unchanged holds no signature and no match of the
quote-adjacency pattern. -/
theorem no_match_of_cleanCommand_fixed (s : JStr) (h : cleanCommand s = s) :
    hasSignature s = false ∧ matchesIn pQuotes s = false := by
  have hq := (sublist_pQuotes (cleanCore s)).length_le
  have hc := (sublist_cleanCore s).length_le
  have hlen : (cleanCommand s).length = s.length := by rw [h]
  unfold cleanCommand at hlen
  have hsig : hasSignature s = false := by
    cases hs : hasSignature s with
    | false => rfl
    | true =>
      have := length_stripSignatures_lt s hs
      omega
  refine ⟨hsig, ?_⟩
  cases hm : matchesIn pQuotes s with
  | false => rfl
  | true =>
    exfalso
    have hstrip := stripSignatures_of_noSignature s hsig
    rw [hstrip] at hc
    have hsub := sublist_cleanCore s
    rw [hstrip] at hsub
    have hcore : cleanCore s = s := hsub.eq_of_length (by omega)
    rw [hcore] at hlen
    have := length_pQuotes_lt s hm
    omega

/-- C1, as amended. Idempotence of the command-rewrite cleaner: for every command, cleaning
the cleaned command gives the cleaned command again if and only if the cleaned command
holds no match of a signature pattern and no match of the quote-adjacency pattern. -/
theorem cleanCommand_idempotent_iff_settled (command : JStr) :
    cleanCommand (cleanCommand command) = cleanCommand command ↔
      hasSignature (cleanCommand command) = false ∧
      matchesIn pQuotes (cleanCommand command) = false := by
  constructor
  · exact no_match_of_cleanCommand_fixed _
  · intro h
    have hcore : cleanCore (cleanCommand command) = cleanCommand command :=
      cleanCore_fixed _ h.1 (noMatch_pNewlines_cleanCommand command)
        (stable5_cleanCommand command)
    have key : ∀ x, cleanCommand x = replaceAll pQuotes [34] (cleanCore x) := fun _ => rfl
    rw [key (cleanCommand command), hcore]
    exact replaceAll_of_noMatch _ _ _ ((matchesIn_eq_false_iff _ _).mp h.2)

/-- Witness of C1 as amended: the quote-adjacency collapse acts on `git commit -m "a"`,
newline, `"b"`, and cleaning the result again changes nothing. -/
theorem cleanCommand_idempotent_iff_settled_witness :
    cleanCommand (u16 "git commit -m " ++ [34, 97, 34, 10, 34, 98, 34]) =
      u16 "git commit -m " ++ [34, 97, 34, 98, 34] ∧
    cleanCommand (cleanCommand (u16 "git commit -m " ++ [34, 97, 34, 10, 34, 98, 34])) =
      cleanCommand (u16 "git commit -m " ++ [34, 97, 34, 10, 34, 98, 34]) :=
  ⟨by decide,
    (cleanCommand_idempotent_iff_settled
      (u16 "git commit -m " ++ [34, 97, 34, 10, 34, 98, 34])).mpr ⟨by decide, by decide⟩⟩

end Hooks

namespace Hooks

/-! ## Residual signatures of the command-rewrite chain -/

/-- C3, the code at the failing input: the command `git commit -m "Co-Authored-By: "`,
newline, `"Claude"` holds no match of a signature pattern, so the three removals leave it
alone; the quote-adjacency collapse, which runs after them, then joins the two lines into
`git commit -m "Co-Authored-By: "Claude"`, which matches the first pattern, and the hook
emits that command and logs that the signature was removed.  Before the quote-adjacency
collapse runs, no command holds a match of a signature pattern. -/
theorem quote_collapse_joins_trailer :
    hasSignature
      (u16 "git commit -m " ++ [34] ++ u16 "Co-Authored-By: " ++ [34, 10, 34] ++ u16 "Claude" ++
        [34]) = false ∧
    cleanCommand
      (u16 "git commit -m " ++ [34] ++ u16 "Co-Authored-By: " ++ [34, 10, 34] ++ u16 "Claude" ++
        [34]) =
      u16 "git commit -m " ++ [34] ++ u16 "Co-Authored-By: " ++ [34] ++ u16 "Claude" ++ [34] ∧
    matchesIn pCoClaude
      (cleanCommand
        (u16 "git commit -m " ++ [34] ++ u16 "Co-Authored-By: " ++ [34, 10, 34] ++
          u16 "Claude" ++ [34])) = true ∧
    (commandRewriteHook (some (commandEvent
      (u16 "git commit -m " ++ [34] ++ u16 "Co-Authored-By: " ++ [34, 10, 34] ++ u16 "Claude" ++
        [34])))).stdout =
      [JVal.obj [(u16 "command", JVal.str
        (u16 "git commit -m " ++ [34] ++ u16 "Co-Authored-By: " ++ [34] ++ u16 "Claude" ++
          [34]))]] ∧
    (commandRewriteHook (some (commandEvent
      (u16 "git commit -m " ++ [34] ++ u16 "Co-Authored-By: " ++ [34, 10, 34] ++ u16 "Claude" ++
        [34])))).stderr = [Log.started, Log.removed] ∧
    ∀ command : JStr, hasSignature (cleanCore command) = false :=
  ⟨by decide, by decide, by decide, rfl, rfl, hasSignature_cleanCore⟩

end Hooks

namespace Hooks

/-! ## The signature removals line by line -/

theorem startsIn_eq_false_iff (p : List Term) (rest : JStr) :
    ∀ L : JStr, startsIn p L rest = false ↔
      ∀ l, l <:+ L → l ≠ [] → matchTerms p (l ++ rest) = none := by
  intro L
  induction L with
  | nil =>
    simp only [startsIn, true_iff]
    intro l hl hne
    exact absurd (List.suffix_nil.mp hl) hne
  | cons x t ih =>
    simp only [startsIn, Bool.or_eq_false_iff, ih]
    constructor
    · rintro ⟨h1, h2⟩ l hl hne
      rcases List.suffix_cons_iff.mp hl with rfl | hl2
      · cases hm : matchTerms p (x :: t ++ rest) with
        | none => rfl
        | some n => rw [hm] at h1; simp at h1
      · exact h2 l hl2 hne
    · intro h
      refine ⟨?_, fun l hl hne => h l (hl.trans (List.suffix_cons x t)) hne⟩
      rw [h (x :: t) (List.suffix_refl _) (by simp)]
      rfl

/-- The replacement works on a prefix and on the rest apart, when every match that starts
in the prefix is the match found in the prefix alone. -/
theorem replaceAll_append_split (p : List Term) (rep R : JStr)
    (hpos : ∀ s n, matchTerms p s = some n → 0 < n) :
    ∀ (m : Nat) (P : JStr), P.length ≤ m →
      (∀ u, u <:+ P → u ≠ [] → matchTerms p (u ++ R) = matchTerms p u) →
      replaceAll p rep (P ++ R) = replaceAll p rep P ++ replaceAll p rep R := by
  intro m
  induction m with
  | zero =>
    intro P hP _
    have hnil : P = [] := List.length_eq_zero.mp (by omega)
    subst hnil
    rw [replaceAll_nil p rep (matchTerms_nil_none p hpos)]
    rfl
  | succ m ih =>
    intro P hP hsame
    cases P with
    | nil => exact ih [] (by simp) hsame
    | cons x t =>
      simp only [List.length_cons] at hP
      have h0 : matchTerms p (x :: (t ++ R)) = matchTerms p (x :: t) :=
        hsame (x :: t) (List.suffix_refl _) (by simp)
      cases h : matchTerms p (x :: t) with
      | none =>
        rw [h] at h0
        rw [List.cons_append, replaceAll_cons_none p rep x _ h0,
          replaceAll_cons_none p rep x t h,
          ih t (by omega) (fun u hu hne => hsame u (hu.trans (List.suffix_cons x t)) hne)]
        rfl
      | some n =>
        rw [h] at h0
        have hn := hpos _ n h
        have hle := matchTerms_le_length p _ n h
        simp only [List.length_cons] at hle
        obtain ⟨k, rfl⟩ : ∃ k, n = k + 1 := ⟨n - 1, by omega⟩
        rw [List.cons_append, replaceAll_cons_some p rep x _ k h0,
          replaceAll_cons_some p rep x t k h,
          List.drop_append_of_le_length (by omega),
          ih (t.drop k) (by simp only [List.length_drop]; omega)
            (fun u hu hne =>
              hsame u ((hu.trans (List.drop_suffix k t)).trans (List.suffix_cons x t)) hne),
          List.append_assoc]

/-- A match of a signature pattern stays in its line: what follows the next newline does
not matter. -/
theorem isSigNL_match_append_nl {p : List Term} (hp : IsSigNL p) (u R : JStr) :
    matchTerms p (u ++ 10 :: R) = matchTerms p u := by
  obtain ⟨H, T, hg, rfl⟩ := hp
  obtain ⟨cl, T2, hT0⟩ := hg.2.1
  have hrun : run notNL (u ++ 10 :: R) = run notNL u := by
    unfold run
    rw [takeWhile_append_stop notNL 10 R (by decide) u]
  apply Option.ext
  intro n
  simp only [Option.mem_def]
  rw [matchTerms_sigNL H T hg, matchTerms_sigNL H T hg, hrun]
  constructor
  · rintro ⟨h1, h2⟩
    exact ⟨sigAt_mono H T cl T2 hT0 hg.2.2.1 hg.2.2.2 _ u (by rw [seg_append_nl]) h1, h2⟩
  · rintro ⟨h1, h2⟩
    exact ⟨sigAt_mono H T cl T2 hT0 hg.2.2.1 hg.2.2.2 u _ (by rw [seg_append_nl]) h1, h2⟩

theorem isSigNL_newline_none {p : List Term} (hp : IsSigNL p) (X : JStr) :
    matchTerms p (10 :: X) = none :=
  isSigNL_segMonotone hp _ [] List.nil_prefix (isSigNL_nil_none hp)

/-- A removal of signatures works on the lines before a newline and on the text after it
apart. -/
theorem replaceAll_sig_lines {p : List Term} (hp : IsSigNL p) (P R : JStr) :
    replaceAll p [] (P ++ 10 :: R) = replaceAll p [] P ++ 10 :: replaceAll p [] R := by
  rw [replaceAll_append_split p [] (10 :: R) (fun s n h => (isSigNL_endsSegment hp s n h).1)
    P.length P (le_refl _) (fun u _ _ => isSigNL_match_append_nl hp u R),
    replaceAll_cons_none p [] 10 R (isSigNL_newline_none hp R)]

/-- The text before a line: empty, or ended by a newline. -/
theorem lines_cases (P : JStr) (h : P = [] ∨ P.getLast? = some 10) :
    P = [] ∨ ∃ P0, P = P0 ++ [10] := by
  rcases h with h | h
  · exact Or.inl h
  · right
    rcases List.eq_nil_or_concat P with hn | ⟨P0, x, hx⟩
    · rw [hn] at h; simp at h
    · rw [hx] at h
      simp only [List.concat_eq_append, List.getLast?_append, List.getLast?_singleton,
        Option.or_some, Option.some.injEq] at h
      exact ⟨P0, by rw [hx, List.concat_eq_append, h]⟩

/-- A removal of signatures keeps a stretch of a line in which it starts no match, and the
text before it stays empty or ended by a newline. -/
theorem sig_pass_keeps_stretch {p : List Term} (hp : IsSigNL p) (P M Q : JStr)
    (hP : P = [] ∨ ∃ P0, P = P0 ++ [10])
    (hM : ∀ u, u <:+ M → u ≠ [] → matchTerms p (u ++ Q) = none) :
    ∃ P2, (P2 = [] ∨ ∃ P0, P2 = P0 ++ [10]) ∧
      replaceAll p [] (P ++ (M ++ Q)) = P2 ++ (M ++ replaceAll p [] Q) := by
  rcases hP with rfl | ⟨P0, rfl⟩
  · exact ⟨[], Or.inl rfl, by rw [List.nil_append, replaceAll_append_of_none p [] Q M hM]; rfl⟩
  · refine ⟨replaceAll p [] P0 ++ [10], Or.inr ⟨_, rfl⟩, ?_⟩
    rw [List.append_assoc, List.singleton_append, replaceAll_sig_lines hp,
      replaceAll_append_of_none p [] Q M hM, List.append_assoc, List.singleton_append]

theorem seg_append_mono (u a b : JStr) (h : seg a <+: seg b) : seg (u ++ a) <+: seg (u ++ b) := by
  induction u with
  | nil => exact h
  | cons x t ih => exact seg_cons_mono x _ _ ih

theorem seg_delete_isPrefix {p : List Term} (hp : IsSigNL p) (s : JStr) :
    seg (replaceAll p [] s) <+: seg s :=
  (replaceAll_delete_sim p (isSigNL_endsSegment hp) s.length s (le_refl _)).1

end Hooks

namespace Hooks

/-! ## The collapses keep the commit -/

/-- A replacement keeps an occurrence of `git commit` when no match starts with a code unit
of `git commit` and no match runs over the letter `g`. -/
theorem replaceAll_keeps_commit (p : List Term) (rep : JStr)
    (hstart : ∀ x t n, matchTerms p (x :: t) = some n → x ∉ gitCommit)
    (hover : ∀ a R n, matchTerms p (a ++ 103 :: R) = some n → 0 < n ∧ n ≤ a.length) :
    ∀ (m : Nat) (a : JStr), a.length ≤ m → ∀ b : JStr,
      ∃ a2 b2, replaceAll p rep (a ++ (gitCommit ++ b)) = a2 ++ (gitCommit ++ b2) := by
  have hgc : ∀ b : JStr, replaceAll p rep (gitCommit ++ b) = gitCommit ++ replaceAll p rep b := by
    intro b
    apply replaceAll_append_of_none
    intro u hu hne
    cases u with
    | nil => exact absurd rfl hne
    | cons x t =>
      cases hm : matchTerms p (x :: t ++ b) with
      | none => rfl
      | some n => exact absurd (hu.subset (List.mem_cons_self _ _)) (hstart x _ n hm)
  intro m
  induction m with
  | zero =>
    intro a ha b
    have hnil : a = [] := List.length_eq_zero.mp (by omega)
    subst hnil
    exact ⟨[], replaceAll p rep b, by rw [List.nil_append, hgc]; rfl⟩
  | succ m ih =>
    intro a ha b
    cases a with
    | nil => exact ih [] (by simp) b
    | cons x t =>
      simp only [List.length_cons] at ha
      cases h : matchTerms p (x :: (t ++ (gitCommit ++ b))) with
      | none =>
        obtain ⟨a2, b2, h2⟩ := ih t (by omega) b
        exact ⟨x :: a2, b2, by
          rw [List.cons_append, replaceAll_cons_none p rep x _ h, h2]; rfl⟩
      | some n =>
        have e : x :: (t ++ (gitCommit ++ b)) = (x :: t) ++ 103 :: (gitCommit.drop 1 ++ b) := rfl
        obtain ⟨hn, hle⟩ := hover (x :: t) (gitCommit.drop 1 ++ b) n (by rw [← e]; exact h)
        simp only [List.length_cons] at hle
        obtain ⟨k, rfl⟩ : ∃ k, n = k + 1 := ⟨n - 1, by omega⟩
        obtain ⟨a2, b2, h2⟩ := ih (t.drop k) (by simp only [List.length_drop]; omega) b
        exact ⟨rep ++ a2, b2, by
          rw [List.cons_append, replaceAll_cons_some p rep x _ k h,
            List.drop_append_of_le_length (by omega), h2, List.append_assoc]⟩

theorem includes_commit_replaceAll (p : List Term) (rep : JStr)
    (hstart : ∀ x t n, matchTerms p (x :: t) = some n → x ∉ gitCommit)
    (hover : ∀ a R n, matchTerms p (a ++ 103 :: R) = some n → 0 < n ∧ n ≤ a.length)
    (s : JStr) (h : includes gitCommit s = true) :
    includes gitCommit (replaceAll p rep s) = true := by
  obtain ⟨u, ⟨a, ha⟩, ⟨b, hb⟩⟩ := suffix_of_includes gitCommit s h
  obtain ⟨a2, b2, h2⟩ := replaceAll_keeps_commit p rep hstart hover a.length a (le_refl _) b
  rw [← ha, ← hb, h2]
  exact includes_of_suffix gitCommit _ (gitCommit ++ b2) (List.suffix_append _ _)
    (List.prefix_append _ _)

/-- A run of a class without the letter `g` ends before a `g`. -/
theorem drop_before_g (c : Nat → Bool) (hc : c 103 = false) (a R : JStr) (k : Nat)
    (hk : k ≤ run c (a ++ 103 :: R)) :
    k ≤ a.length ∧ (a ++ 103 :: R).drop k = a.drop k ++ 103 :: R := by
  have h1 : k ≤ a.length := le_trans hk (run_append_stop c 103 a R hc)
  exact ⟨h1, List.drop_append_of_le_length h1⟩

theorem pNewlines_over_g (a R : JStr) (n : Nat)
    (h : matchTerms pNewlines (a ++ 103 :: R) = some n) : 0 < n ∧ n ≤ a.length := by
  obtain ⟨hn, h3, _⟩ := pNewlines_match _ n h
  rw [hn]
  exact ⟨by omega, run_append_stop isNL 103 a R (by decide)⟩

theorem pHeredoc_over_g (a R : JStr) (n : Nat)
    (h : matchTerms pHeredoc (a ++ 103 :: R) = some n) : 0 < n ∧ n ≤ a.length := by
  obtain ⟨hn, _, _, hd⟩ := pHeredoc_match _ n h
  obtain ⟨hk, he⟩ := drop_before_g isNL (by decide) a R (run isNL (a ++ 103 :: R)) (le_refl _)
  rw [he] at hd
  have hlen : (a.drop (run isNL (a ++ 103 :: R))).length =
      a.length - run isNL (a ++ 103 :: R) := List.length_drop _ _
  refine ⟨by omega, ?_⟩
  match hd3 : a.drop (run isNL (a ++ 103 :: R)), hd, hlen with
  | [], hd, _ =>
    rw [List.nil_append] at hd
    injection hd with h1 _
    exact absurd h1 (by decide)
  | [_], hd, _ =>
    simp only [List.cons_append, List.nil_append] at hd
    injection hd with _ h2
    injection h2 with h1 _
    exact absurd h1 (by decide)
  | [_, _], hd, _ =>
    simp only [List.cons_append, List.nil_append] at hd
    injection hd with _ h2
    injection h2 with _ h3
    injection h3 with h1 _
    exact absurd h1 (by decide)
  | _ :: _ :: _ :: r, _, hlen =>
    simp only [List.length_cons] at hlen
    omega

theorem pQuotes_over_g (a R : JStr) (n : Nat)
    (h : matchTerms pQuotes (a ++ 103 :: R) = some n) : 0 < n ∧ n ≤ a.length := by
  unfold pQuotes at h
  obtain ⟨x, t, m1, hs, hx, h1, hn⟩ := matchTerms_one_cons _ _ _ _ h
  have hx2 : x = 34 := by simpa [lit] using hx
  cases a with
  | nil =>
    rw [List.nil_append] at hs
    injection hs with h0 _
    rw [hx2] at h0
    exact absurd h0 (by decide)
  | cons y a1 =>
    rw [List.cons_append] at hs
    injection hs with _ ht
    subst ht
    obtain ⟨k1, m2, _, hk1, h2, hm1⟩ := matchTerms_many_cons _ _ _ _ _ h1
    obtain ⟨hl1, e1⟩ := drop_before_g isSpace (by decide) a1 R k1 hk1
    rw [e1] at h2
    obtain ⟨k2, m3, _, hk2, h3, hm2⟩ := matchTerms_many_cons _ _ _ _ _ h2
    obtain ⟨hl2, e2⟩ := drop_before_g isNL (by decide) (a1.drop k1) R k2 hk2
    rw [e2] at h3
    obtain ⟨k3, m4, _, hk3, h4, hm3⟩ := matchTerms_many_cons _ _ _ _ _ h3
    obtain ⟨hl3, e3⟩ := drop_before_g isSpace (by decide) ((a1.drop k1).drop k2) R k3 hk3
    rw [e3] at h4
    obtain ⟨z, t4, m5, hz, hz34, h5, hm4⟩ := matchTerms_one_cons _ _ _ _ h4
    have hz2 : z = 34 := by simpa [lit] using hz34
    have hm5 : m5 = 0 := by simpa [matchTerms] using h5.symm
    have hpos : 0 < (((a1.drop k1).drop k2).drop k3).length := by
      cases hd : ((a1.drop k1).drop k2).drop k3 with
      | nil =>
        rw [hd, List.nil_append] at hz
        injection hz with h0 _
        rw [hz2] at h0
        exact absurd h0 (by decide)
      | cons _ _ => simp
    simp only [List.length_drop, List.length_cons] at hpos hl2 hl3 ⊢
    omega

/-- The three collapses keep every occurrence of `git commit`. -/
theorem includes_commit_collapses (s : JStr) (h : includes gitCommit s = true) :
    includes gitCommit
      (replaceAll pQuotes [34]
        (replaceAll pHeredoc (u16 "\nEOF") (replaceAll pNewlines (u16 "\n\n") s))) = true := by
  have hgc : (10 : Nat) ∉ gitCommit ∧ (34 : Nat) ∉ gitCommit := by decide
  apply includes_commit_replaceAll pQuotes [34]
    (fun x t n hm => by
      obtain ⟨_, t2, ht⟩ := pQuotes_match_head _ n hm
      injection ht with h1 _
      rw [h1]; exact hgc.2) pQuotes_over_g
  apply includes_commit_replaceAll pHeredoc _
    (fun x t n hm => by
      obtain ⟨_, _, ⟨t2, ht⟩, _⟩ := pHeredoc_match _ n hm
      injection ht with h1 _
      rw [h1]; exact hgc.1) pHeredoc_over_g
  exact includes_commit_replaceAll pNewlines _
    (fun x t n hm => by
      obtain ⟨_, _, t2, ht⟩ := pNewlines_match _ n hm
      injection ht with h1 _
      rw [h1]; exact hgc.1) pNewlines_over_g s h

end Hooks

namespace Hooks

/-! ## The rewrite keeps a commit that no signature precedes on its line -/

/-- A signature pattern that starts no match in `L` before `git commit` and the text `B`
starts none in `L` and `git commit` before a text whose first segment is a prefix of the
first segment of `B`. -/
theorem commit_line_none {p : List Term} (hp : IsSigNL p)
    (hgc : ∀ u, u <:+ gitCommit → u ≠ [] → ∀ R, matchTerms p (u ++ R) = none)
    (L B Q : JStr)
    (hL : ∀ l, l <:+ L → l ≠ [] → matchTerms p (l ++ (gitCommit ++ B)) = none)
    (hQ : seg Q <+: seg B) :
    ∀ u, u <:+ L ++ gitCommit → u ≠ [] → matchTerms p (u ++ Q) = none := by
  intro u hu hne
  rcases suffix_append_cases _ _ u hu with ⟨l, hl, rfl⟩ | hu2
  · cases l with
    | nil => exact hgc _ (List.suffix_refl _) (by decide) Q
    | cons x t =>
      apply isSigNL_segMonotone hp _ ((x :: t) ++ (gitCommit ++ B))
      · rw [List.append_assoc]
        exact seg_append_mono _ _ _ (seg_append_mono _ _ _ hQ)
      · exact hL _ hl (by simp)
  · exact hgc u hu2 hne Q

theorem pCoClaude_none_in_commit (u : JStr) (hu : u <:+ gitCommit) (hne : u ≠ []) (R : JStr) :
    matchTerms pCoClaude (u ++ R) = none := by
  rw [pCoClaude_eq]
  exact sigNL_none_before_commit coAuthoredBy 67 _ rfl (by decide) (by decide) tClaude []
    (by decide) u hu hne R

theorem pCoAnthropic_none_in_commit (u : JStr) (hu : u <:+ gitCommit) (hne : u ≠ [])
    (R : JStr) : matchTerms pCoAnthropic (u ++ R) = none := by
  rw [pCoAnthropic_eq]
  exact sigNL_none_before_commit coAuthoredBy 67 _ rfl (by decide) (by decide) tAnthropic []
    (by decide) u hu hne R

theorem pRobot_none_in_commit (u : JStr) (hu : u <:+ gitCommit) (hne : u ≠ []) (R : JStr) :
    matchTerms pRobot (u ++ R) = none := by
  rw [pRobot_eq]
  exact sigNL_none_before_commit robot 0xD83E _ rfl (by decide) (by decide) tClaude []
    (by decide) u hu hne R

/-- The three removals keep `L` and `git commit` when no signature starts in `L` and the
text before `L` is empty or ended by a newline. -/
theorem stripSignatures_keeps_commit_line (P L B : JStr)
    (hP : P = [] ∨ ∃ P0, P = P0 ++ [10])
    (hL : signatureStartsIn L (gitCommit ++ B) = false) :
    ∃ P2 Q, stripSignatures (P ++ ((L ++ gitCommit) ++ B)) = P2 ++ ((L ++ gitCommit) ++ Q) := by
  simp only [signatureStartsIn, Bool.or_eq_false_iff, startsIn_eq_false_iff] at hL
  obtain ⟨⟨h1, h2⟩, h3⟩ := hL
  have s1 : seg (replaceAll pCoClaude [] B) <+: seg B := seg_delete_isPrefix isSigNL_pCoClaude B
  have s2 : seg (replaceAll pCoAnthropic [] (replaceAll pCoClaude [] B)) <+: seg B :=
    (seg_delete_isPrefix isSigNL_pCoAnthropic _).trans s1
  obtain ⟨P1, hP1, e1⟩ := sig_pass_keeps_stretch isSigNL_pCoClaude P (L ++ gitCommit) B hP
    (commit_line_none isSigNL_pCoClaude pCoClaude_none_in_commit L B B h1
      (List.prefix_refl _))
  obtain ⟨P2, hP2, e2⟩ := sig_pass_keeps_stretch isSigNL_pCoAnthropic P1 (L ++ gitCommit)
    (replaceAll pCoClaude [] B) hP1
    (commit_line_none isSigNL_pCoAnthropic pCoAnthropic_none_in_commit L B _ h2 s1)
  obtain ⟨P3, _, e3⟩ := sig_pass_keeps_stretch isSigNL_pRobot P2 (L ++ gitCommit)
    (replaceAll pCoAnthropic [] (replaceAll pCoClaude [] B)) hP2
    (commit_line_none isSigNL_pRobot pRobot_none_in_commit L B _ h3 s2)
  exact ⟨P3, _, by unfold stripSignatures; rw [e1, e2, e3]⟩

/-- C18, as amended. The rewrite keeps a commit that no signature precedes on its line: for
every command `P + L + "git commit" + B` in which `P`, the lines before, is empty or ends
with a newline and no signature pattern matches at a position of `L`, the text before
`git commit` on its line, the cleaned command still contains `git commit`. -/
theorem rewrite_keeps_commit_on_its_line (P L B : JStr)
    (hP : P = [] ∨ P.getLast? = some 10)
    (hL : signatureStartsIn L (u16 "git commit" ++ B) = false) :
    includes (u16 "git commit") (cleanCommand (P ++ L ++ u16 "git commit" ++ B)) = true := by
  obtain ⟨P2, Q, h⟩ := stripSignatures_keeps_commit_line P L B (lines_cases P hP) hL
  have e : P ++ L ++ u16 "git commit" ++ B = P ++ ((L ++ gitCommit) ++ B) := by
    simp only [List.append_assoc]
    rfl
  have key : ∀ x, cleanCommand x = replaceAll pQuotes [34]
      (replaceAll pHeredoc (u16 "\nEOF") (replaceAll pNewlines (u16 "\n\n")
        (stripSignatures x))) := fun _ => rfl
  rw [e, key, h]
  apply includes_commit_collapses
  apply includes_of_suffix gitCommit _ (gitCommit ++ Q)
  · rw [List.append_assoc]
    exact (List.suffix_append L _).trans (List.suffix_append P2 _)
  · exact List.prefix_append _ _

/-- Witness of C18 as amended: a commit on the second line, after a line that holds a
trailer, with a trailer in its own message. -/
theorem rewrite_keeps_commit_on_its_line_witness :
    cleanCommand (u16 "echo Co-Authored-By: Claude\n" ++ u16 "cd app && " ++ u16 "git commit" ++
        u16 " -m x\n\nCo-Authored-By: Claude <noreply@anthropic.com>\n") =
      u16 "echo \ncd app && git commit -m x\n\n" ∧
    includes (u16 "git commit")
      (cleanCommand (u16 "echo Co-Authored-By: Claude\n" ++ u16 "cd app && " ++
        u16 "git commit" ++
        u16 " -m x\n\nCo-Authored-By: Claude <noreply@anthropic.com>\n")) = true :=
  ⟨by decide,
    rewrite_keeps_commit_on_its_line (u16 "echo Co-Authored-By: Claude\n") (u16 "cd app && ")
      (u16 " -m x\n\nCo-Authored-By: Claude <noreply@anthropic.com>\n")
      (Or.inr (by decide)) (by decide)⟩

end Hooks
